import Mathlib

/-!
# Husky memory allocator

A verification development for the free-list allocator of `hmem.c`
(`add`, `hmalloc`, `hfree`, `hrealloc`) and for the per-thread bucket allocator
of `par_malloc.c` (`xmalloc`, `check_buckets`, `coalesce`, `large_allocation`,
`xfree`, `xrealloc`).

Two embeddings of the C functions of `hmem.c` are given; the bucket allocator is
embedded on byte-addressed memory (`Husky.Par`).

* `Husky`: the free list is the sequence of nodes reachable from the global
  `freelist` pointer, each node being its address and its `size` field; the
  headers of live blocks are kept in a word map.  Pointer surgery on `next`
  fields becomes list surgery.  This is the level at which the free-list
  invariants (ordering, adjacency, node bookkeeping, page counts) are stated.
  It is the code's free list on heaps whose blocks and nodes are each at
  least as long as a list cell (16 bytes) and share no byte: there the
  byte-level functions compute what the list-level ones do
  (`Raw.hmalloc_seg`, `Raw.hfree_seg`).  A block shorter than a list cell,
  which a request below 8 bytes produces, is outside this level: the stores
  of `add` and of the coalescing loop then reach into the neighbouring block,
  and what the code does is read off `Husky.Raw`.
* `Husky.Raw`: byte-addressed memory, the `freelist` pointer and the `next`
  fields are plain 64-bit words in that memory and the loops run on fuel.
  This is the level that is needed as soon as the contents of memory matter
  (`hrealloc` and its `memcpy`, blocks shorter than a list cell).  Reads and
  writes are not checked against the set of mapped pages, and `munmap` leaves
  the bytes in place; the worked executions stay inside the pages they map,
  and where a chain ends up pointing outside them this is said.

The worked executions are run on both embeddings.

`size_t` is 64 bits wide; where the code's arithmetic can wrap on a
caller-supplied value (`size += sizeof(size_t)` in `hmalloc`, the byte length
`pages * PAGE_SIZE` given to `mmap` and `munmap`) it is reduced modulo
`2 ^ 64`.  The address returned by `mmap` is chosen by the kernel and is
an argument of the embedded functions.
-/

namespace Husky

/-- Number of values of a `size_t`. -/
def WORD : Nat := 2 ^ 64

/-- The width of a block header, `sizeof(size_t)`. -/
def headerWidth : Nat := 8

/-- The width of a free-list cell, `sizeof(free_list_node)`. -/
def nodeWidth : Nat := 16

/-- The constant `PAGE_SIZE` of `hmem.c`. -/
def PAGE_SIZE : Nat := 4096

/-- A cell of the free list: where it lives and the value of its `size` field.
The `next` field is the position in the list. -/
structure Node where
  addr : Nat
  size : Nat
deriving DecidableEq, Repr

/-- The counters of `hm_stats` (`free_length` is recomputed on demand). -/
structure hm_stats where
  pages_mapped : Nat
  pages_unmapped : Nat
  chunks_allocated : Nat
  chunks_freed : Nat
deriving DecidableEq, Repr

/-- The allocator's global state: the chain hanging off `freelist`, the
`size_t` stored at the start of every block handed out, and `stats`.  The two
logs record the calls made to the kernel, as address and byte length (the
length is a `size_t` argument, hence reduced modulo `2 ^ 64`). -/
structure State where
  freelist : List Node
  header : Nat → Nat
  stats : hm_stats
  mmap_log : List (Nat × Nat)
  munmap_log : List (Nat × Nat)

/-- The state of a freshly loaded program: static storage is zeroed. -/
def State.init : State :=
  { freelist := [], header := fun _ => 0, stats := ⟨0, 0, 0, 0⟩,
    mmap_log := [], munmap_log := [] }

/-- The function `free_list_length`. -/
def free_list_length (st : State) : Nat := st.freelist.length

/-- The function `div_up`: quotient rounded up. -/
def div_up (xx yy : Nat) : Nat :=
  let zz := xx / yy
  if zz * yy = xx then zz else zz + 1

/-- Store of one header word. -/
def setHeader (h : Nat → Nat) (a v : Nat) : Nat → Nat :=
  fun x => if x = a then v else h x

/-- The `for` loop of `add`.  `pre` holds the cells already walked over, `saved`
is the C variable of that name (`none` for the null pointer), and the list
argument is the chain starting at `temp`. -/
def add_loop (node : Node) (pre : List Node) (saved : Option Node) : List Node → List Node
  | [] => pre
  | [temp] =>
      -- `!temp->next`: at the end of the free list
      if node.addr > temp.addr then
        -- `temp->next = node; node->next = 0;`
        pre ++ [temp, node]
      else
        -- `freelist = node; node->next = temp;`
        [node, temp]
  | temp :: nxt :: rest =>
      if (match saved with | none => 0 | some s => s.addr) < node.addr
          ∧ temp.addr > node.addr ∧ saved.isSome = true then
        -- `saved->next = node; node->next = temp;`
        pre ++ node :: temp :: nxt :: rest
      else
        add_loop node (pre ++ [temp]) (some temp) (nxt :: rest)

/-- The function `add`: link a cell into the free list. -/
def add (node : Node) (freelist : List Node) : List Node :=
  match freelist with
  | [] => [node]
  | _ => add_loop node [] none freelist

/-- The inner loop of `hmalloc` that takes `temp` out of the chain: the first
cell whose address is `temp` is skipped over. -/
def unlink (temp : Node) : List Node → List Node
  | [] => []
  | node :: rest => if node.addr = temp.addr then rest else node :: unlink temp rest

/-- The function `hmalloc`.  `page` is the address `mmap` returns if it is
called.  The result is the pointer handed to the caller and the new state. -/
def hmalloc (st : State) (page : Nat) (size : Nat) : Nat × State :=
  let stats := { st.stats with chunks_allocated := st.stats.chunks_allocated + 1 }
  let size := (size + headerWidth) % WORD
  if size < PAGE_SIZE then
    match st.freelist.find? (fun temp => decide (temp.size ≥ size)) with
    | some temp =>
        let fl := unlink temp st.freelist
        let fl :=
          if temp.size - size > nodeWidth then
            add { addr := temp.addr + size, size := temp.size - size } fl
          else fl
        (temp.addr + headerWidth,
          { st with freelist := fl, header := setHeader st.header temp.addr size,
                    stats := stats })
    | none =>
        let stats := { stats with pages_mapped := stats.pages_mapped + 1 }
        let fl :=
          if PAGE_SIZE - size > nodeWidth then
            add { addr := page + size, size := PAGE_SIZE - size } st.freelist
          else st.freelist
        (page + headerWidth,
          { st with freelist := fl, header := setHeader st.header page size, stats := stats,
                    mmap_log := (page, PAGE_SIZE) :: st.mmap_log })
  else
    let stats := { stats with pages_mapped := stats.pages_mapped + div_up size PAGE_SIZE }
    (page + headerWidth,
      { st with header := setHeader st.header page size, stats := stats,
                mmap_log := (page, (div_up size PAGE_SIZE * PAGE_SIZE) % WORD) :: st.mmap_log })

/-- The coalescing loop of `hfree` after its first iteration.  `out` holds the
cells that are final, `saved` is the C variable with its current `size`,
`linked` tells whether `saved` is still reachable from `freelist`, and the list
argument is the chain starting at `temp`. -/
def coalesce_loop (out : List Node) (saved : Node) (linked : Bool) : List Node → List Node
  | [] => if linked then out ++ [saved] else out
  | temp :: rest =>
      if saved.addr + saved.size = temp.addr then
        -- `saved->size = saved->size + temp->size; saved->next = temp->next;`
        if linked then
          coalesce_loop (out ++ [{ saved with size := saved.size + temp.size }]) temp false rest
        else
          coalesce_loop out temp true rest
      else
        coalesce_loop (if linked then out ++ [saved] else out) temp true rest

/-- The coalescing pass of `hfree`: the first iteration (`saved` is null) looks
at `temp` and `temp->next`, every later one at `saved` and `temp`. -/
def coalesce : List Node → List Node
  | [] => []
  | [temp] => [temp]
  | temp :: nxt :: rest =>
      if temp.addr + temp.size = nxt.addr then
        -- `temp->size = temp->size + temp->next->size; temp->next = temp->next->next;`
        coalesce_loop [] { temp with size := temp.size + nxt.size } true rest
      else
        coalesce_loop [] temp true (nxt :: rest)

/-- The function `hfree` on the list of nodes.  The node built from the header
is taken to hold a list cell, so that the stores into it and into the cells of
the list touch nothing else; for a block shorter than 16 bytes `Raw.hfree` is
the embedding to use. -/
def hfree (st : State) (item : Nat) : State :=
  let stats := { st.stats with chunks_freed := st.stats.chunks_freed + 1 }
  let newNode := item - headerWidth
  if st.header newNode < PAGE_SIZE then
    { st with freelist := coalesce (add { addr := newNode, size := st.header newNode } st.freelist),
              stats := stats }
  else
    let pages := div_up (st.header newNode) PAGE_SIZE
    { st with stats := { stats with pages_unmapped := stats.pages_unmapped + pages },
              munmap_log := (newNode, (pages * PAGE_SIZE) % WORD) :: st.munmap_log }

/-- Strictly ascending node addresses. -/
def Ascending (l : List Node) : Prop := l.Pairwise (fun a b => a.addr < b.addr)

/-- No node reaches into a later one. -/
def NonOverlapping (l : List Node) : Prop := l.Pairwise (fun a b => a.addr + a.size ≤ b.addr)

/-- Some node ends exactly where its successor in the list begins. -/
def hasAdjacent : List Node → Bool
  | [] => false
  | [_] => false
  | a :: b :: rest => decide (a.addr + a.size = b.addr) || hasAdjacent (b :: rest)

/-- The block `[a, a + n)` shares no byte with any node of the list. -/
def Apart (a n : Nat) (l : List Node) : Prop :=
  ∀ x ∈ l, a + n ≤ x.addr ∨ x.addr + x.size ≤ a

instance (l : List Node) : Decidable (Ascending l) :=
  inferInstanceAs (Decidable (l.Pairwise (fun (a b : Node) => a.addr < b.addr)))

instance (l : List Node) : Decidable (NonOverlapping l) :=
  inferInstanceAs (Decidable (l.Pairwise (fun (a b : Node) => a.addr + a.size ≤ b.addr)))

instance (a n : Nat) (l : List Node) : Decidable (Apart a n l) :=
  inferInstanceAs (Decidable (∀ x ∈ l, a + n ≤ x.addr ∨ x.addr + x.size ≤ a))

/-- The ceiling of a quotient, as the specification writes `ceil(a / b)`. -/
def ceil_div (a b : Nat) : Nat := (a + b - 1) / b

/-- Address of the first page the kernel hands out in the worked examples. -/
def pageA : Nat := 65536

/-- Address of the second page the kernel hands out in the worked examples. -/
def pageB : Nat := 69632

/-- A client program that leaves three neighbouring blocks `a`, `b`, `c` of one
page with `a` and `c` free and `b` live, `a` not being the head of the list:
six blocks of 100 bytes `x, g, a, b, c, h` are carved from the first page, `x`
is released, a request of 3500 bytes maps a second page, then `c` and `a` are
released.  The result is the state reached and the pointer `b`. -/
def threeChain : State × Nat :=
  let x := hmalloc State.init pageA 100
  let g := hmalloc x.2 pageB 100
  let a := hmalloc g.2 pageB 100
  let b := hmalloc a.2 pageB 100
  let c := hmalloc b.2 pageB 100
  let h := hmalloc c.2 pageB 100
  let s := hfree h.2 x.1
  let big := hmalloc s pageB 3500
  let s := hfree big.2 c.1
  let s := hfree s a.1
  (s, b.1)

/-- A client program for coalescing: `a = hmalloc(s1); b = hmalloc(s2)`, both
released (`a` first when `aFirst`), then `hmalloc(s1 + s2 + headerWidth)`.  The
result is `a`, `b` and the final state. -/
def twoBlocks (s1 s2 : Nat) (aFirst : Bool) : Nat × Nat × State :=
  let a := hmalloc State.init pageA s1
  let b := hmalloc a.2 pageB s2
  let s := if aFirst then hfree (hfree b.2 a.1) b.1 else hfree (hfree b.2 b.1) a.1
  (a.1, b.1, (hmalloc s pageB (s1 + s2 + headerWidth)).2)

namespace Raw

/-- Byte-addressed memory: the byte stored at every address. -/
abbrev Mem := Nat → Nat

/-- Read of `k` bytes at `a` as a little-endian number. -/
def loadN (m : Mem) (a : Nat) : Nat → Nat
  | 0 => 0
  | k + 1 => m a % 256 + 256 * loadN m (a + 1) k

/-- Read of a `size_t` (or a pointer) at address `a`. -/
def load (m : Mem) (a : Nat) : Nat := loadN m a 8

/-- Write of a `size_t` (or a pointer) at address `a`. -/
def store (m : Mem) (a v : Nat) : Mem :=
  fun x => if a ≤ x ∧ x < a + 8 then (v / 256 ^ (x - a)) % 256 else m x

/-- The effect of `memcpy(dst, src, n)` on memory. -/
def memcpy (m : Mem) (dst src n : Nat) : Mem :=
  fun x => if dst ≤ x ∧ x < dst + n then m (src + (x - dst)) else m x

/-- A fresh anonymous mapping of `len` bytes at `page` reads as zero. -/
def mmap (m : Mem) (page len : Nat) : Mem :=
  fun x => if page ≤ x ∧ x < page + len then 0 else m x

/-- Memory, the global `freelist` pointer and the global `stats`. -/
structure State where
  mem : Mem
  freelist : Nat
  stats : hm_stats

/-- The state of a freshly loaded program. -/
def State.init : State :=
  { mem := fun _ => 0, freelist := 0, stats := ⟨0, 0, 0, 0⟩ }

/-- The `for` loop of `add`, on at most `fuel` iterations. -/
def add_loop (node : Nat) : Nat → State → Nat → Nat → Option State
  | 0, _, _, _ => none
  | fuel + 1, st, saved, temp =>
      if temp = 0 then some st
      else if load st.mem (temp + 8) = 0 then
        if node > temp then
          some { st with mem := store (store st.mem (temp + 8) node) (node + 8) 0 }
        else
          some { st with freelist := node, mem := store st.mem (node + 8) temp }
      else if saved < node ∧ temp > node ∧ saved ≠ 0 then
        some { st with mem := store (store st.mem (saved + 8) node) (node + 8) temp }
      else add_loop node fuel st temp (load st.mem (temp + 8))

/-- The function `add`. -/
def add (fuel : Nat) (st : State) (node : Nat) : Option State :=
  if st.freelist = 0 then
    some { st with freelist := node, mem := store st.mem (node + 8) 0 }
  else add_loop node fuel st 0 st.freelist

/-- The search loop of `hmalloc`: the first cell with `temp->size >= size`, or
the null pointer. -/
def find_fit (size : Nat) : Nat → Mem → Nat → Option Nat
  | 0, _, _ => none
  | fuel + 1, m, temp =>
      if temp = 0 then some 0
      else if load m temp ≥ size then some temp
      else find_fit size fuel m (load m (temp + 8))

/-- The inner loop of `hmalloc` that takes `temp` out of the chain. -/
def unlink_loop (temp : Nat) : Nat → State → Nat → Nat → Option State
  | 0, _, _, _ => none
  | fuel + 1, st, saved, node =>
      if node = 0 then some st
      else if node = temp then
        if saved = 0 then some { st with freelist := load st.mem (temp + 8) }
        else some { st with mem := store st.mem (saved + 8) (load st.mem (node + 8)) }
      else unlink_loop temp fuel st node (load st.mem (node + 8))

/-- The function `hmalloc`; `page` is the address `mmap` returns if called. -/
def hmalloc (fuel : Nat) (st : State) (page : Nat) (size : Nat) : Option (Nat × State) :=
  let st := { st with stats := { st.stats with chunks_allocated := st.stats.chunks_allocated + 1 } }
  let size := (size + 8) % WORD
  if size < PAGE_SIZE then
    match find_fit size fuel st.mem st.freelist with
    | none => none
    | some temp =>
        if temp ≠ 0 then
          match unlink_loop temp fuel st 0 st.freelist with
          | none => none
          | some st =>
              let carved :=
                if (load st.mem temp + WORD - size) % WORD > 16 then
                  let newNode := temp + size
                  let rest := (load st.mem temp + WORD - size) % WORD
                  add fuel { st with mem := store st.mem newNode rest } newNode
                else some st
              match carved with
              | none => none
              | some st => some (temp + 8, { st with mem := store st.mem temp size })
        else
          let st := { st with mem := mmap st.mem page PAGE_SIZE,
                              stats := { st.stats with pages_mapped := st.stats.pages_mapped + 1 } }
          let carved :=
            if PAGE_SIZE - size > 16 then
              let newNode := page + size
              add fuel { st with mem := store st.mem newNode (PAGE_SIZE - size) } newNode
            else some st
          match carved with
          | none => none
          | some st => some (page + 8, { st with mem := store st.mem page size })
  else
    let st := { st with mem := mmap st.mem page ((div_up size PAGE_SIZE * PAGE_SIZE) % WORD),
                        stats := { st.stats with
                          pages_mapped := st.stats.pages_mapped + div_up size PAGE_SIZE } }
    some (page + 8, { st with mem := store st.mem page size })

/-- The coalescing loop of `hfree`, on at most `fuel` iterations. -/
def coalesce_loop : Nat → State → Nat → Nat → Option State
  | 0, _, _, _ => none
  | fuel + 1, st, saved, temp =>
      if temp = 0 then some st
      else
        let st :=
          if saved = 0 then
            if (temp + load st.mem temp) % WORD = load st.mem (temp + 8) then
              let m := store st.mem temp
                ((load st.mem temp + load st.mem (load st.mem (temp + 8))) % WORD)
              { st with mem := store m (temp + 8) (load m (load m (temp + 8) + 8)) }
            else st
          else
            if (saved + load st.mem saved) % WORD = temp then
              let m := store st.mem saved ((load st.mem saved + load st.mem temp) % WORD)
              { st with mem := store m (saved + 8) (load m (temp + 8)) }
            else st
        coalesce_loop fuel st temp (load st.mem (temp + 8))

/-- The function `hfree`. -/
def hfree (fuel : Nat) (st : State) (item : Nat) : Option State :=
  let st := { st with stats := { st.stats with chunks_freed := st.stats.chunks_freed + 1 } }
  let newNode := item - 8
  if load st.mem newNode < PAGE_SIZE then
    let st := { st with mem := store st.mem newNode (load st.mem newNode) }
    match add fuel st newNode with
    | none => none
    | some st => coalesce_loop fuel st 0 st.freelist
  else
    let pages := div_up (load st.mem newNode) PAGE_SIZE
    some { st with stats := { st.stats with pages_unmapped := st.stats.pages_unmapped + pages } }

/-- The function `hrealloc`. -/
def hrealloc (fuel : Nat) (st : State) (page : Nat) (prev bytes : Nat) : Option (Nat × State) :=
  let prev_size := load st.mem (prev - 8)
  match hmalloc fuel st page bytes with
  | none => none
  | some (result, st) =>
      let st := { st with mem := memcpy st.mem result prev prev_size }
      match hfree fuel st prev with
      | none => none
      | some st => some (result, st)

/-- The cells reachable from `a` through the `next` fields, walked the way
`free_list_length` walks them, on at most `fuel` steps. -/
def free_nodes (m : Mem) : Nat → Nat → List Node
  | 0, _ => []
  | fuel + 1, a => if a = 0 then [] else ⟨a, load m a⟩ :: free_nodes m fuel (load m (a + 8))

/-- The client program of `Husky.threeChain` on byte-addressed memory. -/
def threeChain : Option (State × Nat) :=
  (hmalloc 8 State.init pageA 100).bind fun x =>
  (hmalloc 8 x.2 pageB 100).bind fun g =>
  (hmalloc 8 g.2 pageB 100).bind fun a =>
  (hmalloc 8 a.2 pageB 100).bind fun b =>
  (hmalloc 8 b.2 pageB 100).bind fun c =>
  (hmalloc 8 c.2 pageB 100).bind fun h =>
  (hfree 8 h.2 x.1).bind fun s =>
  (hmalloc 8 s pageB 3500).bind fun big =>
  (hfree 8 big.2 c.1).bind fun s =>
  (hfree 8 s a.1).bind fun s =>
  some (s, b.1)

/-- The client program of `Husky.twoBlocks` on byte-addressed memory, with `a`
released first. -/
def twoBlocks (s1 s2 : Nat) : Option (Nat × Nat × State) :=
  (hmalloc 8 State.init pageA s1).bind fun a =>
  (hmalloc 8 a.2 pageB s2).bind fun b =>
  (hfree 8 b.2 a.1).bind fun s =>
  (hfree 8 s b.1).bind fun s =>
  (hmalloc 8 s pageB (s1 + s2 + 8)).bind fun r =>
  some (a.1, b.1, r.2)

/-- A client program that shrinks a buffer.  `a = hmalloc(100)` and
`p = hmalloc(100)` are carved from the first page; the client fills `p` (bytes
8 and 9 with `0xAB`, the word at offset 18 with the number `a - 8`, zero
elsewhere); `a` is released; then `q = hrealloc(p, 10)`.  The result is `p`,
`q`, the state just before `hrealloc` and the state after it. -/
def shrink : Option (Nat × Nat × State × State) :=
  (hmalloc 8 State.init pageA 100).bind fun a =>
  (hmalloc 8 a.2 pageB 100).bind fun p =>
  let filled := { p.2 with mem := store (store p.2.mem (p.1 + 18) (a.1 - 8)) (p.1 + 8) 0xABAB }
  (hfree 8 filled a.1).bind fun s =>
  (hrealloc 8 s pageB p.1 10).bind fun q =>
  some (p.1, q.1, s, q.2)

/-- A client program that shrinks the only buffer of a fresh heap:
`p = hmalloc(100)`, the client writes `0xAB` into bytes 48 to 55 of `p`, then
`q = hrealloc(p, 10)`.  The result is `p`, `q`, the state just before
`hrealloc` and the state after it. -/
def shrinkFresh : Option (Nat × Nat × State × State) :=
  (hmalloc 8 State.init pageA 100).bind fun p =>
  let filled := { p.2 with mem := store p.2.mem (p.1 + 48) 0xABABABABABABABAB }
  (hrealloc 8 filled pageB p.1 10).bind fun q =>
  some (p.1, q.1, filled, q.2)

end Raw

/-- A client program that leaves a free node of 132 bytes at the head of the
list: `x = hmalloc(124)` and `g = hmalloc(100)` are carved from the first page
and `x` is released.  The result is the state reached. -/
def slack24 : State :=
  let x := hmalloc State.init pageA 124
  let g := hmalloc x.2 pageB 100
  hfree g.2 x.1

namespace Raw

/-- The client program `x = hmalloc(0); y = hmalloc(100); hfree(x)` from the
initial state.  The result is `x`, `y`, the state before `hfree(x)` and the
state after it. -/
def zeroBlock : Option (Nat × Nat × State × State) :=
  (hmalloc 8 State.init pageA 0).bind fun x =>
  (hmalloc 8 x.2 pageB 100).bind fun y =>
  (hfree 8 y.2 x.1).bind fun s =>
  some (x.1, y.1, y.2, s)

/-- The client program `x = hmalloc(0); hfree(x)` from the initial state.  The
result is `x`, the state before `hfree(x)` and the state after it. -/
def zeroAlone : Option (Nat × State × State) :=
  (hmalloc 8 State.init pageA 0).bind fun x =>
  (hfree 8 x.2 x.1).bind fun s =>
  some (x.1, x.2, s)

/-- The state in which `hfree(b)` of `Husky.twoBlocks 2000 100 true` calls
`add`: `a = hmalloc(2000); b = hmalloc(100); hfree(a)`, and `b`. -/
def beforeAdd : Option (State × Nat) :=
  (hmalloc 8 State.init pageA 2000).bind fun a =>
  (hmalloc 8 a.2 pageB 100).bind fun b =>
  (hfree 8 b.2 a.1).bind fun s =>
  some (s, b.1)

/-- The client program of `Husky.slack24` on byte-addressed memory. -/
def slack24 : Option State :=
  (hmalloc 8 State.init pageA 124).bind fun x =>
  (hmalloc 8 x.2 pageB 100).bind fun g =>
  hfree 8 g.2 x.1

end Raw

/-! ## The bucket allocator of `par_malloc.c`

One thread's arena on byte-addressed memory: `bucket` is the thread-local
array, the loops run on fuel, and the `k`-th successful `mmap` of the thread
returns `pages k`.  `ceil(log2((double) bytes))` is taken as the exact ceiling
of the binary logarithm: the two agree for every request below `2 ^ 32` bytes,
and every larger request selects the large path with either.  The overlapping
`memcpy` of `coalesce` is taken as a move: the bytes are read before they are
overwritten.  `munmap` is taken to succeed and leaves the bytes in place.
The reads of `coalesce` are checked against the mapping of the page they walk:
a read past its end has no result. -/

namespace Par

/-- The constant `PAGE_SIZE` of `par_malloc.c`. -/
def PAGE_SIZE : Nat := 2000000

/-- The constant `MIN_SIZE`. -/
def MIN_SIZE : Nat := 16

/-- The variable `INDEX_DECREMENT`, `log2(MIN_SIZE)`. -/
def INDEX_DECREMENT : Nat := 4

/-- The variable `BUCKETS`. -/
def BUCKETS : Nat := 19

/-- Memory, the thread's `bucket` array and the calls made to the kernel
(address and byte length, latest first). -/
structure State where
  mem : Raw.Mem
  bucket : Nat → Nat
  mmap_log : List (Nat × Nat)
  munmap_log : List (Nat × Nat)

/-- A thread that has not allocated yet. -/
def State.init : State :=
  { mem := fun _ => 0, bucket := fun _ => 0, mmap_log := [], munmap_log := [] }

/-- Assignment `bucket[index] = head`. -/
def setBucket (b : Nat → Nat) (index head : Nat) : Nat → Nat :=
  fun i => if i = index then head else b i

/-- Search for the least exponent `k`, counting up, with `n ≤ 2 ^ k`. -/
def ceil_log2_from (n : Nat) : Nat → Nat → Nat
  | 0, k => k
  | fuel + 1, k => if n ≤ 2 ^ k then k else ceil_log2_from n fuel (k + 1)

/-- The least `k` with `n ≤ 2 ^ k`, the value of `ceil(log2(n))` for a `size_t`
`n ≥ 1`. -/
def ceil_log2 (n : Nat) : Nat := ceil_log2_from n 64 0

/-- The value an `int` holding the low 32 bits of `x` has once it is converted
to `size_t` for a comparison. -/
def int_as_size_t (x : Nat) : Nat :=
  let a := x % 2 ^ 32
  if a < 2 ^ 31 then a else a + (2 ^ 64 - 2 ^ 32)

/-- The byte length `large_allocation` passes to `mmap`: `PAGE_SIZE` for a
request below `PAGE_SIZE`, else `pages_needed * PAGE_SIZE` with
`pages_needed = ceil(PAGE_SIZE / bytes)`, a quotient of two `size_t`. -/
def large_length (bytes : Nat) : Nat :=
  if bytes < PAGE_SIZE then PAGE_SIZE else (PAGE_SIZE / bytes) * PAGE_SIZE

/-- The function `large_allocation`; `page` is the address `mmap` returns.  A
mapping of length zero is refused by the kernel, `MAP_FAILED` passes the
`assert` and the store of the header faults: no result. -/
def large_allocation (st : State) (page : Nat) (bytes : Nat) : Option (Nat × State) :=
  if large_length bytes = 0 then none
  else
    let m := Raw.mmap st.mem page (large_length bytes)
    some (page + 8,
      { st with mem := Raw.store m page bytes,
                mmap_log := (page, large_length bytes) :: st.mmap_log })

/-- End of the mapping the kernel makes for `mmap(NULL, PAGE_SIZE, ...)` at
`head`: the kernel maps whole pages of 4096 bytes, so the length is rounded
up. -/
def mapping_end (head : Nat) : Nat := head + (PAGE_SIZE + 4095) / 4096 * 4096

/-- The inner `for` loop of `coalesce`: looks at `tad` for a chunk whose header
is `size`, advancing `tad` and `bytes` by one chunk width while
`bytes < PAGE_SIZE`.  The result is `more` and the final `bytes`.  A read that
does not end by `limit`, the end of the page's mapping, has no defined result
(the process faults unless another mapping happens to follow): no result. -/
def scan (size : Nat) (m : Raw.Mem) (limit : Nat) : Nat → Nat → Nat → Option (Bool × Nat)
  | 0, _, _ => none
  | fuel + 1, tad, bytes =>
      if bytes < PAGE_SIZE then
        if tad + 8 ≤ limit then
          if Raw.load m tad = size then some (true, bytes)
          else scan size m limit fuel (tad + (size + 8)) (bytes + (size + 8))
        else none
      else some (false, bytes)

/-- The `while` loop of `coalesce`.  The result is memory and `removed`.  The
read of the chunk header at `start` and the `memcpy`, which reads
`PAGE_SIZE - bytes` bytes from one chunk width behind `start`, have no result
when they do not end by `limit`, the end of the page's mapping. -/
def sweep (size limit : Nat) : Nat → Raw.Mem → Nat → Nat → Nat → Option (Raw.Mem × Nat)
  | 0, _, _, _, _ => none
  | fuel + 1, m, start, bytes, removed =>
      if bytes ≤ PAGE_SIZE then
        if start + 8 ≤ limit then
          if Raw.load m start = 0 then
            match scan size m limit (fuel + 1) (start + 8 + size) bytes with
            | none => none
            | some (true, bytes) =>
                if start + (size + 8) + (PAGE_SIZE - bytes) ≤ limit then
                  sweep size limit fuel
                    (Raw.memcpy m start (start + (size + 8)) (PAGE_SIZE - bytes))
                    start bytes (removed + 1)
                else none
            | some (false, _) => some (m, removed)
          else sweep size limit fuel m (start + (size + 8)) (bytes + (size + 8)) removed
        else none
      else some (m, removed)

/-- The function `coalesce`. -/
def coalesce (fuel : Nat) (st : State) (index size : Nat) : Option State :=
  let head := st.bucket index
  match sweep size (mapping_end head) fuel st.mem (head + 8) 8 0 with
  | none => none
  | some (m, removed) =>
      some { st with mem := Raw.store m head ((Raw.load m head + WORD - removed % WORD) % WORD) }

/-- The bump allocation that ends `check_buckets`: the next chunk after the
last one counted in `head->size`. -/
def bump (st : State) (head size : Nat) : Nat × State :=
  let addy := head + 8 + (Raw.load st.mem head * (size + 8)) % WORD
  let m := Raw.store st.mem addy size
  (addy + 8, { st with mem := Raw.store m head ((Raw.load m head + 1) % WORD) })

/-- The function `check_buckets`. -/
def check_buckets (pages : Nat → Nat) : Nat → State → Nat → Nat → Option (Nat × State)
  | 0, _, _, _ => none
  | fuel + 1, st, index, bytes =>
      let st :=
        if st.bucket index = 0 then
          let head := pages st.mmap_log.length
          { st with mem := Raw.store (Raw.mmap st.mem head PAGE_SIZE) head 0,
                    bucket := setBucket st.bucket index head,
                    mmap_log := (head, PAGE_SIZE) :: st.mmap_log }
        else st
      let head := st.bucket index
      let size := 2 ^ (index + INDEX_DECREMENT)
      let allocated := int_as_size_t ((Raw.load st.mem head * (size + 8)) % WORD)
      if allocated ≥ PAGE_SIZE - 8 then
        match coalesce fuel st index size with
        | none => none
        | some st =>
            if (Raw.load st.mem head * (size + 8)) % WORD ≥ PAGE_SIZE - 8 then
              if index + 1 ≥ BUCKETS then
                large_allocation st (pages st.mmap_log.length) bytes
              else check_buckets pages fuel st (index + 1) bytes
            else some (bump st head size)
      else some (bump st head size)

/-- The function `xmalloc`. -/
def xmalloc (pages : Nat → Nat) (fuel : Nat) (st : State) (bytes : Nat) :
    Option (Nat × State) :=
  let bytes := if bytes < MIN_SIZE then MIN_SIZE else bytes
  let index := ceil_log2 bytes - INDEX_DECREMENT
  if index ≥ BUCKETS then large_allocation st (pages st.mmap_log.length) bytes
  else
    let size := 2 ^ (index + INDEX_DECREMENT)
    if st.bucket index = 0 then
      let head := pages st.mmap_log.length
      let m := Raw.store (Raw.mmap st.mem head PAGE_SIZE) head 1
      some (head + 8 + 8,
        { st with mem := Raw.store m (head + 8) size,
                  bucket := setBucket st.bucket index head,
                  mmap_log := (head, PAGE_SIZE) :: st.mmap_log })
    else check_buckets pages fuel st index bytes

/-- The function `xfree`. -/
def xfree (st : State) (ptr : Nat) : State :=
  let ptrsize := Raw.load st.mem (ptr - 8)
  if ptrsize > PAGE_SIZE then
    { st with munmap_log := (ptr - 8, ptrsize) :: st.munmap_log }
  else
    { st with mem := Raw.store st.mem (ptr - 8) 0 }

/-- The function `xrealloc`. -/
def xrealloc (pages : Nat → Nat) (fuel : Nat) (st : State) (prev bytes : Nat) :
    Option (Nat × State) :=
  let prev_size := Raw.load st.mem (prev - 8)
  match xmalloc pages fuel st bytes with
  | none => none
  | some (result, st) =>
      some (result, xfree { st with mem := Raw.memcpy st.mem result prev prev_size } prev)

/-- The width of a chunk of class `index`: header and payload. -/
def chunk_width (index : Nat) : Nat := 2 ^ (index + INDEX_DECREMENT) + 8

/-- The first fullness test of `check_buckets`, on the `int allocated`. -/
def looks_full (st : State) (index : Nat) : Prop :=
  int_as_size_t ((Raw.load st.mem (st.bucket index) * chunk_width index) % WORD)
    ≥ PAGE_SIZE - 8

/-- The second fullness test of `check_buckets`, made after `coalesce`. -/
def still_full (st : State) (index : Nat) : Prop :=
  (Raw.load st.mem (st.bucket index) * chunk_width index) % WORD ≥ PAGE_SIZE - 8

instance (st : State) (index : Nat) : Decidable (looks_full st index) :=
  inferInstanceAs (Decidable (_ ≥ _))

instance (st : State) (index : Nat) : Decidable (still_full st index) :=
  inferInstanceAs (Decidable (_ ≥ _))

/-- The class index `xmalloc` computes for a request of `s` bytes. -/
def class_index (s : Nat) : Nat :=
  ceil_log2 (if s < MIN_SIZE then MIN_SIZE else s) - INDEX_DECREMENT

/-- The addresses the kernel hands out in the worked examples: 16 MiB apart,
starting at 16 MiB. -/
def arenaPages (k : Nat) : Nat := 16777216 * (k + 1)

/-- The page of the 2048-byte class in the worked examples. -/
def classHead : Nat := arenaPages 0

/-- The pointer `xmalloc(2048)` returns for slot `k` of that page. -/
def chunkPtr (k : Nat) : Nat := classHead + 8 + k * 2056 + 8

/-- The chunk headers of the first `n` slots of the 2048-byte class page, every
other byte zero. -/
def headersMem (n : Nat) : Raw.Mem :=
  fun x =>
    if classHead + 8 ≤ x ∧ (x - (classHead + 8)) / 2056 < n
        ∧ (x - (classHead + 8)) % 2056 = 1 then 8 else 0

/-- The arena after `n ≥ 1` calls `xmalloc(2048)` by a fresh thread, in closed
form: one page, `head->size = n`, slots `0 .. n - 1` stamped with 2048. -/
def filled (n : Nat) : State :=
  { mem := Raw.store (headersMem n) classHead n,
    bucket := setBucket (fun _ => 0) 7 classHead,
    mmap_log := [(classHead, PAGE_SIZE)],
    munmap_log := [] }

/-- The arena after `n` calls `xmalloc(2048)` by a fresh thread, by running the
calls. -/
def fill : Nat → Option State
  | 0 => some State.init
  | n + 1 => (fill n).bind fun st => (xmalloc arenaPages 1 st 2048).map fun r => r.2

/-- A client program on the full 2048-byte class page: the thread has made 973
calls `xmalloc(2048)`, writes `0x1111` into chunk 1 and `0x2222` into chunk 2,
releases chunk 0 and calls `xmalloc(2048)` again.  The result is the state
before the last call, the pointer it returns and the state after it. -/
def compacting : Option (State × Nat × State) :=
  let st := filled 973
  let st := { st with mem := Raw.store (Raw.store st.mem (chunkPtr 1) 0x1111) (chunkPtr 2) 0x2222 }
  let st := xfree st (chunkPtr 0)
  (xmalloc arenaPages 1000 st 2048).map fun r => (st, r.1, r.2)

/-- Three calls `xmalloc(1500000)` by a fresh thread.  The result is the three
pointers and the final state. -/
def escalating : Option (Nat × Nat × Nat × State) :=
  (xmalloc arenaPages 10 State.init 1500000).bind fun a =>
  (xmalloc arenaPages 10 a.2 1500000).bind fun b =>
  (xmalloc arenaPages 10 b.2 1500000).bind fun c =>
  some (a.1, b.1, c.1, c.2)

end Par

/-- Address of the third page the kernel hands out in the worked examples. -/
def pageC : Nat := 77824

/-- A client program that leaves a free node of 124 bytes at the head of the
list: `x = hmalloc(116)` and `g = hmalloc(100)` are carved from the first page
and `x` is released.  The result is the state reached. -/
def slack16 : State :=
  let x := hmalloc State.init pageA 116
  let g := hmalloc x.2 pageB 100
  hfree g.2 x.1

namespace Raw

/-- The client program of `Husky.slack16` on byte-addressed memory. -/
def slack16 : Option State :=
  (hmalloc 8 State.init pageA 116).bind fun x =>
  (hmalloc 8 x.2 pageB 100).bind fun g =>
  hfree 8 g.2 x.1

end Raw

namespace Raw

/-- The program `for (i = 0; i < N; i++) hfree(hmalloc(s));` run from the
initial state on byte-addressed memory; `pages i` is what `mmap` would return
in round `i`. -/
def churn (pages : Nat → Nat) (s fuel : Nat) : Nat → Option State
  | 0 => some State.init
  | n + 1 =>
      (churn pages s fuel n).bind fun st =>
      (hmalloc fuel st (pages n) s).bind fun r => hfree fuel r.2 r.1

/-- The program `p = hmalloc(s); hfree(p); q = hmalloc(t)` run from the initial
state on byte-addressed memory.  The result is `p`, `q` and the final state. -/
def reuse (fuel page1 page2 s t : Nat) : Option (Nat × Nat × State) :=
  (hmalloc fuel State.init page1 s).bind fun p =>
  (hfree fuel p.2 p.1).bind fun st =>
  (hmalloc fuel st page2 t).bind fun q =>
  some (p.1, q.1, q.2)


/-- The cells of `l` are linked in memory from the pointer `a` to the pointer
`b`: every cell holds its size at its address and the address of the next one
eight bytes further. -/
def Seg (m : Mem) : Nat → List Node → Nat → Prop
  | a, [], b => a = b
  | a, n :: rest, b => a = n.addr ∧ load m n.addr = n.size ∧ Seg m (load m (n.addr + 8)) rest b

/-- The 16-byte cells of the nodes are in ascending order and share no byte,
no node is at the null address and none reaches the end of the address
space. -/
def Laid (l : List Node) : Prop :=
  l.Pairwise (fun a b => a.addr + 16 ≤ b.addr) ∧ ∀ n ∈ l, 0 < n.addr ∧ n.addr + n.size < WORD

/-- Whether a list of nodes is a chain in memory can be computed. -/
def decSeg (m : Mem) : (l : List Node) → (a b : Nat) → Decidable (Seg m a l b)
  | [], a, b => inferInstanceAs (Decidable (a = b))
  | n :: rest, a, b =>
      have : Decidable (Seg m (load m (n.addr + 8)) rest b) :=
        decSeg m rest (load m (n.addr + 8)) b
      inferInstanceAs (Decidable
        (a = n.addr ∧ load m n.addr = n.size ∧ Seg m (load m (n.addr + 8)) rest b))

instance (m : Mem) (l : List Node) (a b : Nat) : Decidable (Seg m a l b) := decSeg m l a b

instance (l : List Node) : Decidable (Laid l) :=
  inferInstanceAs (Decidable
    (l.Pairwise (fun (a b : Node) => a.addr + 16 ≤ b.addr)
      ∧ ∀ n ∈ l, 0 < n.addr ∧ n.addr + n.size < WORD))


/-- The client program of `threeChain` followed by a request of 3700 bytes,
which no free node can serve: a third page is mapped and its remainder is
linked behind the five nodes of the list.  The result is the state reached. -/
def sixNodes : State :=
  ((threeChain.bind fun r => hmalloc 8 r.1 pageC 3700).map fun r => r.2).getD State.init

/-- The state after one round `hfree(hmalloc(100))` from the initial state: the
first page is the only node of the free list. -/
def onePage : State :=
  (churn (fun _ => pageA) 100 8 1).getD State.init

/-- A client program with blocks shorter than a list cell: `x = hmalloc(2)` and
`y = hmalloc(0)` are carved from the first page, then `x` and `y` are released.
The result is the state reached. -/
def tinyBlocks : Option State :=
  (hmalloc 8 State.init pageA 2).bind fun x =>
  (hmalloc 8 x.2 pageB 0).bind fun y =>
  (hfree 8 y.2 x.1).bind fun s =>
  hfree 8 s y.1

end Raw

namespace Par

/-- A client program on the class of 1048576 bytes: `a = xmalloc(1000000)` and
`b = xmalloc(1000000)` by a fresh thread, `xfree(a)`, and a third
`xmalloc(1000000)`.  The result is what the third call returns. -/
def farCopy : Option (Nat × State) :=
  (xmalloc arenaPages 10 State.init 1000000).bind fun a =>
  (xmalloc arenaPages 10 a.2 1000000).bind fun b =>
  xmalloc arenaPages 10 (xfree b.2 a.1) 1000000

end Par

/-! # Theorems -/


/-! ## Ordering of the free list -/

/-- Putting a node between a lower and a higher part keeps the order. -/
theorem ascending_insert (node : Node) (l₁ l₂ : List Node)
    (h : Ascending (l₁ ++ l₂)) (h₁ : ∀ x ∈ l₁, x.addr < node.addr)
    (h₂ : ∀ x ∈ l₂, node.addr < x.addr) : Ascending (l₁ ++ node :: l₂) := by
  unfold Ascending at *
  rw [List.pairwise_append] at h ⊢
  obtain ⟨ha, hb, hab⟩ := h
  refine ⟨ha, List.pairwise_cons.2 ⟨h₂, hb⟩, ?_⟩
  intro a ha' b hb'
  rcases List.mem_cons.1 hb' with rfl | hb''
  · exact h₁ a ha'
  · exact hab a ha' b hb''

/-- The loop of `add` returns an ascending chain, whichever exit it takes. -/
theorem add_loop_ascending (node : Node) :
    ∀ (chain pre : List Node) (saved : Option Node),
      Ascending (pre ++ chain) →
      (∀ x ∈ chain, x.addr ≠ node.addr) →
      (∀ s, saved = some s → ∀ x ∈ pre, x.addr ≤ s.addr) →
      Ascending (add_loop node pre saved chain) := by
  intro chain
  induction chain with
  | nil =>
      intro pre saved h _ _
      simpa [add_loop] using h
  | cons temp tl ih =>
      intro pre saved h hne hs
      cases tl with
      | nil =>
          simp only [add_loop]
          split
          · rename_i hgt
            have h' : Ascending ((pre ++ [temp]) ++ []) := by simpa using h
            have := ascending_insert node (pre ++ [temp]) [] h' (by
              intro x hx
              rcases List.mem_append.1 hx with hx | hx
              · have hp := (List.pairwise_append.1 h).2.2 x hx temp (by simp)
                omega
              · simp at hx; subst hx; omega) (by simp)
            simpa using this
          · rename_i hgt
            have hne' := hne temp (by simp)
            unfold Ascending
            simp
            omega
      | cons nxt rest =>
          simp only [add_loop]
          split
          · rename_i hc
            obtain ⟨h1, h2, h3⟩ := hc
            cases saved with
            | none => simp at h3
            | some s =>
                simp only at h1
                apply ascending_insert node pre (temp :: nxt :: rest) h
                · intro x hx
                  have := hs s rfl x hx
                  omega
                · intro x hx
                  rcases List.mem_cons.1 hx with rfl | hx
                  · exact h2
                  · have hp := (List.pairwise_append.1 h).2.1
                    have := (List.pairwise_cons.1 hp).1 x hx
                    omega
          · apply ih (pre ++ [temp]) (some temp)
            · simpa using h
            · intro x hx
              exact hne x (List.mem_cons_of_mem _ hx)
            · intro s hs' x hx
              cases hs'
              rcases List.mem_append.1 hx with hx | hx
              · have hp := (List.pairwise_append.1 h).2.2 x hx temp (by simp)
                omega
              · simp at hx; subst hx; exact le_refl _

/-- The function `add` keeps the free list ascending when the new address is not in it. -/
theorem add_ascending (node : Node) (l : List Node) (h : Ascending l)
    (hne : ∀ x ∈ l, x.addr ≠ node.addr) : Ascending (add node l) := by
  cases l with
  | nil => simp [add, Ascending]
  | cons a tl =>
      simp only [add]
      exact add_loop_ascending node (a :: tl) [] none (by simpa using h) hne (by simp)

/-- The coalescing loop only drops cells: addresses come out as a sublist. -/
theorem coalesce_loop_sublist :
    ∀ (rest out : List Node) (saved : Node) (linked : Bool),
      ((coalesce_loop out saved linked rest).map Node.addr).Sublist
        ((out ++ saved :: rest).map Node.addr) := by
  intro rest
  induction rest with
  | nil =>
      intro out saved linked
      cases linked <;> simp [coalesce_loop]
  | cons temp rest ih =>
      intro out saved linked
      simp only [coalesce_loop]
      split
      · cases linked with
        | true =>
            simp only [if_true]
            have := ih (out ++ [{ saved with size := saved.size + temp.size }]) temp false
            simpa using this
        | false =>
            simp only [Bool.false_eq_true, if_false]
            have := ih out temp true
            refine this.trans ?_
            simp only [List.map_append, List.map_cons]
            exact (List.Sublist.refl _).append (List.sublist_cons_self _ _)
      · cases linked with
        | true =>
            simp only [if_true]
            have := ih (out ++ [saved]) temp true
            simpa using this
        | false =>
            simp only [Bool.false_eq_true, if_false]
            have := ih out temp true
            refine this.trans ?_
            simp only [List.map_append, List.map_cons]
            exact (List.Sublist.refl _).append (List.sublist_cons_self _ _)

/-- The coalescing pass only drops cells. -/
theorem coalesce_sublist (l : List Node) :
    ((coalesce l).map Node.addr).Sublist (l.map Node.addr) := by
  match l with
  | [] => simp [coalesce]
  | [a] => simp [coalesce]
  | a :: b :: rest =>
      simp only [coalesce]
      split
      · have := coalesce_loop_sublist rest [] { a with size := a.size + b.size } true
        refine this.trans ?_
        simp only [List.nil_append, List.map_cons]
        exact (List.sublist_cons_self _ _).cons₂ _
      · simpa using coalesce_loop_sublist (b :: rest) [] a true

/-- Ascending order read off the list of addresses. -/
theorem ascending_iff_map (l : List Node) :
    Ascending l ↔ (l.map Node.addr).Pairwise (· < ·) := by
  unfold Ascending
  rw [List.pairwise_map]

/-- The coalescing pass keeps the free list ascending. -/
theorem coalesce_ascending (l : List Node) (h : Ascending l) : Ascending (coalesce l) := by
  rw [ascending_iff_map] at h ⊢
  exact h.sublist (coalesce_sublist l)

/-- Unlinking only drops a cell. -/
theorem unlink_sublist (temp : Node) : ∀ l : List Node, (unlink temp l).Sublist l := by
  intro l
  induction l with
  | nil => simp [unlink]
  | cons a tl ih =>
      simp only [unlink]
      split
      · exact List.sublist_cons_self _ _
      · exact ih.cons₂ _

/-- In an ascending list the unlinked address is gone afterwards. -/
theorem unlink_addr_ne (temp : Node) :
    ∀ l : List Node, Ascending l → ∀ x ∈ unlink temp l, x.addr ≠ temp.addr := by
  intro l
  induction l with
  | nil => simp [unlink]
  | cons a tl ih =>
      intro h x hx
      simp only [unlink] at hx
      have hp := List.pairwise_cons.1 h
      split at hx
      · rename_i heq
        have := hp.1 x hx
        omega
      · rename_i hneq
        rcases List.mem_cons.1 hx with rfl | hx
        · exact hneq
        · exact ih hp.2 x hx

/-- Two members of a pairwise related list are equal or related one way round. -/
theorem pairwise_mem_cases {R : Node → Node → Prop} :
    ∀ l : List Node, l.Pairwise R → ∀ x ∈ l, ∀ y ∈ l, x = y ∨ R x y ∨ R y x := by
  intro l
  induction l with
  | nil => simp
  | cons a tl ih =>
      intro h x hx y hy
      have hp := List.pairwise_cons.1 h
      rcases List.mem_cons.1 hx with hxa | hxt
      · rcases List.mem_cons.1 hy with hya | hyt
        · exact Or.inl (hxa.trans hya.symm)
        · exact Or.inr (Or.inl (hxa ▸ hp.1 y hyt))
      · rcases List.mem_cons.1 hy with hya | hyt
        · exact Or.inr (Or.inr (hya ▸ hp.1 x hxt))
        · exact ih hp.2 x hxt y hyt



/-- Sortedness through `hmalloc`. -/
theorem hmalloc_ascending (st : State) (hasc : Ascending st.freelist)
    (hno : NonOverlapping st.freelist) (page size : Nat)
    (hfresh : ∀ x ∈ st.freelist, x.addr < page ∨ page + PAGE_SIZE ≤ x.addr) :
    Ascending (hmalloc st page size).2.freelist := by
  unfold hmalloc
  simp only
  split
  · rename_i hsmall
    split
    · rename_i temp hfind
      simp only
      have hmem : temp ∈ st.freelist := List.mem_of_find?_eq_some hfind
      have hsub : Ascending (unlink temp st.freelist) :=
        List.Pairwise.sublist (unlink_sublist temp st.freelist) hasc
      split
      · rename_i hrem
        apply add_ascending _ _ hsub
        intro x hx
        have hxne := unlink_addr_ne temp st.freelist hasc x hx
        have hxm : x ∈ st.freelist := (unlink_sublist temp st.freelist).subset hx
        simp only
        rcases pairwise_mem_cases st.freelist hasc x hxm temp hmem with h | h | h
        · exact absurd (congrArg Node.addr h) hxne
        · omega
        · rcases pairwise_mem_cases st.freelist hno x hxm temp hmem with h' | h' | h'
          · exact absurd (congrArg Node.addr h') hxne
          · omega
          · omega
      · exact hsub
    · simp only
      split
      · apply add_ascending _ _ hasc
        intro x hx
        simp only
        have := hfresh x hx
        unfold PAGE_SIZE at *
        omega
      · exact hasc
  · exact hasc

/-- Sortedness through `hfree`. -/
theorem hfree_ascending (st : State) (hasc : Ascending st.freelist) (item : Nat)
    (hlive : ∀ x ∈ st.freelist, x.addr ≠ item - headerWidth) :
    Ascending (hfree st item).freelist := by
  unfold hfree
  simp only
  split
  · simp only
    exact coalesce_ascending _ (add_ascending _ _ hasc hlive)
  · exact hasc

/-! ## The large path -/

/-- The function `div_up` computes the ceiling of the quotient by `PAGE_SIZE`. -/
theorem div_up_eq_ceil_div (x : Nat) : div_up x PAGE_SIZE = ceil_div x PAGE_SIZE := by
  unfold div_up ceil_div PAGE_SIZE
  simp only
  split <;> omega

/-- The large path of `hmalloc` in closed form. -/
theorem hmalloc_large (st : State) (page size : Nat)
    (h : PAGE_SIZE ≤ (size + headerWidth) % WORD) :
    hmalloc st page size =
      (page + headerWidth,
        { st with
          header := setHeader st.header page ((size + headerWidth) % WORD),
          stats := { st.stats with
            chunks_allocated := st.stats.chunks_allocated + 1,
            pages_mapped := st.stats.pages_mapped
              + div_up ((size + headerWidth) % WORD) PAGE_SIZE },
          mmap_log := (page, (div_up ((size + headerWidth) % WORD) PAGE_SIZE * PAGE_SIZE) % WORD)
            :: st.mmap_log }) := by
  unfold hmalloc
  simp only [Nat.not_lt.2 h, if_false]

/-- The byte length passed to `mmap` does not wrap unless it wraps to zero. -/
theorem mapped_length_exact (x : Nat) (hx : x < WORD)
    (h : (div_up x PAGE_SIZE * PAGE_SIZE) % WORD ≠ 0) :
    (div_up x PAGE_SIZE * PAGE_SIZE) % WORD = div_up x PAGE_SIZE * PAGE_SIZE := by
  rw [div_up_eq_ceil_div] at h ⊢
  unfold ceil_div PAGE_SIZE WORD at *
  omega

/-- C8 (as stated, refuted): `hmalloc(4096)` on the initial state adds two pages
to `pages_mapped`, not `ceil(4096 / PAGE_SIZE) = 1`. -/
theorem C8_counterexample :
    4096 ≥ PAGE_SIZE ∧
    (hmalloc State.init pageA 4096).2.stats.pages_mapped = 2 ∧
    (hmalloc State.init pageA 4096).2.stats.pages_mapped
      ≠ State.init.stats.pages_mapped + ceil_div 4096 PAGE_SIZE := by
  decide

/-- C8 (amended): for every size whose sum with the header width is at least
`PAGE_SIZE` and below `2 ^ 64`, `hmalloc(size)` increases `pages_mapped` by
exactly `ceil((size + headerWidth) / PAGE_SIZE)` and leaves the free list
unchanged. -/
theorem C8_large_path_page_count (st : State) (page size : Nat)
    (hlarge : PAGE_SIZE ≤ size + headerWidth) (hfit : size + headerWidth < WORD) :
    (hmalloc st page size).2.stats.pages_mapped
      = st.stats.pages_mapped + ceil_div (size + headerWidth) PAGE_SIZE ∧
    (hmalloc st page size).2.freelist = st.freelist := by
  have hmod : (size + headerWidth) % WORD = size + headerWidth := Nat.mod_eq_of_lt hfit
  rw [hmalloc_large st page size (by rw [hmod]; exact hlarge), hmod, div_up_eq_ceil_div]
  exact ⟨rfl, rfl⟩

/-- C8 (amended) at `hmalloc(4096)` on the initial state. -/
theorem C8_large_path_page_count_witness :
    (hmalloc State.init pageA 4096).2.stats.pages_mapped
      = State.init.stats.pages_mapped + ceil_div (4096 + headerWidth) PAGE_SIZE ∧
    (hmalloc State.init pageA 4096).2.freelist = State.init.freelist :=
  C8_large_path_page_count State.init pageA 4096 (by decide) (by decide)

/-- The large path both ways: when `size + headerWidth` (in `size_t` arithmetic,
the value `hmalloc` compares with `PAGE_SIZE`) is at least `PAGE_SIZE`, the
free list is not touched, `hfree` re-derives from the header the page count
`hmalloc` counted, and `munmap` is given the address and byte length `mmap` was
given; that length is the page count times `PAGE_SIZE` unless it wraps to
zero. -/
theorem large_path_round_trip (st : State) (page size : Nat)
    (hlarge : PAGE_SIZE ≤ (size + headerWidth) % WORD) :
    (hfree (hmalloc st page size).2 (hmalloc st page size).1).freelist = st.freelist ∧
    (hmalloc st page size).2.stats.pages_mapped
      = st.stats.pages_mapped + div_up ((size + headerWidth) % WORD) PAGE_SIZE ∧
    (hfree (hmalloc st page size).2 (hmalloc st page size).1).stats.pages_unmapped
      = st.stats.pages_unmapped + div_up ((size + headerWidth) % WORD) PAGE_SIZE ∧
    (hmalloc st page size).2.mmap_log
      = (page, (div_up ((size + headerWidth) % WORD) PAGE_SIZE * PAGE_SIZE) % WORD)
          :: st.mmap_log ∧
    (hfree (hmalloc st page size).2 (hmalloc st page size).1).munmap_log
      = (page, (div_up ((size + headerWidth) % WORD) PAGE_SIZE * PAGE_SIZE) % WORD)
          :: st.munmap_log ∧
    ((div_up ((size + headerWidth) % WORD) PAGE_SIZE * PAGE_SIZE) % WORD ≠ 0 →
      (div_up ((size + headerWidth) % WORD) PAGE_SIZE * PAGE_SIZE) % WORD
        = div_up ((size + headerWidth) % WORD) PAGE_SIZE * PAGE_SIZE) := by
  rw [hmalloc_large st page size hlarge]
  have hnot : ¬ (size + headerWidth) % WORD < PAGE_SIZE := Nat.not_lt.2 hlarge
  refine ⟨?_, rfl, ?_, rfl, ?_, ?_⟩
  · unfold hfree
    simp [setHeader, hnot]
  · unfold hfree
    simp [setHeader, hnot]
  · unfold hfree
    simp [setHeader, hnot]
  · exact mapped_length_exact _ (Nat.mod_lt _ (by unfold WORD; positivity))

/-- C1 (failing input): in the state reached by `threeChain` the free list is
strictly ascending, non-overlapping and without adjacent pair, and the live
block `b` (header 108) lies between the free nodes at 65752 and 65968, touching
both.  After `hfree(b)` the node at 65752 has size 216 and its successor still
starts at 65752 + 216 = 65968: the chain of three is left half merged.  The
byte-level execution of the same calls ends in the same chain. -/
theorem C1_chain_of_three_left_adjacent :
    Ascending threeChain.1.freelist ∧ NonOverlapping threeChain.1.freelist ∧
    hasAdjacent threeChain.1.freelist = false ∧
    threeChain.2 - headerWidth = 65860 ∧
    threeChain.1.header (threeChain.2 - headerWidth) = 108 ∧
    Apart (threeChain.2 - headerWidth) 108 threeChain.1.freelist ∧
    threeChain.1.freelist
      = [⟨65536, 108⟩, ⟨65752, 108⟩, ⟨65968, 108⟩, ⟨66184, 3448⟩, ⟨73140, 588⟩] ∧
    (hfree threeChain.1 threeChain.2).freelist
      = [⟨65536, 108⟩, ⟨65752, 216⟩, ⟨65968, 108⟩, ⟨66184, 3448⟩, ⟨73140, 588⟩] ∧
    hasAdjacent (hfree threeChain.1 threeChain.2).freelist = true ∧
    (Raw.threeChain.bind fun r => Raw.hfree 8 r.1 r.2).map
        (fun s => Raw.free_nodes s.mem 8 s.freelist)
      = some [⟨65536, 108⟩, ⟨65752, 216⟩, ⟨65968, 108⟩, ⟨66184, 3448⟩, ⟨73140, 588⟩] := by
  decide

/-- C2 (failing input): `a = hmalloc(2000)` and `b = hmalloc(100)` are carved
side by side from the first page; after `hfree(a); hfree(b)` the request
`hmalloc(2000 + 100 + headerWidth)`, whose required size 2116 is below
`PAGE_SIZE`, maps a second page.  Releasing `b` first keeps to one page.  The
byte-level execution agrees. -/
theorem C2_coalescing_loses_first_block :
    (twoBlocks 2000 100 true).2.1 = (twoBlocks 2000 100 true).1 + 2000 + headerWidth ∧
    (2000 + 100 + headerWidth) + headerWidth < PAGE_SIZE ∧
    (twoBlocks 2000 100 true).2.2.stats.pages_mapped = 2 ∧
    (twoBlocks 2000 100 false).2.2.stats.pages_mapped = 1 ∧
    (Raw.twoBlocks 2000 100).map (fun r => (r.2.1 - r.1, r.2.2.stats.pages_mapped))
      = some (2008, 2) := by
  decide

/-- C10 (failing input): `hmalloc(2 ^ 64 - 1)` on the initial state returns a
block whose header holds 7, which is less than the request plus the header
width.  The byte-level execution stores the same header. -/
theorem C10_header_wraps_around :
    (hmalloc State.init pageA (2 ^ 64 - 1)).1 = pageA + headerWidth ∧
    (hmalloc State.init pageA (2 ^ 64 - 1)).2.header
        ((hmalloc State.init pageA (2 ^ 64 - 1)).1 - headerWidth) = 7 ∧
    ¬ (7 ≥ (2 ^ 64 - 1) + headerWidth) ∧
    (Raw.hmalloc 8 Raw.State.init pageA (2 ^ 64 - 1)).map
        (fun r => (r.1, Raw.load r.2.mem (r.1 - 8))) = some (pageA + 8, 7) := by
  decide

/-- C6 (failing input): in `Raw.shrink` the buffer `p` holds the bytes
`0 0 0 0 0 0 0 0 AB AB` in its first ten places when `hrealloc(p, 10)` is
called; afterwards the first ten bytes at the returned `q` are
`6C 00 01 00 00 00 00 00 AB AB`. -/
theorem C6_shrink_corrupts_kept_bytes :
    Raw.shrink.map (fun r =>
        (r.1, r.2.1, Raw.load r.2.2.1.mem (r.1 - 8),
          (List.range 10).map (fun i => r.2.2.1.mem (r.1 + i)),
          (List.range 10).map (fun i => r.2.2.2.mem (r.2.1 + i))))
      = some (65652, 65544, 108,
          [0, 0, 0, 0, 0, 0, 0, 0, 0xAB, 0xAB],
          [0x6C, 0, 1, 0, 0, 0, 0, 0, 0xAB, 0xAB]) := by
  decide

/-- C7 (failing input): in `Raw.shrinkFresh` the block `p` has header 108 and
`hrealloc(p, 10)` returns `q = p + 108`; the byte at `q + 50`, forty bytes past
the ten requested, was 0 before the call and holds the `0xAB` of `p + 50` after
it: `memcpy` copied `header(p) = 108` bytes, not `min(108 - 8, 10) = 10`. -/
theorem C7_copy_length_is_old_header :
    Raw.shrinkFresh.map (fun r =>
        (r.1, r.2.1, Raw.load r.2.2.1.mem (r.1 - 8), Raw.load r.2.2.2.mem (r.2.1 - 8)))
      = some (65544, 65652, 108, 18) ∧
    Raw.shrinkFresh.map (fun r =>
        (r.2.2.1.mem (r.1 + 50), r.2.2.1.mem (r.2.1 + 50), r.2.2.2.mem (r.2.1 + 50)))
      = some (0xAB, 0, 0xAB) := by
  decide

/-! ## Supporting facts -/

/-- Short of wrap-around the header stored by `hmalloc` is the request plus the
header width, on the free-list hit, the new-page and the large path. -/
theorem hmalloc_header_exact (st : State) (page size : Nat) (h : size + headerWidth < WORD) :
    (hmalloc st page size).2.header ((hmalloc st page size).1 - headerWidth)
      = size + headerWidth := by
  have hmod : (size + headerWidth) % WORD = size + headerWidth := Nat.mod_eq_of_lt h
  unfold hmalloc
  simp only [hmod]
  split
  · split <;> simp [setHeader]
  · simp [setHeader]

namespace Raw

/-- Reading back the bytes of a stored word. -/
theorem loadN_store (m : Mem) (a v : Nat) :
    ∀ k i : Nat, i + k ≤ 8 → loadN (store m a v) (a + i) k = (v / 256 ^ i) % 256 ^ k := by
  intro k
  induction k with
  | zero => intro i _; simp [loadN, Nat.mod_one]
  | succ k ih =>
      intro i hi
      have hin : a ≤ a + i ∧ a + i < a + 8 := by omega
      have hrec := ih (i + 1) (by omega)
      rw [← Nat.add_assoc] at hrec
      have e1 : v / 256 ^ i % 256 ^ (k + 1)
          = v / 256 ^ i % 256 + 256 * (v / 256 ^ i / 256 % 256 ^ k) := by
        rw [Nat.pow_succ', Nat.mod_mul]
      have e2 : v / 256 ^ i / 256 = v / 256 ^ (i + 1) := by
        rw [Nat.div_div_eq_div_mul, ← Nat.pow_succ]
      rw [loadN, hrec, e1, e2]
      simp only [store, hin, and_self, if_true, Nat.add_sub_cancel_left, Nat.mod_mod]

/-- A stored word reads back modulo `2 ^ 64`. -/
theorem load_store_same (m : Mem) (a v : Nat) : load (store m a v) a = v % WORD := by
  have h := loadN_store m a v 8 0 (by omega)
  simpa [load, WORD] using h

/-- A store does not change a word that shares no byte with it. -/
theorem load_store_apart (m : Mem) (a b v : Nat) (h : a + 8 ≤ b ∨ b + 8 ≤ a) :
    load (store m a v) b = load m b := by
  unfold load store
  simp only [loadN]
  have e : ∀ i, i < 8 → ¬ (a ≤ b + i ∧ b + i < a + 8) := by
    intro i hi; omega
  have e0 : ¬ (a ≤ b ∧ b < a + 8) := by omega
  simp only [Nat.add_assoc, Nat.reduceAdd]
  rw [if_neg e0, if_neg (e 1 (by omega)), if_neg (e 2 (by omega)), if_neg (e 3 (by omega)),
    if_neg (e 4 (by omega)), if_neg (e 5 (by omega)), if_neg (e 6 (by omega)),
    if_neg (e 7 (by omega))]

end Raw

/-! ## First fit and the split rule -/

/-- In an ascending list the first node that satisfies a test is the lowest
addressed one that does. -/
theorem find_lowest (p : Node → Bool) :
    ∀ l : List Node, Ascending l → (∃ n ∈ l, p n = true) →
      ∃ t, l.find? p = some t ∧ t ∈ l ∧ p t = true ∧
        ∀ m ∈ l, p m = true → t.addr ≤ m.addr := by
  intro l
  induction l with
  | nil => intro _ h; obtain ⟨n, hn, _⟩ := h; cases hn
  | cons a tl ih =>
      intro hasc hex
      have hp := List.pairwise_cons.1 hasc
      by_cases ha : p a = true
      · refine ⟨a, by simp [List.find?_cons, ha], List.mem_cons_self _ _, ha, ?_⟩
        intro m hm _
        rcases List.mem_cons.1 hm with h | h
        · rw [h]
        · exact Nat.le_of_lt (hp.1 m h)
      · have hex' : ∃ n ∈ tl, p n = true := by
          obtain ⟨n, hn, hpn⟩ := hex
          rcases List.mem_cons.1 hn with h | h
          · rw [h] at hpn; exact absurd hpn ha
          · exact ⟨n, h, hpn⟩
        obtain ⟨t, h1, h2, h3, h4⟩ := ih hp.2 hex'
        refine ⟨t, by simp [List.find?_cons, ha, h1], List.mem_cons_of_mem _ h2, h3, ?_⟩
        intro m hm hpm
        rcases List.mem_cons.1 hm with h | h
        · rw [h] at hpm; exact absurd hpm ha
        · exact h4 m h hpm

/-- Whatever exit the loop of `add` takes on a non-empty chain, the new node is
in the result. -/
theorem mem_add_loop (node : Node) :
    ∀ (chain pre : List Node) (saved : Option Node), chain ≠ [] →
      node ∈ add_loop node pre saved chain := by
  intro chain
  induction chain with
  | nil => intro _ _ h; exact absurd rfl h
  | cons temp tl ih =>
      intro pre saved _
      cases tl with
      | nil =>
          simp only [add_loop]
          split <;> simp
      | cons nxt rest =>
          simp only [add_loop]
          split
          · simp
          · exact ih (pre ++ [temp]) (some temp) (by simp)

/-- The function `add` always links the new node. -/
theorem mem_add (node : Node) (l : List Node) : node ∈ add node l := by
  cases l with
  | nil => simp [add]
  | cons a tl => exact mem_add_loop node (a :: tl) [] none (by simp)

/-- C11 (failing input): `x = hmalloc(0)` succeeds and returns a block of 8
bytes, `[65536, 65544)`, with header 8; the next block `y = hmalloc(100)` has
its header, 108, at 65544.  `hfree(x)` writes the `next` field of the node it
rebuilds at 65536 into the 8 bytes at 65544, outside the block: the header of
the live block `y` reads 65652 afterwards.  When `x` is released with the free
remainder of the page behind it instead, that node's `size` field (4088 at
65544) is overwritten and the list ends as one node of size 65552. -/
theorem C11_zero_block_release_overruns :
    Raw.zeroBlock.map (fun r =>
        (r.1, r.2.1, Raw.load r.2.2.1.mem (r.1 - 8), Raw.load r.2.2.1.mem (r.2.1 - 8)))
      = some (65544, 65552, 8, 108) ∧
    Raw.zeroBlock.map (fun r => Raw.load r.2.2.2.mem (r.2.1 - 8)) = some 65652 ∧
    Raw.zeroAlone.map (fun r =>
        (r.1, Raw.free_nodes r.2.1.mem 8 r.2.1.freelist,
          Raw.free_nodes r.2.2.mem 8 r.2.2.freelist))
      = some (65544, [⟨65544, 4088⟩], [⟨65536, 65552⟩]) := by
  decide

/-- C15 (failing input): the free list is `[65536(2008), 67652(1980)]` and the
node at 67544 of size 108 is not in it; `add` returns
`[67544(108), 67652(1980)]`: the node at 65536 is gone and the length is still
2.  The byte-level `add`, called in the state `hfree(b)` of `twoBlocks` calls
it in, leaves the same chain. -/
theorem C15_add_drops_nodes :
    Ascending [⟨65536, 2008⟩, ⟨67652, 1980⟩] ∧
    add ⟨67544, 108⟩ [⟨65536, 2008⟩, ⟨67652, 1980⟩] = [⟨67544, 108⟩, ⟨67652, 1980⟩] ∧
    (⟨65536, 2008⟩ : Node) ∉ add ⟨67544, 108⟩ [⟨65536, 2008⟩, ⟨67652, 1980⟩] ∧
    (add ⟨67544, 108⟩ [⟨65536, 2008⟩, ⟨67652, 1980⟩]).length = 2 ∧
    Raw.beforeAdd.map (fun r => (r.2 - 8, Raw.load r.1.mem (r.2 - 8),
        Raw.free_nodes r.1.mem 8 r.1.freelist))
      = some (67544, 108, [⟨65536, 2008⟩, ⟨67652, 1980⟩]) ∧
    (Raw.beforeAdd.bind fun r => Raw.add 8 r.1 (r.2 - 8)).map
        (fun s => Raw.free_nodes s.mem 8 s.freelist)
      = some [⟨67544, 108⟩, ⟨67652, 1980⟩] := by
  decide

/-! ## The size class of a request -/

namespace Par

/-- The counting search returns the least exponent at or above its start. -/
theorem ceil_log2_from_spec (n : Nat) :
    ∀ fuel k : Nat, n ≤ 2 ^ (k + fuel) → (∀ j, j < k → ¬ n ≤ 2 ^ j) →
      n ≤ 2 ^ (ceil_log2_from n fuel k) ∧ ∀ j, n ≤ 2 ^ j → ceil_log2_from n fuel k ≤ j := by
  intro fuel
  induction fuel with
  | zero =>
      intro k hk hlow
      simp only [ceil_log2_from]
      refine ⟨by simpa using hk, ?_⟩
      intro j hj
      by_contra hlt
      exact hlow j (by omega) hj
  | succ fuel ih =>
      intro k hk hlow
      simp only [ceil_log2_from]
      split
      · rename_i hle
        refine ⟨hle, ?_⟩
        intro j hj
        by_contra hlt
        exact hlow j (by omega) hj
      · rename_i hnle
        apply ih (k + 1)
        · have : k + 1 + fuel = k + (fuel + 1) := by omega
          rw [this]; exact hk
        · intro j hj
          by_cases hjk : j < k
          · exact hlow j hjk
          · have : j = k := by omega
            rw [this]; exact hnle

/-- For a `size_t` value `ceil_log2` is the least exponent `k` with `n ≤ 2 ^ k`. -/
theorem ceil_log2_spec (n : Nat) (h : n ≤ 2 ^ 64) :
    n ≤ 2 ^ (ceil_log2 n) ∧ ∀ j, n ≤ 2 ^ j → ceil_log2 n ≤ j := by
  unfold ceil_log2
  exact ceil_log2_from_spec n 64 0 (by simpa using h) (by intro j hj; omega)

/-- The index of a request of at most `2 ^ 22` bytes is below `BUCKETS`, and the
class size `2 ^ (index + 4)` is the least power of two that holds the clamped
request. -/
theorem class_index_spec (s : Nat) (hs : s ≤ 2 ^ 22) :
    class_index s < BUCKETS ∧
    (if s < MIN_SIZE then MIN_SIZE else s) ≤ 2 ^ (class_index s + INDEX_DECREMENT) ∧
    ∀ k, (if s < MIN_SIZE then MIN_SIZE else s) ≤ 2 ^ k →
      2 ^ (class_index s + INDEX_DECREMENT) ≤ 2 ^ k := by
  have hb : (if s < MIN_SIZE then MIN_SIZE else s) ≤ 2 ^ 22 := by
    unfold MIN_SIZE; split <;> omega
  have h16 : 16 ≤ (if s < MIN_SIZE then MIN_SIZE else s) := by
    unfold MIN_SIZE; split <;> omega
  obtain ⟨h1, h2⟩ := ceil_log2_spec (if s < MIN_SIZE then MIN_SIZE else s)
    (le_trans hb (by norm_num))
  have hle22 : ceil_log2 (if s < MIN_SIZE then MIN_SIZE else s) ≤ 22 := h2 22 hb
  have hge4 : 4 ≤ ceil_log2 (if s < MIN_SIZE then MIN_SIZE else s) := by
    by_contra hlt
    have h3 : ceil_log2 (if s < MIN_SIZE then MIN_SIZE else s) ≤ 3 := by omega
    have : (2 : Nat) ^ ceil_log2 (if s < MIN_SIZE then MIN_SIZE else s) ≤ 2 ^ 3 :=
      Nat.pow_le_pow_right (by norm_num) h3
    omega
  have hidx : class_index s + INDEX_DECREMENT
      = ceil_log2 (if s < MIN_SIZE then MIN_SIZE else s) := by
    unfold class_index INDEX_DECREMENT; omega
  refine ⟨?_, ?_, ?_⟩
  · unfold class_index BUCKETS INDEX_DECREMENT; omega
  · rw [hidx]; exact h1
  · intro k hk
    rw [hidx]
    exact Nat.pow_le_pow_right (by norm_num) (h2 k hk)

/-- The header a bump allocation stamps is read back at the returned pointer. -/
theorem bump_header (st : State) (head size : Nat) (hsize : size < WORD) :
    Raw.load (bump st head size).2.mem ((bump st head size).1 - 8) = size := by
  unfold bump
  simp only [Nat.add_sub_cancel]
  rw [Raw.load_store_apart _ _ _ _ (Or.inl (by omega)), Raw.load_store_same,
    Nat.mod_eq_of_lt hsize]

/-- The function `coalesce` does not touch the `bucket` array. -/
theorem coalesce_bucket (fuel : Nat) (st st1 : State) (index size : Nat)
    (h : coalesce fuel st index size = some st1) : st1.bucket = st.bucket := by
  unfold coalesce at h
  simp only at h
  split at h
  · cases h
  · cases h; rfl

/-- The function `xmalloc` with its local variables named. -/
theorem xmalloc_eq (pages : Nat → Nat) (fuel : Nat) (st : State) (s : Nat) :
    xmalloc pages fuel st s =
      if class_index s ≥ BUCKETS then
        large_allocation st (pages st.mmap_log.length) (if s < MIN_SIZE then MIN_SIZE else s)
      else if st.bucket (class_index s) = 0 then
        some (pages st.mmap_log.length + 8 + 8,
          { st with
            mem := Raw.store
              (Raw.store (Raw.mmap st.mem (pages st.mmap_log.length) PAGE_SIZE)
                (pages st.mmap_log.length) 1)
              (pages st.mmap_log.length + 8) (2 ^ (class_index s + INDEX_DECREMENT)),
            bucket := setBucket st.bucket (class_index s) (pages st.mmap_log.length),
            mmap_log := (pages st.mmap_log.length, PAGE_SIZE) :: st.mmap_log })
      else check_buckets pages fuel st (class_index s)
        (if s < MIN_SIZE then MIN_SIZE else s) := rfl

/-- The function `check_buckets` on a class that has its page. -/
theorem check_buckets_eq (pages : Nat → Nat) (fuel : Nat) (st : State) (index bytes : Nat)
    (hb : st.bucket index ≠ 0) :
    check_buckets pages (fuel + 1) st index bytes =
      if looks_full st index then
        match coalesce fuel st index (2 ^ (index + INDEX_DECREMENT)) with
        | none => none
        | some st1 =>
            if (Raw.load st1.mem (st.bucket index) * (2 ^ (index + INDEX_DECREMENT) + 8)) % WORD
                ≥ PAGE_SIZE - 8 then
              if index + 1 ≥ BUCKETS then
                large_allocation st1 (pages st1.mmap_log.length) bytes
              else check_buckets pages fuel st1 (index + 1) bytes
            else some (bump st1 (st.bucket index) (2 ^ (index + INDEX_DECREMENT)))
      else some (bump st (st.bucket index) (2 ^ (index + INDEX_DECREMENT))) := by
  rw [check_buckets]
  simp only [hb, if_false]
  rfl

/-- C12 (amended): for every request of at most `2 ^ 22` bytes and every arena
state in which the class of the request has no page yet, or its page passes the
fullness test of `check_buckets`, or passes it after `coalesce`, `xmalloc`
returns a pointer whose header is `2 ^ (index + 4)` with
`index = ceil(log2(max(s, 16))) - 4`, the smallest power of two that is at
least `max(s, 16)`. -/
theorem C12_header_is_smallest_class (pages : Nat → Nat) (st : State) (s fuel : Nat)
    (hs1 : 1 ≤ s) (hs2 : s ≤ 2 ^ 22) (hfuel : 1 ≤ fuel)
    (hserved : st.bucket (class_index s) = 0 ∨ ¬ looks_full st (class_index s) ∨
      ∃ st1, coalesce (fuel - 1) st (class_index s) (2 ^ (class_index s + INDEX_DECREMENT))
        = some st1 ∧ ¬ still_full st1 (class_index s)) :
    (∃ p st', xmalloc pages fuel st s = some (p, st') ∧
      Raw.load st'.mem (p - 8) = 2 ^ (class_index s + INDEX_DECREMENT)) ∧
    max s 16 ≤ 2 ^ (class_index s + INDEX_DECREMENT) ∧
    ∀ k, max s 16 ≤ 2 ^ k → 2 ^ (class_index s + INDEX_DECREMENT) ≤ 2 ^ k := by
  obtain ⟨hidx, hfit, hleast⟩ := class_index_spec s hs2
  have hclamp : (if s < MIN_SIZE then MIN_SIZE else s) = max s 16 := by
    unfold MIN_SIZE; split <;> omega
  rw [hclamp] at hfit hleast
  have hsize : 2 ^ (class_index s + INDEX_DECREMENT) < WORD := by
    unfold WORD
    apply Nat.pow_lt_pow_right (by norm_num)
    unfold BUCKETS at hidx; unfold INDEX_DECREMENT; omega
  refine ⟨?_, hfit, hleast⟩
  rw [xmalloc_eq, if_neg (by omega)]
  by_cases hb : st.bucket (class_index s) = 0
  · rw [if_pos hb]
    refine ⟨_, _, rfl, ?_⟩
    simp only [Nat.add_sub_cancel]
    rw [Raw.load_store_same, Nat.mod_eq_of_lt hsize]
  · rw [if_neg hb]
    obtain ⟨f, rfl⟩ : ∃ f, fuel = f + 1 := ⟨fuel - 1, by omega⟩
    rw [check_buckets_eq _ _ _ _ _ hb]
    by_cases hfull : looks_full st (class_index s)
    · rw [if_pos hfull]
      rcases hserved with h | h | h
      · exact absurd h hb
      · exact absurd hfull h
      · obtain ⟨st1, hco, hroom⟩ := h
        simp only [Nat.add_sub_cancel] at hco
        rw [hco]
        have hbk := coalesce_bucket _ _ _ _ _ hco
        have hroom' : ¬ (Raw.load st1.mem (st.bucket (class_index s))
            * (2 ^ (class_index s + INDEX_DECREMENT) + 8)) % WORD ≥ PAGE_SIZE - 8 := by
          unfold still_full chunk_width at hroom
          rw [hbk] at hroom
          exact hroom
        simp only [hroom', if_false]
        exact ⟨_, _, rfl, bump_header _ _ _ hsize⟩
    · rw [if_neg hfull]
      exact ⟨_, _, rfl, bump_header _ _ _ hsize⟩

/-- A compaction that is evaluated and found to make room returns a state
that passes the second fullness test. -/
theorem coalesce_makes_room (c : Option State) (index : Nat)
    (h : (c.map fun st1 => decide (¬ still_full st1 index)) = some true) :
    ∃ st1, c = some st1 ∧ ¬ still_full st1 index := by
  cases c with
  | none => simp at h
  | some st1 => exact ⟨st1, rfl, by simpa using h⟩

set_option maxRecDepth 1000000 in
/-- C12 (amended) for `xmalloc(100)` by a fresh thread, for `xmalloc(2048)` in
the arena `filled 972`, whose page is not full, and for `xmalloc(2048)` on the
full page `filled 973` once the chunk in slot 971 has been released, where
compaction makes room. -/
theorem C12_header_is_smallest_class_witness :
    ((∃ p st', xmalloc arenaPages 1 State.init 100 = some (p, st') ∧
        Raw.load st'.mem (p - 8) = 2 ^ (class_index 100 + INDEX_DECREMENT)) ∧
      max 100 16 ≤ 2 ^ (class_index 100 + INDEX_DECREMENT) ∧
      ∀ k, max 100 16 ≤ 2 ^ k → 2 ^ (class_index 100 + INDEX_DECREMENT) ≤ 2 ^ k) ∧
    (∃ p st', xmalloc arenaPages 1 (filled 972) 2048 = some (p, st') ∧
        Raw.load st'.mem (p - 8) = 2 ^ (class_index 2048 + INDEX_DECREMENT)) ∧
    (looks_full (xfree (filled 973) (chunkPtr 971)) (class_index 2048) ∧
      ∃ p st', xmalloc arenaPages 1000 (xfree (filled 973) (chunkPtr 971)) 2048 = some (p, st') ∧
        Raw.load st'.mem (p - 8) = 2 ^ (class_index 2048 + INDEX_DECREMENT)) :=
  ⟨C12_header_is_smallest_class arenaPages State.init 100 1 (by decide) (by decide)
      (by decide) (Or.inl (by decide)),
   (C12_header_is_smallest_class arenaPages (filled 972) 2048 1 (by decide) (by decide)
      (by decide) (Or.inr (Or.inl (by decide)))).1,
   by decide,
   (C12_header_is_smallest_class arenaPages (xfree (filled 973) (chunkPtr 971)) 2048 1000
      (by decide) (by decide) (by decide)
      (Or.inr (Or.inr (coalesce_makes_room _ _ (by decide!))))).1⟩

/-! ## Termination of compaction -/

/-- A word copied by `memcpy` is read back at the destination. -/
theorem load_memcpy (m : Raw.Mem) (dst src n : Nat) (hn : 8 ≤ n) :
    Raw.load (Raw.memcpy m dst src n) dst = Raw.load m src := by
  have e : ∀ i, i < 8 → Raw.memcpy m dst src n (dst + i) = m (src + i) := by
    intro i hi
    have hin : dst ≤ dst + i ∧ dst + i < dst + n := by omega
    simp only [Raw.memcpy, hin, and_self, if_true, Nat.add_sub_cancel_left]
  have e0 := e 0 (by omega)
  simp only [Nat.add_zero] at e0
  unfold Raw.load
  simp only [Raw.loadN, Nat.add_assoc, Nat.reduceAdd]
  rw [e0, e 1 (by omega), e 2 (by omega), e 3 (by omega), e 4 (by omega), e 5 (by omega),
    e 6 (by omega), e 7 (by omega)]

/-- The inner loop of `coalesce` returns when given `PAGE_SIZE - bytes + 1` steps
and a chunk width that fits behind the page inside its mapping, with `bytes`
moved on by whole chunks; when it reports a chunk without having moved, that
chunk is the one it was started at. -/
theorem scan_total (size : Nat) (m : Raw.Mem) (limit head : Nat) (h8 : size % 8 = 0)
    (hlim : head + PAGE_SIZE + (size + 8) ≤ limit) :
    ∀ fuel tad bytes : Nat, PAGE_SIZE - bytes + 1 ≤ fuel → bytes % 8 = 0 →
      tad ≤ head + bytes + (size + 8) →
      ∃ b bytes', scan size m limit fuel tad bytes = some (b, bytes') ∧ bytes ≤ bytes' ∧
        bytes' % 8 = 0 ∧
        (b = true → bytes' < PAGE_SIZE ∧ (bytes' = bytes → Raw.load m tad = size)) := by
  intro fuel
  induction fuel with
  | zero => intro tad bytes h; omega
  | succ fuel ih =>
      intro tad bytes h hb8 htad
      simp only [scan]
      by_cases hlt : bytes < PAGE_SIZE
      · have hin : tad + 8 ≤ limit := by unfold PAGE_SIZE at *; omega
        rw [if_pos hlt, if_pos hin]
        by_cases hfound : Raw.load m tad = size
        · rw [if_pos hfound]
          exact ⟨true, bytes, rfl, le_refl _, hb8, fun _ => ⟨hlt, fun _ => hfound⟩⟩
        · rw [if_neg hfound]
          obtain ⟨b, bytes', h1, h2, h3, h4⟩ :=
            ih (tad + (size + 8)) (bytes + (size + 8)) (by omega) (by omega) (by omega)
          refine ⟨b, bytes', h1, by omega, h3, ?_⟩
          intro hb
          exact ⟨(h4 hb).1, fun heq => by omega⟩
      · rw [if_neg hlt]
        exact ⟨false, bytes, rfl, le_refl _, hb8, fun hb => by cases hb⟩

/-- The `while` loop of `coalesce` returns when given enough steps and a chunk
width that fits behind the page inside its mapping: every pass either moves
`bytes` on by a chunk or turns the chunk at `start` from a tombstone into a
live one, and no access leaves the mapping. -/
theorem sweep_total (size limit head : Nat) (hpos : 0 < size) (h8 : size % 8 = 0)
    (hlim : head + PAGE_SIZE + (size + 8) ≤ limit) :
    ∀ (fuel : Nat) (m : Raw.Mem) (start bytes removed : Nat), bytes % 8 = 0 →
      start ≤ head + bytes →
      2 * (PAGE_SIZE + 1 - bytes) + (if Raw.load m start = 0 then 1 else 0) + 1 ≤ fuel →
      ∃ r, sweep size limit fuel m start bytes removed = some r := by
  intro fuel
  induction fuel with
  | zero => intro m start bytes removed _ _ h; omega
  | succ fuel ih =>
      intro m start bytes removed hb8 hstart h
      simp only [sweep]
      by_cases hle : bytes ≤ PAGE_SIZE
      · have hin : start + 8 ≤ limit := by omega
        rw [if_pos hle, if_pos hin]
        by_cases hz : Raw.load m start = 0
        · rw [if_pos hz]
          rw [if_pos hz] at h
          obtain ⟨b, bytes', h1, h2, h3, h4⟩ :=
            scan_total size m limit head h8 hlim (fuel + 1) (start + 8 + size) bytes (by omega)
              hb8 (by omega)
          rw [h1]
          cases b with
          | false => exact ⟨_, rfl⟩
          | true =>
              simp only
              obtain ⟨hlt, hsame⟩ := h4 rfl
              have hcopy : start + (size + 8) + (PAGE_SIZE - bytes') ≤ limit := by omega
              rw [if_pos hcopy]
              apply ih _ _ _ _ h3 (by omega)
              by_cases heq : bytes' = bytes
              · have hfound := hsame heq
                have hlen : 8 ≤ PAGE_SIZE - bytes' := by
                  unfold PAGE_SIZE at hlt ⊢; omega
                have hload : Raw.load
                    (Raw.memcpy m start (start + (size + 8)) (PAGE_SIZE - bytes')) start
                    = size := by
                  rw [load_memcpy _ _ _ _ hlen]
                  have : start + (size + 8) = start + 8 + size := by omega
                  rw [this]; exact hfound
                rw [hload, if_neg (by omega)]
                omega
              · split <;> omega
        · rw [if_neg hz]
          rw [if_neg hz] at h
          apply ih _ _ _ _ (by omega) (by omega)
          split <;> omega
      · rw [if_neg hle]
        exact ⟨_, rfl⟩

/-- The function `coalesce` returns for every class of at most 2048 bytes when
given `2 * PAGE_SIZE` steps: a chunk of such a class fits between the end of the
page and the end of its mapping. -/
theorem coalesce_total (fuel : Nat) (st : State) (index : Nat)
    (hclass : index + INDEX_DECREMENT ≤ 11) (hfuel : 2 * PAGE_SIZE ≤ fuel) :
    ∃ st1, coalesce fuel st index (2 ^ (index + INDEX_DECREMENT)) = some st1 := by
  have hpos : 0 < 2 ^ (index + INDEX_DECREMENT) := Nat.pow_pos (by norm_num)
  have h8 : 2 ^ (index + INDEX_DECREMENT) % 8 = 0 := by
    have : 2 ^ (index + INDEX_DECREMENT) = 8 * 2 ^ (index + 1) := by
      unfold INDEX_DECREMENT
      rw [show index + 4 = 3 + (index + 1) by omega, Nat.pow_add]
    rw [this]; exact Nat.mul_mod_right 8 _
  have hw : 2 ^ (index + INDEX_DECREMENT) ≤ 2 ^ 11 :=
    Nat.pow_le_pow_right (by norm_num) hclass
  have hlim : st.bucket index + PAGE_SIZE + (2 ^ (index + INDEX_DECREMENT) + 8)
      ≤ mapping_end (st.bucket index) := by
    unfold mapping_end PAGE_SIZE
    norm_num at hw ⊢
    omega
  obtain ⟨r, hr⟩ := sweep_total _ (mapping_end (st.bucket index)) (st.bucket index) hpos h8 hlim
    fuel st.mem (st.bucket index + 8) 8 0 (by norm_num) (le_refl _)
    (by unfold PAGE_SIZE at hfuel ⊢; split <;> omega)
  unfold coalesce
  simp only [hr]
  exact ⟨_, rfl⟩

/-! ## The arena after `n` allocations of 2048 bytes -/

/-- The bytes of the number 2048. -/
theorem byte_of_2048 : ∀ d, d < 8 → (2048 / 256 ^ d) % 256 = if d = 1 then 8 else 0 := by
  decide

/-- Stamping slot `u` and counting it turns the closed form for `u` chunks into
the one for `u + 1`. -/
theorem filled_succ_mem (u : Nat) :
    Raw.store
        (Raw.store (Raw.store (headersMem u) classHead u) (classHead + 8 + u * 2056) 2048)
        classHead (u + 1)
      = Raw.store (headersMem (u + 1)) classHead (u + 1) := by
  funext x
  by_cases hx : classHead ≤ x ∧ x < classHead + 8
  · simp only [Raw.store, hx, and_self, if_true]
  · by_cases hy : classHead + 8 + u * 2056 ≤ x ∧ x < classHead + 8 + u * 2056 + 8
    · have hb := byte_of_2048 (x - (classHead + 8 + u * 2056)) (by omega)
      have hq : (x - (classHead + 8)) / 2056 = u := by omega
      have hr : (x - (classHead + 8)) % 2056 = x - (classHead + 8 + u * 2056) := by omega
      have hc : classHead + 8 ≤ x := by omega
      simp only [Raw.store, hx, hy, and_self, if_true, if_false, headersMem, hq, hr, hc,
        Nat.lt_succ_self, true_and, hb]
    · have hne : ¬ (classHead + 8 ≤ x ∧ (x - (classHead + 8)) / 2056 < u + 1
          ∧ (x - (classHead + 8)) % 2056 = 1) ↔
          ¬ (classHead + 8 ≤ x ∧ (x - (classHead + 8)) / 2056 < u
          ∧ (x - (classHead + 8)) % 2056 = 1) := by
        constructor <;> intro h hcon <;> apply h <;> omega
      by_cases hu : classHead + 8 ≤ x ∧ (x - (classHead + 8)) / 2056 < u
          ∧ (x - (classHead + 8)) % 2056 = 1
      · have hu' : classHead + 8 ≤ x ∧ (x - (classHead + 8)) / 2056 < u + 1
            ∧ (x - (classHead + 8)) % 2056 = 1 := by omega
        simp only [Raw.store, hx, hy, if_false, headersMem, hu, hu', and_self, if_true]
      · have hu' := hne.2 hu
        simp only [Raw.store, hx, hy, if_false, headersMem, hu, hu']

/-- The first `xmalloc(2048)` of a thread gives the closed form for one chunk. -/
theorem filled_one_mem :
    Raw.store (Raw.store (Raw.mmap (fun _ => 0) classHead PAGE_SIZE) classHead 1)
        (classHead + 8) 2048
      = Raw.store (headersMem 1) classHead 1 := by
  have h0 : Raw.mmap (fun _ => 0) classHead PAGE_SIZE = headersMem 0 := by
    funext x
    simp [Raw.mmap, headersMem]
  have h1 : Raw.store (headersMem 0) classHead 1
      = Raw.store (Raw.store (headersMem 0) classHead 0) classHead 1 := by
    funext x
    by_cases hx : classHead ≤ x ∧ x < classHead + 8 <;> simp [Raw.store, hx]
  have h2 := filled_succ_mem 0
  simp only [Nat.zero_mul, Nat.add_zero, Nat.zero_add] at h2
  rw [h0]
  rw [← h2]
  funext x
  by_cases hy : classHead + 8 ≤ x ∧ x < classHead + 8 + 8
  · simp only [Raw.store, hy, and_self, if_true]
    have hx : ¬ (classHead ≤ x ∧ x < classHead + 8) := by omega
    simp only [hx, if_false, hy, and_self, if_true]
  · by_cases hx : classHead ≤ x ∧ x < classHead + 8
    · simp only [Raw.store, hy, hx, and_self, if_true, if_false]
    · simp only [Raw.store, hy, hx, if_false]

/-- One more `xmalloc(2048)` in the arena of `u` chunks, `1 ≤ u ≤ 972`: bump
allocation in slot `u`. -/
theorem xmalloc_filled (u : Nat) (h1 : 1 ≤ u) (h2 : u ≤ 972) :
    xmalloc arenaPages 1 (filled u) 2048 = some (chunkPtr u, filled (u + 1)) := by
  have hidx : class_index 2048 = 7 := by decide
  have hbk : (filled u).bucket 7 = classHead := rfl
  have hb : (filled u).bucket 7 ≠ 0 := by rw [hbk]; decide
  have hload : Raw.load (filled u).mem classHead = u := by
    show Raw.load (Raw.store (headersMem u) classHead u) classHead = u
    rw [Raw.load_store_same]
    apply Nat.mod_eq_of_lt
    unfold WORD; omega
  have hroom : ¬ looks_full (filled u) 7 := by
    unfold looks_full
    rw [hbk, hload]
    unfold chunk_width INDEX_DECREMENT int_as_size_t WORD PAGE_SIZE
    simp only [Nat.reducePow, Nat.reduceAdd]
    have e1 : u * 2056 % 18446744073709551616 = u * 2056 := Nat.mod_eq_of_lt (by omega)
    have e2 : u * 2056 % 4294967296 = u * 2056 := Nat.mod_eq_of_lt (by omega)
    rw [e1, e2]
    split <;> omega
  rw [xmalloc_eq, hidx, if_neg (by decide), if_neg hb, check_buckets_eq _ _ _ _ _ hb,
    if_neg hroom]
  unfold bump
  rw [hbk, hload]
  have e1 : u * (2 ^ (7 + INDEX_DECREMENT) + 8) % WORD = u * 2056 := by
    unfold INDEX_DECREMENT WORD
    simp only [Nat.reducePow, Nat.reduceAdd]
    exact Nat.mod_eq_of_lt (by omega)
  have e2 : (2 : Nat) ^ (7 + INDEX_DECREMENT) = 2048 := by decide
  rw [e1, e2]
  have hload2 : Raw.load (Raw.store (filled u).mem (classHead + 8 + u * 2056) 2048) classHead
      = u := by
    rw [Raw.load_store_apart _ _ _ _ (Or.inr (by omega))]
    exact hload
  have e3 : (u + 1) % WORD = u + 1 := Nat.mod_eq_of_lt (by unfold WORD; omega)
  have hmem : Raw.store (Raw.store (filled u).mem (classHead + 8 + u * 2056) 2048)
      classHead (u + 1) = (filled (u + 1)).mem := filled_succ_mem u
  simp only [hload2, e3, hmem]
  rfl

/-- The first `xmalloc(2048)` of a thread. -/
theorem xmalloc_first :
    xmalloc arenaPages 1 State.init 2048 = some (chunkPtr 0, filled 1) := by
  have hidx : class_index 2048 = 7 := by decide
  have hp : arenaPages State.init.mmap_log.length = classHead := rfl
  have e2 : (2 : Nat) ^ (7 + INDEX_DECREMENT) = 2048 := by decide
  have hm : State.init.mem = fun _ => 0 := rfl
  rw [xmalloc_eq, hidx, if_neg (by decide), if_pos (by decide), hp, e2, hm, filled_one_mem]
  simp only [chunkPtr, filled, Nat.zero_mul, Nat.add_zero, State.init]

/-- The closed form `filled n` is the arena a fresh thread reaches by `n` calls
`xmalloc(2048)`, for every `n` from 1 to 973. -/
theorem fill_reaches_filled : ∀ n, n < 973 → fill (n + 1) = some (filled (n + 1)) := by
  intro n
  induction n with
  | zero =>
      intro _
      show (fill 0).bind (fun st => (xmalloc arenaPages 1 st 2048).map fun r => r.2)
        = some (filled 1)
      rw [fill, Option.some_bind, xmalloc_first, Option.map_some']
  | succ n ih =>
      intro hn
      rw [fill, ih (by omega), Option.some_bind,
        xmalloc_filled (n + 1) (by omega) (by omega), Option.map_some']

/-- Every request above `PAGE_SIZE` makes `large_allocation` ask for no bytes. -/
theorem large_length_zero (bytes : Nat) (h : PAGE_SIZE < bytes) : large_length bytes = 0 := by
  unfold large_length
  rw [if_neg (by omega), Nat.div_eq_of_lt h, Nat.zero_mul]

/-- The copy of `xrealloc` has the length of the old header as well:
`p = xmalloc(100)` is a chunk of class 128, the client writes `0xAB` into bytes
48 to 55 of it, and `q = xrealloc(p, 10)`, a chunk of class 16, holds `0xAB` at
byte 50 afterwards. -/
theorem xrealloc_copies_old_header :
    ((xmalloc arenaPages 10 State.init 100).bind fun p =>
      (xrealloc arenaPages 10
        { p.2 with mem := Raw.store p.2.mem (p.1 + 48) 0xABABABABABABABAB } p.1 10).map
        fun q => (Raw.load p.2.mem (p.1 - 8), Raw.load q.2.mem (q.1 - 8),
          p.2.mem (q.1 + 50), q.2.mem (q.1 + 50)))
      = some (128, 16, 0, 0xAB) := by
  decide!

/-! ## Worked executions of the bucket allocator -/

/-- C13 (failing input): `xmalloc(5000000)` is routed to `large_allocation`
(its index, 19, is not below `BUCKETS`), which asks `mmap` for
`ceil(PAGE_SIZE / bytes) * PAGE_SIZE = 0` bytes where
`ceil(5000000 / PAGE_SIZE) = 3` pages are needed; no block comes back.  A
request routed there with fewer than `PAGE_SIZE` bytes (the third
`xmalloc(1500000)` of `escalating`) does get one page and the header
1500000. -/
theorem C13_large_path_maps_nothing :
    ceil_log2 5000000 - INDEX_DECREMENT = 19 ∧
    large_length 5000000 = 0 ∧
    ceil_div 5000000 PAGE_SIZE = 3 ∧
    (xmalloc arenaPages 10 State.init 5000000).isNone = true ∧
    escalating.map (fun r => (r.2.2.1, r.2.2.2.mmap_log.head?, Raw.load r.2.2.2.mem (r.2.2.1 - 8)))
      = some (arenaPages 2 + 8, some (arenaPages 2, PAGE_SIZE), 1500000) := by
  decide!

set_option synthInstance.maxSize 4096 in
set_option synthInstance.maxHeartbeats 400000 in
/-- C14 (failing input): the first `xmalloc(1500000)` of a thread returns the
chunk in slot 0 of the page of class 2097152 (`bucket[17]`), with header
2097152; `xfree` of it calls `munmap(ptr - 8, 2097152)` and leaves the header
as it is.  The third `xmalloc(1500000)` of `escalating` comes from
`large_allocation`, which mapped 2000000 bytes; `xfree` of it calls no
`munmap` and zeroes the header. -/
theorem C14_release_mismatches_allocation_path :
    (xmalloc arenaPages 10 State.init 1500000).map (fun r =>
        (r.1, r.2.bucket 17, r.2.mmap_log, Raw.load r.2.mem (r.1 - 8)))
      = some (arenaPages 0 + 16, arenaPages 0, [(arenaPages 0, PAGE_SIZE)], 2097152) ∧
    (xmalloc arenaPages 10 State.init 1500000).map (fun r =>
        ((xfree r.2 r.1).munmap_log, Raw.load (xfree r.2 r.1).mem (r.1 - 8)))
      = some ([(arenaPages 0 + 8, 2097152)], 2097152) ∧
    escalating.map (fun r =>
        (r.2.2.1, r.2.2.2.mmap_log.head?, Raw.load r.2.2.2.mem (r.2.2.1 - 8)))
      = some (arenaPages 2 + 8, some (arenaPages 2, PAGE_SIZE), 1500000) ∧
    escalating.map (fun r =>
        ((xfree r.2.2.2 r.2.2.1).munmap_log, Raw.load (xfree r.2.2.2 r.2.2.1).mem (r.2.2.1 - 8)))
      = some ([], 0) := by
  decide!

/-- C12 (as stated, refuted): the second `xmalloc(1500000)` of a thread finds
the page of class 2097152 full, is passed on to class 4194304 and returns a
chunk whose header is 4194304, not the smallest class 2097152; the third is
passed on to `large_allocation` and gets the header 1500000. -/
theorem C12_counterexample :
    1 ≤ 1500000 ∧ 1500000 ≤ 2 ^ (BUCKETS - 1 + INDEX_DECREMENT) ∧
    2 ^ (ceil_log2 1500000) = 2097152 ∧
    escalating.map (fun r =>
        (Raw.load r.2.2.2.mem (r.1 - 8), Raw.load r.2.2.2.mem (r.2.1 - 8),
          Raw.load r.2.2.2.mem (r.2.2.1 - 8)))
      = some (2097152, 4194304, 1500000) := by
  decide!

/-- C17 (failing input): the first `xmalloc(3000000)` of a thread maps the
2000000 bytes of the page of class 4194304 at `arenaPages 0` and returns
`arenaPages 0 + 16`: the 3000000 bytes requested end 1000016 bytes past the
page.  In the arena `filled 972` (972 calls `xmalloc(2048)`), bump allocation
proceeds for the next `xmalloc(2048)`, whose 2048 bytes end 496 bytes past the
page of that class. -/
theorem C17_chunks_run_past_the_page :
    (xmalloc arenaPages 10 State.init 3000000).map (fun r => (r.1, r.2.mmap_log))
      = some (arenaPages 0 + 16, [(arenaPages 0, PAGE_SIZE)]) ∧
    arenaPages 0 + 16 + 3000000 = arenaPages 0 + PAGE_SIZE + 1000016 ∧
    (xmalloc arenaPages 10 (filled 972) 2048).map (fun r =>
        (r.1, r.2.mmap_log, Raw.load r.2.mem classHead, Raw.load r.2.mem (r.1 - 8)))
      = some (chunkPtr 972, [(classHead, PAGE_SIZE)], 973, 2048) ∧
    chunkPtr 972 + 2048 = classHead + PAGE_SIZE + 496 := by
  decide!

set_option maxRecDepth 1000000 in
/-- C16 (failing input): on the page of class 2048 with one chunk, released
(`head->size = 1`, no live chunk), `coalesce` leaves `head->size = 1`.  On the
full page of 973 chunks with the last one released (972 live), the next
`xmalloc(2048)` calls `coalesce`, which leaves `head->size = 973`, and then
maps a page for class 4096 and returns a chunk with header 4096. -/
theorem C16_trailing_tombstones_stay_counted :
    Raw.load (xfree (filled 1) (chunkPtr 0)).mem classHead = 1 ∧
    Raw.load (xfree (filled 1) (chunkPtr 0)).mem (chunkPtr 0 - 8) = 0 ∧
    (coalesce 1000 (xfree (filled 1) (chunkPtr 0)) 7 2048).map
        (fun s => Raw.load s.mem classHead) = some 1 ∧
    Raw.load (xfree (filled 973) (chunkPtr 972)).mem (chunkPtr 972 - 8) = 0 ∧
    (xmalloc arenaPages 1000 (xfree (filled 973) (chunkPtr 972)) 2048).map
        (fun r => (Raw.load r.2.mem classHead, r.1, r.2.mmap_log, Raw.load r.2.mem (r.1 - 8)))
      = some (973, arenaPages 1 + 16, [(arenaPages 1, PAGE_SIZE), (classHead, PAGE_SIZE)],
          4096) := by
  decide!

end Par

/-! ## The allocate-release round trip -/

/-- The adjacency test read as a chain condition. -/
theorem hasAdjacent_iff_chain (l : List Node) :
    hasAdjacent l = false ↔ l.Chain' (fun a b => a.addr + a.size ≠ b.addr) := by
  induction l with
  | nil => simp [hasAdjacent]
  | cons a t ih =>
      cases t with
      | nil => simp [hasAdjacent]
      | cons b rest =>
          simp only [hasAdjacent, Bool.or_eq_false_iff, decide_eq_false_iff_not,
            List.chain'_cons, ih]

/-- One turn of the loop of `add` over a cell that is not above the node and is
not the last one. -/
theorem add_loop_skip (node temp : Node) (acc : List Node) (saved : Option Node)
    (tl : List Node) (htl : tl ≠ []) (h : ¬ temp.addr > node.addr) :
    add_loop node acc saved (temp :: tl) = add_loop node (acc ++ [temp]) (some temp) tl := by
  cases tl with
  | nil => exact absurd rfl htl
  | cons nxt rest =>
      simp only [add_loop]
      exact if_neg (fun hc => h hc.2.1)

/-- The turn of the loop of `add` that links the node in front of `temp`. -/
theorem add_loop_link (node temp nxt s : Node) (acc rest : List Node)
    (hs : s.addr < node.addr) (h : node.addr < temp.addr) :
    add_loop node acc (some s) (temp :: nxt :: rest) = acc ++ node :: temp :: nxt :: rest := by
  simp [add_loop, hs, h]

/-- The loop of `add` walks over the lower cells and links the node in front of
a higher cell that is not the last one, once `saved` is set. -/
theorem add_loop_between (node succ nxt : Node) (rest : List Node) :
    ∀ (pre acc : List Node) (saved : Option Node),
      (∀ x ∈ pre, x.addr < node.addr) →
      (pre = [] → ∃ s, saved = some s ∧ s.addr < node.addr) →
      node.addr < succ.addr →
      add_loop node acc saved (pre ++ succ :: nxt :: rest)
        = acc ++ pre ++ node :: succ :: nxt :: rest := by
  intro pre
  induction pre with
  | nil =>
      intro acc saved _ hs hlt
      obtain ⟨s, rfl, hlow⟩ := hs rfl
      simpa using add_loop_link node succ nxt s acc rest hlow hlt
  | cons p pre ih =>
      intro acc saved hpre _ hlt
      have hp : p.addr < node.addr := hpre p (List.mem_cons_self _ _)
      rw [List.cons_append, add_loop_skip node p acc saved _ (by simp) (by omega),
        ih (acc ++ [p]) (some p) (fun x hx => hpre x (List.mem_cons_of_mem _ hx))
          (fun _ => ⟨p, rfl, hp⟩) hlt]
      simp

/-- The function `add` links a node between a non-empty lower part and a higher
part of at least two cells. -/
theorem add_between (node succ nxt : Node) (pre rest : List Node) (hne : pre ≠ [])
    (hpre : ∀ x ∈ pre, x.addr < node.addr) (hlt : node.addr < succ.addr) :
    add node (pre ++ succ :: nxt :: rest) = pre ++ node :: succ :: nxt :: rest := by
  cases pre with
  | nil => exact absurd rfl hne
  | cons p pre =>
      have h := add_loop_between node succ nxt rest (p :: pre) [] none hpre
        (fun hc => absurd hc (by simp)) hlt
      simpa [add] using h

/-- One turn of the coalescing loop over two cells that lie apart. -/
theorem coalesce_loop_skip (out : List Node) (saved temp : Node) (rest : List Node)
    (h : saved.addr + saved.size ≠ temp.addr) :
    coalesce_loop out saved true (temp :: rest) = coalesce_loop (out ++ [saved]) temp true rest := by
  rw [coalesce_loop]
  simp [h]

/-- The coalescing loop leaves a chain without neighbours as it is. -/
theorem coalesce_loop_apart :
    ∀ (rest out : List Node) (saved : Node),
      (saved :: rest).Chain' (fun a b => a.addr + a.size ≠ b.addr) →
      coalesce_loop out saved true rest = out ++ saved :: rest := by
  intro rest
  induction rest with
  | nil => intro out saved _; simp [coalesce_loop]
  | cons temp rest ih =>
      intro out saved h
      rw [List.chain'_cons] at h
      rw [coalesce_loop_skip out saved temp rest h.1, ih _ _ h.2]
      simp

/-- The coalescing pass leaves a list without neighbours as it is. -/
theorem coalesce_apart (l : List Node)
    (h : l.Chain' (fun a b => a.addr + a.size ≠ b.addr)) : coalesce l = l := by
  match l with
  | [] => simp [coalesce]
  | [a] => simp [coalesce]
  | a :: b :: rest =>
      have h1 := (List.chain'_cons.1 h).1
      rw [coalesce, if_neg h1]
      simpa using coalesce_loop_apart (b :: rest) [] a h

/-- The coalescing loop merges the one pair of neighbours `t`, `r` of a chain
whose other cells lie apart. -/
theorem coalesce_loop_pair (t r : Node) (post : List Node)
    (htr : t.addr + t.size = r.addr)
    (hpost : (r :: post).Chain' (fun a b => a.addr + a.size ≠ b.addr)) :
    ∀ (pre out : List Node) (saved : Node),
      (saved :: (pre ++ [t])).Chain' (fun a b => a.addr + a.size ≠ b.addr) →
      coalesce_loop out saved true (pre ++ t :: r :: post)
        = out ++ saved :: pre ++ { t with size := t.size + r.size } :: post := by
  intro pre
  induction pre with
  | nil =>
      intro out saved h
      have h1 : saved.addr + saved.size ≠ t.addr := by simpa using h
      rw [List.nil_append, coalesce_loop_skip out saved t _ h1, coalesce_loop, if_pos htr]
      cases post with
      | nil => simp [coalesce_loop]
      | cons s post =>
          rw [List.chain'_cons] at hpost
          rw [if_pos rfl, coalesce_loop, if_neg hpost.1, coalesce_loop_apart post _ s hpost.2]
          simp
  | cons p pre ih =>
      intro out saved h
      rw [List.cons_append, List.chain'_cons] at h
      rw [List.cons_append, coalesce_loop_skip out saved p _ h.1, ih _ _ h.2]
      simp

/-- The coalescing pass merges the one pair of neighbours of a list that does
not begin with it. -/
theorem coalesce_pair (t r : Node) (pre post : List Node) (hne : pre ≠ [])
    (htr : t.addr + t.size = r.addr)
    (hpre : (pre ++ [t]).Chain' (fun a b => a.addr + a.size ≠ b.addr))
    (hpost : (r :: post).Chain' (fun a b => a.addr + a.size ≠ b.addr)) :
    coalesce (pre ++ t :: r :: post) = pre ++ { t with size := t.size + r.size } :: post := by
  cases pre with
  | nil => exact absurd rfl hne
  | cons p pre =>
      have h := coalesce_loop_pair t r post htr hpost pre [] p hpre
      cases pre with
      | nil =>
          have h1 : p.addr + p.size ≠ t.addr := by simpa using hpre
          rw [List.cons_append, List.nil_append, coalesce, if_neg h1]
          simpa using h
      | cons q pre =>
          have h1 : p.addr + p.size ≠ q.addr := (List.chain'_cons.1 hpre).1
          rw [List.cons_append, List.cons_append, coalesce, if_neg h1]
          simpa using h

/-- The loop of `add` appends a node that lies above every cell. -/
theorem add_loop_above (node : Node) :
    ∀ (l acc : List Node) (saved : Option Node), l ≠ [] →
      (∀ x ∈ l, x.addr < node.addr) →
      add_loop node acc saved l = acc ++ l ++ [node] := by
  intro l
  induction l with
  | nil => intro acc saved h; exact absurd rfl h
  | cons temp tl ih =>
      intro acc saved _ hl
      have ht : temp.addr < node.addr := hl temp (List.mem_cons_self _ _)
      cases tl with
      | nil => simp [add_loop, ht]
      | cons nxt rest =>
          rw [add_loop_skip node temp acc saved _ (by simp) (by omega),
            ih (acc ++ [temp]) (some temp) (by simp)
              (fun x hx => hl x (List.mem_cons_of_mem _ hx))]
          simp

/-- The first cell that fits, read off a split of the list. -/
theorem find_fit_at (r : Nat) (t : Node) (post : List Node) (ht : r ≤ t.size) :
    ∀ pre : List Node, (∀ x ∈ pre, x.size < r) →
      (pre ++ t :: post).find? (fun temp => decide (temp.size ≥ r)) = some t := by
  intro pre
  induction pre with
  | nil => intro _; simp [List.find?_cons, ht]
  | cons p pre ih =>
      intro h
      have hp : ¬ p.size ≥ r := by
        have := h p (List.mem_cons_self _ _)
        omega
      rw [List.cons_append, List.find?_cons]
      simp only [hp, decide_False]
      exact ih (fun x hx => h x (List.mem_cons_of_mem _ hx))

/-- Unlinking the cell at a split of the list leaves the two parts. -/
theorem unlink_at (t : Node) (post : List Node) :
    ∀ pre : List Node, (∀ x ∈ pre, x.addr ≠ t.addr) →
      unlink t (pre ++ t :: post) = pre ++ post := by
  intro pre
  induction pre with
  | nil => intro _; simp [unlink]
  | cons p pre ih =>
      intro h
      rw [List.cons_append, unlink, if_neg (h p (List.mem_cons_self _ _)),
        ih (fun x hx => h x (List.mem_cons_of_mem _ hx))]
      rfl

/-- Whether the last cell of a chain lies apart from its predecessor depends
on its address only. -/
theorem chain_last_addr (pre : List Node) (t u : Node) (hu : u.addr = t.addr)
    (h : (pre ++ [t]).Chain' (fun a b => a.addr + a.size ≠ b.addr)) :
    (pre ++ [u]).Chain' (fun a b => a.addr + a.size ≠ b.addr) := by
  rw [List.chain'_append] at h ⊢
  refine ⟨h.1, List.chain'_singleton _, ?_⟩
  intro x hx y hy
  have hy' : u = y := by simpa using hy
  have := h.2.2 x hx t (by simp)
  rw [← hy', hu]
  exact this

/-- The free list after `hmalloc` has served `r` bytes from the cell `t` and
`hfree` has taken the block back is the list before, when nothing is wasted
and `t` sits where `add` links both nodes. -/
theorem round_trip_list (pre post : List Node) (t : Node) (r : Nat)
    (hr : 0 < r) (hfit : r ≤ t.size)
    (hasc : Ascending (pre ++ t :: post)) (hnov : NonOverlapping (pre ++ t :: post))
    (hch : (pre ++ t :: post).Chain' (fun a b => a.addr + a.size ≠ b.addr))
    (hwaste : t.size = r ∨ t.size - r > nodeWidth)
    (hplace : (pre = [] ∧ post = []) ∨ (pre ≠ [] ∧ 2 ≤ post.length) ∨
      (t.size = r ∧ (post = [] ∨ (pre = [] ∧ post.length = 1)))) :
    coalesce (add ⟨t.addr, r⟩
      (if t.size - r > nodeWidth then add ⟨t.addr + r, t.size - r⟩ (pre ++ post)
        else pre ++ post)) = pre ++ t :: post := by
  have hlow : ∀ x ∈ pre, x.addr < t.addr := fun x hx =>
    (List.pairwise_append.1 hasc).2.2 x hx t (List.mem_cons_self _ _)
  have hhigh : ∀ y ∈ post, t.addr + t.size ≤ y.addr := fun y hy =>
    (List.pairwise_cons.1 (List.pairwise_append.1 hnov).2.1).1 y hy
  obtain ⟨hc1, hc2⟩ := List.chain'_split.1 hch
  have hsame : (⟨t.addr, t.size⟩ : Node) = t := rfl
  by_cases hcarve : t.size - r > nodeWidth
  · -- a remainder is carved and comes back by coalescing
    have hsum : r + (t.size - r) = t.size := by omega
    rw [if_pos hcarve]
    rcases hplace with ⟨rfl, rfl⟩ | ⟨hne, hlen⟩ | ⟨hex, _⟩
    · have h1 : ¬ t.addr > t.addr + r := by omega
      simp [add, add_loop, h1, coalesce, coalesce_loop, hsum]
    · match post, hlen with
      | s1 :: s2 :: rest, _ =>
          have hs1 : t.addr + t.size ≤ s1.addr := hhigh s1 (List.mem_cons_self _ _)
          rw [add_between ⟨t.addr + r, t.size - r⟩ s1 s2 pre rest hne
              (fun x hx => by have := hlow x hx; simp only; omega) (by simp only; omega),
            add_between ⟨t.addr, r⟩ ⟨t.addr + r, t.size - r⟩ s1 pre (s2 :: rest) hne
              (fun x hx => hlow x hx) (by simp only; omega),
            coalesce_pair ⟨t.addr, r⟩ ⟨t.addr + r, t.size - r⟩ pre (s1 :: s2 :: rest) hne rfl
              (chain_last_addr pre t _ rfl hc1)]
          · simp only [hsum]
          · rw [List.chain'_cons] at hc2 ⊢
            refine ⟨?_, hc2.2⟩
            simp only
            have := hc2.1
            omega
    · unfold nodeWidth at hcarve
      omega
  · -- the cell fits exactly
    have hex : t.size = r := by
      rcases hwaste with h | h
      · exact h
      · exact absurd h hcarve
    have hnode : (⟨t.addr, r⟩ : Node) = t := by rw [← hex]
    rw [if_neg hcarve, hnode]
    have hadd : add t (pre ++ post) = pre ++ t :: post := by
      rcases hplace with ⟨rfl, rfl⟩ | ⟨hne, hlen⟩ | ⟨_, rfl | ⟨rfl, hlen⟩⟩
      · simp [add]
      · match post, hlen with
        | s1 :: s2 :: rest, _ =>
            have hs1 : t.addr + t.size ≤ s1.addr := hhigh s1 (List.mem_cons_self _ _)
            exact add_between t s1 s2 pre rest hne hlow (by omega)
      · cases pre with
        | nil => simp [add]
        | cons p pre =>
            have h := add_loop_above t (p :: pre) [] none (by simp) hlow
            simpa [add] using h
      · match post, hlen with
        | [s1], _ =>
            have hs1 : t.addr + t.size ≤ s1.addr := hhigh s1 (List.mem_cons_self _ _)
            have h1 : ¬ t.addr > s1.addr := by omega
            simp [add, add_loop, h1]
    rw [hadd]
    exact coalesce_apart _ hch

/-- C3 (failing input): the client program `x = hmalloc(2); y = hmalloc(0);
hfree(x); hfree(y)` leaves the free list `[65546(1), 65554(65554)]`, which is
strictly ascending and non-overlapping.  The next call, `hmalloc(0)`, returns
65562 and leaves the chain `65546 -> 8`: the header of the new block, stored at
65554, is the `next` field of the 8-byte node at 65546.  The list is no longer
ascending, and its second node is at an address the program never mapped.
Before that, `hfree(x)` has left `[65536(10), 65554(4078)]` and has overwritten
the header of the live block `y`, which reads 1 instead of 8. -/
theorem C3_short_blocks_break_the_order :
    ((Raw.hmalloc 8 Raw.State.init pageA 2).bind fun x =>
      (Raw.hmalloc 8 x.2 pageB 0).bind fun y =>
      (Raw.hfree 8 y.2 x.1).map fun s =>
        (x.1, y.1, Raw.load y.2.mem (y.1 - 8), Raw.load s.mem (y.1 - 8),
          Raw.free_nodes s.mem 8 s.freelist))
      = some (65544, 65554, 8, 1, [⟨65536, 10⟩, ⟨65554, 4078⟩]) ∧
    Raw.tinyBlocks.map (fun s => Raw.free_nodes s.mem 8 s.freelist)
      = some [⟨65546, 1⟩, ⟨65554, 65554⟩] ∧
    Ascending [⟨65546, 1⟩, ⟨65554, 65554⟩] ∧ NonOverlapping [⟨65546, 1⟩, ⟨65554, 65554⟩] ∧
    (Raw.tinyBlocks.bind fun s => Raw.hmalloc 8 s pageB 0).map
        (fun r => (r.1, Raw.free_nodes r.2.mem 8 r.2.freelist))
      = some (65562, [⟨65546, 1⟩, ⟨8, 0⟩]) ∧
    ¬ Ascending [⟨65546, 1⟩, ⟨8, 0⟩] := by
  decide

/-! ## The byte-level execution of `hmalloc` and `hfree`

What follows is about `Husky.Raw`: the free list is the chain of cells in
memory.  The first part follows one node through `hfree(hmalloc(s))`, blocks
shorter than a list cell included; the second proves that on well laid heaps
the byte-level functions compute what the list-level ones do. -/

namespace Raw

/-- A read of `k` bytes is below `256 ^ k`. -/
theorem loadN_lt (m : Mem) : ∀ k a : Nat, loadN m a k < 256 ^ k := by
  intro k
  induction k with
  | zero => intro a; simp [loadN]
  | succ k ih =>
      intro a
      have h := ih (a + 1)
      have hb : m a % 256 < 256 := Nat.mod_lt _ (by norm_num)
      rw [loadN, Nat.pow_succ']
      nlinarith

/-- A word read from memory is a `size_t`. -/
theorem load_lt (m : Mem) (a : Nat) : load m a < WORD := by
  have h := loadN_lt m 8 a
  simpa [load, WORD] using h

/-- A read splits into its low and its high bytes. -/
theorem loadN_split (m : Mem) :
    ∀ p q a : Nat, loadN m a (p + q) = loadN m a p + 256 ^ p * loadN m (a + p) q := by
  intro p
  induction p with
  | zero => intro q a; simp [loadN]
  | succ p ih =>
      intro q a
      have h := ih q (a + 1)
      have e : p + 1 + q = (p + q) + 1 := by omega
      have e2 : a + 1 + p = a + (p + 1) := by omega
      rw [e, loadN, h, loadN, e2, Nat.pow_succ']
      ring

/-- A store does not change the bytes above it. -/
theorem loadN_store_above (m : Mem) (a v : Nat) :
    ∀ k b : Nat, a + 8 ≤ b → loadN (store m a v) b k = loadN m b k := by
  intro k
  induction k with
  | zero => intro b _; simp [loadN]
  | succ k ih =>
      intro b hb
      have hout : ¬ (a ≤ b ∧ b < a + 8) := by omega
      rw [loadN, loadN, ih (b + 1) (by omega)]
      simp only [store, hout, if_false]

/-- A word read `j` bytes into a stored word: its low bytes are the high bytes
of the stored value, its high bytes are what memory held above the store. -/
theorem load_store_shift (m : Mem) (a v j : Nat) (hj : j ≤ 8) :
    load (store m a v) (a + j)
      = (v / 256 ^ j) % 256 ^ (8 - j) + 256 ^ (8 - j) * (load m (a + j) / 256 ^ (8 - j)) := by
  have e8 : 8 = (8 - j) + j := by omega
  have hpos : 0 < 256 ^ (8 - j) := Nat.pow_pos (by norm_num)
  have h1 : load (store m a v) (a + j)
      = loadN (store m a v) (a + j) (8 - j)
        + 256 ^ (8 - j) * loadN (store m a v) (a + j + (8 - j)) j := by
    unfold load
    conv_lhs => rw [e8]
    exact loadN_split _ _ _ _
  have h2 : load m (a + j)
      = loadN m (a + j) (8 - j) + 256 ^ (8 - j) * loadN m (a + j + (8 - j)) j := by
    unfold load
    conv_lhs => rw [e8]
    exact loadN_split _ _ _ _
  have e3 : a + j + (8 - j) = a + 8 := by omega
  rw [e3] at h1 h2
  rw [h1, loadN_store m a v (8 - j) j (by omega), loadN_store_above m a v j (a + 8) (le_refl _),
    h2, Nat.add_mul_div_left _ _ hpos, Nat.div_eq_of_lt (loadN_lt m _ _), Nat.zero_add]


/-- Release of the block at `base` when the free list is empty: the block
becomes the only node. -/
theorem hfree_alone (fuel : Nat) (st : State) (base r : Nat) (hfuel : 2 ≤ fuel)
    (hb : 0 < base) (hr : r < PAGE_SIZE) (hr0 : 0 < r) (hw : base + r < WORD)
    (hhead : load st.mem base = r) (hfl : st.freelist = 0) :
    ∃ st1, hfree fuel st (base + 8) = some st1 ∧ st1.freelist = base ∧
      load st1.mem (base + 8) = 0 ∧ load st1.mem base = r ∧
      st1.stats.pages_mapped = st.stats.pages_mapped := by
  obtain ⟨f, rfl⟩ : ∃ f, fuel = f + 2 := ⟨fuel - 2, by omega⟩
  have hbase : base ≠ 0 := by omega
  have hrw : r % WORD = r := Nat.mod_eq_of_lt (by omega)
  have h1 : load (store (store st.mem base r) (base + 8) 0) base = r := by
    rw [load_store_apart _ _ _ _ (Or.inr (le_refl _)), load_store_same, hrw]
  have h2 : load (store (store st.mem base r) (base + 8) 0) (base + 8) = 0 := by
    rw [load_store_same]; rfl
  have h3 : ¬ (base + r) % WORD = 0 := by
    rw [Nat.mod_eq_of_lt hw]; omega
  unfold hfree
  simp only [Nat.add_sub_cancel, hhead, hr, if_true, add, hfl]
  simp only [coalesce_loop, hbase, if_false, if_true, h1, h2, h3]
  exact ⟨_, rfl, rfl, h2, h1, rfl⟩


/-- Release of the block at `base` when the free list is the single node that
begins where the block ends: the two are joined.  The size of that node is read
after the store of the `next` field at `base + 8`, which reaches into it when
the block is shorter than a list cell. -/
theorem hfree_joined (fuel : Nat) (st : State) (base r : Nat) (hfuel : 2 ≤ fuel)
    (hb : 0 < base) (hr : r < PAGE_SIZE) (hr8 : 8 ≤ r) (hw : base + r < WORD)
    (hhead : load st.mem base = r) (hfl : st.freelist = base + r)
    (hnext : load st.mem (base + r + 8) = 0) :
    ∃ st1, hfree fuel st (base + 8) = some st1 ∧ st1.freelist = base ∧
      load st1.mem (base + 8) = 0 ∧
      load st1.mem base
        = (r + load (store (store st.mem base r) (base + 8) (base + r)) (base + r)) % WORD ∧
      st1.stats.pages_mapped = st.stats.pages_mapped := by
  obtain ⟨f, rfl⟩ : ∃ f, fuel = f + 2 := ⟨fuel - 2, by omega⟩
  have hbase : base ≠ 0 := by omega
  have hnode : base + r ≠ 0 := by omega
  have hrw : r % WORD = r := Nat.mod_eq_of_lt (by omega)
  have hpw : (base + r) % WORD = base + r := Nat.mod_eq_of_lt hw
  have hgt : ¬ base > base + r := by omega
  -- the list cell of the node, seen from `add`
  have a1 : load (store st.mem base r) (base + r + 8) = 0 := by
    rw [load_store_apart _ _ _ _ (Or.inl (by omega)), hnext]
  -- memory after `add`
  have c1 : load (store (store st.mem base r) (base + 8) (base + r)) base = r := by
    rw [load_store_apart _ _ _ _ (Or.inr (le_refl _)), load_store_same, hrw]
  have c2 : load (store (store st.mem base r) (base + 8) (base + r)) (base + 8) = base + r := by
    rw [load_store_same, hpw]
  -- memory after the store of the joined size
  have d1 : ∀ v, load (store (store (store st.mem base r) (base + 8) (base + r)) base v)
      (base + 8) = base + r := by
    intro v
    rw [load_store_apart _ _ _ _ (Or.inl (le_refl _)), c2]
  have d2 : ∀ v, load (store (store (store st.mem base r) (base + 8) (base + r)) base v)
      (base + r + 8) = 0 := by
    intro v
    rw [load_store_apart _ _ _ _ (Or.inl (by omega)),
      load_store_apart _ _ _ _ (Or.inl (by omega)), a1]
  -- memory at the end
  have e1 : ∀ v, load (store (store (store (store st.mem base r) (base + 8) (base + r)) base v)
      (base + 8) 0) (base + 8) = 0 := by
    intro v
    rw [load_store_same]; rfl
  have e2 : ∀ v, load (store (store (store (store st.mem base r) (base + 8) (base + r)) base v)
      (base + 8) 0) base = v % WORD := by
    intro v
    rw [load_store_apart _ _ _ _ (Or.inr (le_refl _)), load_store_same]
  unfold hfree
  simp only [Nat.add_sub_cancel, hhead, hr, if_true, add, hfl, hnode, if_false]
  simp only [add_loop, hnode, if_false, a1, if_true, hgt]
  simp only [coalesce_loop, hbase, if_false, if_true, c1, c2, hpw, d1, d2, e1]
  refine ⟨_, rfl, rfl, e1 _, ?_, rfl⟩
  rw [e2, Nat.mod_mod]


/-- A small allocation when the free list is empty: a page is mapped, the block
is at its base and the rest of the page, if it exceeds a list cell, is the
only node. -/
theorem hmalloc_fresh (fuel : Nat) (st : State) (page s : Nat) (hfuel : 1 ≤ fuel)
    (hs : s + 8 < PAGE_SIZE) (hfl : st.freelist = 0) :
    ∃ st1, hmalloc fuel st page s = some (page + 8, st1) ∧ load st1.mem page = s + 8 ∧
      st1.stats.pages_mapped = st.stats.pages_mapped + 1 ∧
      (if PAGE_SIZE - (s + 8) > 16 then
        st1.freelist = page + (s + 8) ∧ load st1.mem (page + (s + 8)) = PAGE_SIZE - (s + 8) ∧
          load st1.mem (page + (s + 8) + 8) = 0
       else st1.freelist = 0) := by
  obtain ⟨f, rfl⟩ : ∃ f, fuel = f + 1 := ⟨fuel - 1, by omega⟩
  have hmod : (s + 8) % WORD = s + 8 := by
    apply Nat.mod_eq_of_lt
    unfold PAGE_SIZE at hs; unfold WORD; omega
  have hrw : ∀ v, v < PAGE_SIZE → v % WORD = v := by
    intro v hv
    apply Nat.mod_eq_of_lt
    unfold PAGE_SIZE at hv; unfold WORD; omega
  unfold hmalloc
  simp only [hmod, hs, if_true, hfl, find_fit, ne_eq, not_true_eq_false, if_false]
  by_cases hc : PAGE_SIZE - (s + 8) > 16
  · simp only [hc, if_true, add, hfl]
    refine ⟨_, rfl, ?_, rfl, ?_, ?_, ?_⟩
    · rw [load_store_same, hmod]
    · rfl
    · rw [load_store_apart _ _ _ _ (Or.inl (by omega)),
        load_store_apart _ _ _ _ (Or.inr (by omega)), load_store_same,
        hrw _ (by unfold PAGE_SIZE at *; omega)]
    · rw [load_store_apart _ _ _ _ (Or.inl (by omega)), load_store_same]; rfl
  · simp only [hc, if_false]
    exact ⟨_, rfl, by rw [load_store_same, hmod], rfl, rfl⟩

/-- A small allocation served by the head of the free list when that node has
no successor: the block is at the node, and what the node holds beyond the
request, if it exceeds a list cell, is the only node afterwards. -/
theorem hmalloc_head (fuel : Nat) (st : State) (page base s : Nat) (hfuel : 1 ≤ fuel)
    (hs : s + 8 < PAGE_SIZE) (hb : 0 < base) (hfl : st.freelist = base)
    (hfit : s + 8 ≤ load st.mem base) (hnext : load st.mem (base + 8) = 0) :
    ∃ st1, hmalloc fuel st page s = some (base + 8, st1) ∧ load st1.mem base = s + 8 ∧
      st1.stats.pages_mapped = st.stats.pages_mapped ∧
      (if load st.mem base - (s + 8) > 16 then
        st1.freelist = base + (s + 8) ∧
          load st1.mem (base + (s + 8)) = load st.mem base - (s + 8) ∧
          load st1.mem (base + (s + 8) + 8) = 0
       else st1.freelist = 0) := by
  obtain ⟨f, rfl⟩ : ∃ f, fuel = f + 1 := ⟨fuel - 1, by omega⟩
  have hbase : base ≠ 0 := by omega
  have hmod : (s + 8) % WORD = s + 8 := by
    apply Nat.mod_eq_of_lt
    unfold PAGE_SIZE at hs; unfold WORD; omega
  have hK := load_lt st.mem base
  have hsub : (load st.mem base + WORD - (s + 8)) % WORD = load st.mem base - (s + 8) := by
    have : load st.mem base + WORD - (s + 8) = (load st.mem base - (s + 8)) + WORD := by omega
    rw [this, Nat.add_mod_right]
    exact Nat.mod_eq_of_lt (by omega)
  have hrest : (load st.mem base - (s + 8)) % WORD = load st.mem base - (s + 8) :=
    Nat.mod_eq_of_lt (by omega)
  unfold hmalloc
  simp only [hmod, hs, if_true, hfl, find_fit, hbase, if_false, ge_iff_le, hfit, ne_eq,
    not_false_eq_true, unlink_loop, hnext, hsub]
  by_cases hc : load st.mem base - (s + 8) > 16
  · simp only [hc, if_true, add]
    refine ⟨_, rfl, ?_, rfl, ?_, ?_, ?_⟩
    · rw [load_store_same, hmod]
    · rfl
    · rw [load_store_apart _ _ _ _ (Or.inl (by omega)),
        load_store_apart _ _ _ _ (Or.inr (by omega)), load_store_same, hrest]
    · rw [load_store_apart _ _ _ _ (Or.inl (by omega)), load_store_same]; rfl
  · simp only [hc, if_false]
    exact ⟨_, rfl, by rw [load_store_same, hmod], rfl, rfl⟩


/-- Release of the block that `hmalloc` has just cut from the base of a node
with no successor.  `g` is what the node held beyond the block.  The block
comes back as the only node of the list, with at least its own size; when the
block holds a list cell (`16 ≤ r`) and a remainder was carved, the node has its
old size again. -/
theorem hfree_round (fuel : Nat) (st : State) (base r g : Nat) (hfuel : 2 ≤ fuel)
    (hb : 0 < base) (hr : r < PAGE_SIZE) (hr8 : 8 ≤ r) (hw : base + PAGE_SIZE ≤ WORD)
    (hhead : load st.mem base = r)
    (hshape : if g > 16 then
        st.freelist = base + r ∧ load st.mem (base + r) = g ∧ load st.mem (base + r + 8) = 0
      else st.freelist = 0)
    (hbig : 16 ≤ r → r + g < WORD)
    (hnice : r < 16 →
      256 ^ (16 - r) * (g / 256 ^ (16 - r)) + (base + r) / 256 ^ (r - 8) + r < WORD) :
    ∃ st1, hfree fuel st (base + 8) = some st1 ∧ st1.freelist = base ∧
      load st1.mem (base + 8) = 0 ∧ r ≤ load st1.mem base ∧
      (16 ≤ r → load st1.mem base = if g > 16 then r + g else r) ∧
      (r < 16 →
        256 ^ (16 - r) * ((load st1.mem base - r) / 256 ^ (16 - r))
          + (base + r) / 256 ^ (r - 8) + r < WORD) ∧
      st1.stats.pages_mapped = st.stats.pages_mapped := by
  have hwr : base + r < WORD := by unfold PAGE_SIZE at hr hw; omega
  by_cases hc : g > 16
  · rw [if_pos hc] at hshape
    obtain ⟨hfl, hsize, hnext⟩ := hshape
    obtain ⟨st1, h1, h2, h3, h4, h5⟩ :=
      hfree_joined fuel st base r hfuel hb hr hr8 hwr hhead hfl hnext
    by_cases h16 : 16 ≤ r
    · have hg : load (store (store st.mem base r) (base + 8) (base + r)) (base + r) = g := by
        rw [load_store_apart _ _ _ _ (Or.inl (by omega)),
          load_store_apart _ _ _ _ (Or.inl (by omega)), hsize]
      rw [hg, Nat.mod_eq_of_lt (hbig h16)] at h4
      refine ⟨st1, h1, h2, h3, by omega, ?_, fun h => by omega, h5⟩
      intro _
      rw [if_pos hc, h4]
    · have hlt : r < 16 := by omega
      have hn := hnice hlt
      have hB : 0 < 256 ^ (16 - r) := Nat.pow_pos (by norm_num)
      have e1 : base + r = base + 8 + (r - 8) := by omega
      have e2 : 8 - (r - 8) = 16 - r := by omega
      have hm : load (store st.mem base r) (base + 8 + (r - 8)) = g := by
        rw [← e1, load_store_apart _ _ _ _ (Or.inl (by omega)), hsize]
      have hg : load (store (store st.mem base r) (base + 8) (base + r)) (base + r)
          = (base + r) / 256 ^ (r - 8) % 256 ^ (16 - r)
            + 256 ^ (16 - r) * (g / 256 ^ (16 - r)) := by
        conv_lhs => rw [e1]
        rw [load_store_shift _ _ _ _ (by omega), hm, e2, ← e1]
      have hlo : (base + r) / 256 ^ (r - 8) % 256 ^ (16 - r) ≤ (base + r) / 256 ^ (r - 8) :=
        Nat.mod_le _ _
      have hlo2 : (base + r) / 256 ^ (r - 8) % 256 ^ (16 - r) < 256 ^ (16 - r) :=
        Nat.mod_lt _ hB
      rw [hg, Nat.mod_eq_of_lt (by omega)] at h4
      refine ⟨st1, h1, h2, h3, by omega, fun h => by omega, ?_, h5⟩
      intro _
      have e3 : load st1.mem base - r
          = (base + r) / 256 ^ (r - 8) % 256 ^ (16 - r)
            + 256 ^ (16 - r) * (g / 256 ^ (16 - r)) := by omega
      rw [e3, Nat.add_mul_div_left _ _ hB, Nat.div_eq_of_lt hlo2, Nat.zero_add]
      exact hn
  · rw [if_neg hc] at hshape
    obtain ⟨st1, h1, h2, h3, h4, h5⟩ :=
      hfree_alone fuel st base r hfuel hb hr (by omega) hwr hhead hshape
    refine ⟨st1, h1, h2, h3, by omega, ?_, ?_, h5⟩
    · intro _
      rw [if_neg hc, h4]
    · intro hlt
      have hd : (base + r) / 256 ^ (r - 8) ≤ base + r := Nat.div_le_self _ _
      rw [h4, Nat.sub_self, Nat.zero_div, Nat.mul_zero]
      unfold PAGE_SIZE at hw
      omega


/-- The bound `hfree_round` asks of a block shorter than a list cell holds for
every remainder that fits in a page. -/
theorem short_block_bound (base r g : Nat) (hr8 : 8 ≤ r) (hr : r < 16) (hg : g ≤ PAGE_SIZE)
    (hw : base + PAGE_SIZE ≤ WORD) :
    256 ^ (16 - r) * (g / 256 ^ (16 - r)) + (base + r) / 256 ^ (r - 8) + r < WORD := by
  have h1 : 256 ^ (16 - r) * (g / 256 ^ (16 - r)) ≤ g := Nat.mul_div_le _ _
  by_cases h8 : r = 8
  · subst h8
    have hz : g / 256 ^ (16 - 8) = 0 := by
      apply Nat.div_eq_of_lt
      unfold PAGE_SIZE at hg
      norm_num
      omega
    rw [hz]
    unfold PAGE_SIZE WORD at *
    norm_num
    omega
  · have hp : (256 : Nat) ^ 1 ≤ 256 ^ (r - 8) :=
      Nat.pow_le_pow_right (by norm_num) (by omega)
    have h2 : (base + r) / 256 ^ (r - 8) ≤ (base + r) / 256 ^ 1 :=
      Nat.div_le_div_left hp (by norm_num)
    unfold PAGE_SIZE WORD at *
    omega

/-- One round `hfree(hmalloc(s))` on a heap whose free list is one node at
`base` that fits the request: the list is again one node at `base` that fits
it, and no page is mapped. -/
theorem round_keeps (fuel : Nat) (st : State) (page base s : Nat) (hfuel : 2 ≤ fuel)
    (hs : s + 8 < PAGE_SIZE) (hb : 0 < base) (hw : base + PAGE_SIZE ≤ WORD)
    (hfl : st.freelist = base) (hnext : load st.mem (base + 8) = 0)
    (hfit : s + 8 ≤ load st.mem base)
    (hnice : s + 8 < 16 →
      256 ^ (16 - (s + 8)) * ((load st.mem base - (s + 8)) / 256 ^ (16 - (s + 8)))
        + (base + (s + 8)) / 256 ^ (s + 8 - 8) + (s + 8) < WORD) :
    ∃ st1, ((hmalloc fuel st page s).bind fun r => hfree fuel r.2 r.1) = some st1 ∧
      st1.freelist = base ∧ load st1.mem (base + 8) = 0 ∧ s + 8 ≤ load st1.mem base ∧
      (s + 8 < 16 →
        256 ^ (16 - (s + 8)) * ((load st1.mem base - (s + 8)) / 256 ^ (16 - (s + 8)))
          + (base + (s + 8)) / 256 ^ (s + 8 - 8) + (s + 8) < WORD) ∧
      (16 ≤ s + 8 → load st.mem base - (s + 8) > 16 → load st1.mem base = load st.mem base) ∧
      st1.stats.pages_mapped = st.stats.pages_mapped := by
  obtain ⟨st0, h1, h2, h3, h4⟩ :=
    hmalloc_head fuel st page base s (by omega) hs hb hfl hfit hnext
  have hK := load_lt st.mem base
  obtain ⟨st1, g1, g2, g3, g4, g5, g6, g7⟩ :=
    hfree_round fuel st0 base (s + 8) (load st.mem base - (s + 8)) hfuel hb hs (by omega) hw
      h2 h4 (fun _ => by omega) hnice
  refine ⟨st1, ?_, g2, g3, g4, g6, ?_, by rw [g7, h3]⟩
  · rw [h1, Option.some_bind]
    exact g1
  · intro h16 hc
    rw [g5 h16, if_pos hc]
    omega

/-- After every round of `churn` the free list is one node at the base of the
first page, it fits the request, and one page has been mapped. -/
theorem churn_settled (pages : Nat → Nat) (s fuel : Nat) (hfuel : 2 ≤ fuel)
    (hs : s + 8 < PAGE_SIZE) (hb : 0 < pages 0) (hw : pages 0 + PAGE_SIZE ≤ WORD) :
    ∀ n : Nat, ∃ st, churn pages s fuel (n + 1) = some st ∧
      st.freelist = pages 0 ∧ load st.mem (pages 0 + 8) = 0 ∧ s + 8 ≤ load st.mem (pages 0) ∧
      (s + 8 < 16 →
        256 ^ (16 - (s + 8)) * ((load st.mem (pages 0) - (s + 8)) / 256 ^ (16 - (s + 8)))
          + (pages 0 + (s + 8)) / 256 ^ (s + 8 - 8) + (s + 8) < WORD) ∧
      (16 ≤ s + 8 → PAGE_SIZE - (s + 8) > 16 → load st.mem (pages 0) = PAGE_SIZE) ∧
      st.stats.pages_mapped = 1 := by
  intro n
  induction n with
  | zero =>
      obtain ⟨st0, h1, h2, h3, h4⟩ :=
        hmalloc_fresh fuel State.init (pages 0) s (by omega) hs rfl
      obtain ⟨st1, g1, g2, g3, g4, g5, g6, g7⟩ :=
        hfree_round fuel st0 (pages 0) (s + 8) (PAGE_SIZE - (s + 8)) hfuel hb hs (by omega) hw
          h2 h4 (fun _ => by unfold PAGE_SIZE WORD at *; omega)
          (fun h => short_block_bound _ _ _ (by omega) h (by omega) hw)
      refine ⟨st1, ?_, g2, g3, g4, g6, ?_, ?_⟩
      · rw [churn, churn, Option.some_bind, h1, Option.some_bind]
        exact g1
      · intro h16 hc
        rw [g5 h16, if_pos hc]
        omega
      · rw [g7, h3]
        rfl
  | succ n ih =>
      obtain ⟨st, i1, i2, i3, i4, i5, i6, i7⟩ := ih
      obtain ⟨st1, g1, g2, g3, g4, g5, g6, g7⟩ :=
        round_keeps fuel st (pages (n + 1)) (pages 0) s hfuel hs hb hw i2 i3 i4 i5
      refine ⟨st1, ?_, g2, g3, g4, g5, ?_, by rw [g7, i7]⟩
      · rw [churn, i1, Option.some_bind]
        exact g1
      · intro h16 hc
        rw [g6 h16 (by rw [i6 h16 hc]; exact hc), i6 h16 hc]


/-! ## The free list in memory -/

/-- A store outside the cells of a chain leaves the chain as it is. -/
theorem seg_frame (m : Mem) (x v : Nat) :
    ∀ (l : List Node) (a b : Nat), Seg m a l b →
      (∀ n ∈ l, x + 8 ≤ n.addr ∨ n.addr + 16 ≤ x) → Seg (store m x v) a l b := by
  intro l
  induction l with
  | nil => intro a b h _; exact h
  | cons n rest ih =>
      intro a b h hx
      obtain ⟨h1, h2, h3⟩ := h
      have hn := hx n (List.mem_cons_self _ _)
      refine ⟨h1, ?_, ?_⟩
      · rw [load_store_apart _ _ _ _ (by omega), h2]
      · rw [load_store_apart _ _ _ _ (by omega)]
        exact ih _ _ h3 (fun y hy => hx y (List.mem_cons_of_mem _ hy))

/-- A chain of two parts is a chain through the pointer where they meet. -/
theorem seg_append (m : Mem) :
    ∀ (l₁ l₂ : List Node) (a c : Nat),
      Seg m a (l₁ ++ l₂) c ↔ ∃ b, Seg m a l₁ b ∧ Seg m b l₂ c := by
  intro l₁
  induction l₁ with
  | nil =>
      intro l₂ a c
      constructor
      · intro h; exact ⟨a, rfl, h⟩
      · rintro ⟨b, h1, h2⟩
        have : a = b := h1
        rw [this]; exact h2
  | cons n rest ih =>
      intro l₂ a c
      constructor
      · rintro ⟨h1, h2, h3⟩
        obtain ⟨b, h4, h5⟩ := (ih l₂ _ c).1 h3
        exact ⟨b, ⟨h1, h2, h4⟩, h5⟩
      · rintro ⟨b, ⟨h1, h2, h4⟩, h5⟩
        exact ⟨h1, h2, (ih l₂ _ c).2 ⟨b, h4, h5⟩⟩

/-- The walk of `free_list_length` reads off the chain that is in memory. -/
theorem free_nodes_of_seg (m : Mem) :
    ∀ (l : List Node) (a fuel : Nat), Seg m a l 0 → (∀ n ∈ l, 0 < n.addr) →
      l.length + 1 ≤ fuel → free_nodes m fuel a = l := by
  intro l
  induction l with
  | nil =>
      intro a fuel h _ hf
      obtain ⟨f, rfl⟩ : ∃ f, fuel = f + 1 := ⟨fuel - 1, by simp at hf; omega⟩
      have : a = 0 := h
      simp [free_nodes, this]
  | cons n rest ih =>
      intro a fuel h hpos hf
      obtain ⟨f, rfl⟩ : ∃ f, fuel = f + 1 := ⟨fuel - 1, by simp at hf; omega⟩
      obtain ⟨h1, h2, h3⟩ := h
      have hn := hpos n (List.mem_cons_self _ _)
      have ha : a ≠ 0 := by omega
      rw [free_nodes, if_neg ha, h1, h2,
        ih _ f h3 (fun y hy => hpos y (List.mem_cons_of_mem _ hy)) (by simp at hf ⊢; omega)]

/-- A list read off by the walk of `free_list_length` with a step to spare is
the chain in memory, and none of its nodes is at the null address. -/
theorem seg_of_free_nodes (m : Mem) :
    ∀ (l : List Node) (a : Nat), free_nodes m (l.length + 1) a = l →
      Seg m a l 0 ∧ ∀ n ∈ l, 0 < n.addr := by
  intro l
  induction l with
  | nil =>
      intro a h
      by_cases ha : a = 0
      · exact ⟨ha, by simp⟩
      · simp [free_nodes, ha] at h
  | cons n rest ih =>
      intro a h
      by_cases ha : a = 0
      · simp [free_nodes, ha] at h
      · rw [List.length_cons, free_nodes, if_neg ha] at h
        injection h with h1 h2
        have hn : n = ⟨a, load m a⟩ := h1.symm
        subst hn
        obtain ⟨h3, h4⟩ := ih _ h2
        refine ⟨⟨rfl, rfl, h3⟩, ?_⟩
        intro y hy
        rcases List.mem_cons.1 hy with rfl | hy
        · simp only; omega
        · exact h4 y hy

/-- The search loop of `hmalloc` returns the first cell of the chain that fits,
or the null pointer. -/
theorem find_fit_seg (m : Mem) (r : Nat) :
    ∀ (l : List Node) (a fuel : Nat), Seg m a l 0 → (∀ n ∈ l, 0 < n.addr) →
      l.length + 1 ≤ fuel →
      find_fit r fuel m a
        = some (match l.find? (fun temp => decide (temp.size ≥ r)) with
                | some t => t.addr
                | none => 0) := by
  intro l
  induction l with
  | nil =>
      intro a fuel h _ hf
      obtain ⟨f, rfl⟩ : ∃ f, fuel = f + 1 := ⟨fuel - 1, by simp at hf; omega⟩
      have : a = 0 := h
      simp [find_fit, this]
  | cons n rest ih =>
      intro a fuel h hpos hf
      obtain ⟨f, rfl⟩ : ∃ f, fuel = f + 1 := ⟨fuel - 1, by simp at hf; omega⟩
      obtain ⟨h1, h2, h3⟩ := h
      have hn := hpos n (List.mem_cons_self _ _)
      have ha : a ≠ 0 := by omega
      rw [find_fit, if_neg ha, h1, h2, List.find?_cons]
      by_cases hfit : n.size ≥ r
      · simp [hfit]
      · simp only [hfit, if_false, decide_False]
        exact ih _ f h3 (fun y hy => hpos y (List.mem_cons_of_mem _ hy))
          (by simp at hf ⊢; omega)


/-- The unlinking loop of `hmalloc` on a chain: the cell `t` is taken out, by
moving `freelist` when it is the head and by a store into its predecessor
otherwise; the size of `t` stays where it is. -/
theorem unlink_loop_seg (t : Node) (post : List Node) (fl : Nat) :
    ∀ (pre acc : List Node) (st : State) (saved node fuel : Nat),
      st.freelist = fl → Seg st.mem fl acc node → Seg st.mem node (pre ++ t :: post) 0 →
      ((acc = [] ∧ saved = 0) ∨ ∃ acc1 p, acc = acc1 ++ [p] ∧ saved = p.addr) →
      Laid (acc ++ (pre ++ t :: post)) → pre.length + 1 ≤ fuel →
      ∃ st1, unlink_loop t.addr fuel st saved node = some st1 ∧
        Seg st1.mem st1.freelist (acc ++ (pre ++ post)) 0 ∧ st1.stats = st.stats ∧
        load st1.mem t.addr = t.size := by
  intro pre
  induction pre with
  | nil =>
      intro acc st saved node fuel hfl hacc hch hlink hlaid hf
      obtain ⟨f, rfl⟩ : ∃ f, fuel = f + 1 := ⟨fuel - 1, by omega⟩
      obtain ⟨h1, h2, h3⟩ := hch
      have ht := hlaid.2 t (by simp)
      have hn0 : node ≠ 0 := by omega
      rw [unlink_loop, if_neg hn0, if_pos h1]
      rcases hlink with ⟨rfl, rfl⟩ | ⟨acc1, p, rfl, rfl⟩
      · rw [if_pos rfl]
        refine ⟨_, rfl, ?_, rfl, h2⟩
        simpa using h3
      · have hp := hlaid.2 p (by simp)
        have hsep : p.addr + 16 ≤ t.addr := by
          have := (List.pairwise_append.1 hlaid.1).2.2 p (by simp) t (by simp)
          exact this
        obtain ⟨b, hs1, hs2, hs3, hs4⟩ := (seg_append _ _ _ _ _).1 hacc
        have hp0 : ¬ p.addr = 0 := by omega
        rw [if_neg hp0]
        refine ⟨_, rfl, ?_, rfl, ?_⟩
        · simp only [hfl, List.nil_append]
          rw [List.append_assoc, seg_append]
          refine ⟨b, ?_, hs2, ?_, ?_⟩
          · apply seg_frame _ _ _ _ _ _ hs1
            intro n hn
            have := (List.pairwise_append.1
              (List.pairwise_append.1 hlaid.1).1).2.2 n hn p (by simp)
            omega
          · rw [load_store_apart _ _ _ _ (Or.inr (le_refl _)), hs3]
          · rw [load_store_same, Nat.mod_eq_of_lt (load_lt _ _), h1]
            apply seg_frame _ _ _ _ _ _ h3
            intro n hn
            have h5 := (List.pairwise_cons.1 (List.pairwise_append.1 hlaid.1).2.1).1 n hn
            omega
        · simp only
          rw [load_store_apart _ _ _ _ (Or.inl (by omega)), h2]
  | cons q pre ih =>
      intro acc st saved node fuel hfl hacc hch hlink hlaid hf
      obtain ⟨f, rfl⟩ : ∃ f, fuel = f + 1 := ⟨fuel - 1, by omega⟩
      obtain ⟨h1, h2, h3⟩ := hch
      have hq := hlaid.2 q (by simp)
      have hn0 : node ≠ 0 := by omega
      have hqt : q.addr + 16 ≤ t.addr := by
        have := (List.pairwise_cons.1 (List.pairwise_append.1 hlaid.1).2.1).1 t (by simp)
        exact this
      have hne : ¬ node = t.addr := by omega
      rw [unlink_loop, if_neg hn0, if_neg hne]
      have hacc2 : Seg st.mem fl (acc ++ [q]) (load st.mem (node + 8)) := by
        rw [seg_append]
        exact ⟨node, hacc, h1, h2, by rw [h1]; rfl⟩
      have hl2 : Laid ((acc ++ [q]) ++ (pre ++ t :: post)) := by
        simpa using hlaid
      obtain ⟨st1, g1, g2, g3, g4⟩ :=
        ih (acc ++ [q]) st node (load st.mem (node + 8)) f hfl hacc2 (by rw [h1]; exact h3)
          (Or.inr ⟨acc, q, rfl, h1⟩) hl2 (by simp at hf ⊢; omega)
      exact ⟨st1, g1, by simpa using g2, g3, g4⟩


/-- The loop of `add` on a chain in memory does what the loop on the list of
nodes does, whichever of its exits it takes. -/
theorem add_loop_seg (node : Node) (fl : Nat) :
    ∀ (chain acc : List Node) (saved : Option Node) (st : State) (sp tp fuel : Nat),
      st.freelist = fl → Seg st.mem fl acc tp → Seg st.mem tp chain 0 →
      ((acc = [] ∧ sp = 0 ∧ saved = none) ∨
        ∃ acc1 p, acc = acc1 ++ [p] ∧ sp = p.addr ∧ saved = some p) →
      Laid (acc ++ chain) →
      (∀ n ∈ acc ++ chain, node.addr + 16 ≤ n.addr ∨ n.addr + 16 ≤ node.addr) →
      load st.mem node.addr = node.size → 0 < node.addr → node.addr < WORD →
      chain.length + 1 ≤ fuel →
      ∃ st1, add_loop node.addr fuel st sp tp = some st1 ∧
        Seg st1.mem st1.freelist (Husky.add_loop node acc saved chain) 0 ∧
        st1.stats = st.stats := by
  intro chain
  induction chain with
  | nil =>
      intro acc saved st sp tp fuel hfl hacc hch _ _ _ _ _ _ hf
      obtain ⟨f, rfl⟩ : ∃ f, fuel = f + 1 := ⟨fuel - 1, by omega⟩
      have htp : tp = 0 := hch
      rw [add_loop, if_pos htp]
      refine ⟨_, rfl, ?_, rfl⟩
      simp only [Husky.add_loop, hfl]
      rw [← htp]; exact hacc
  | cons temp tl ih =>
      intro acc saved st sp tp fuel hfl hacc hch hlink hlaid hnode hsize hpos hlt hf
      obtain ⟨f, rfl⟩ : ∃ f, fuel = f + 1 := ⟨fuel - 1, by omega⟩
      obtain ⟨h1, h2, h3⟩ := hch
      subst h1
      have htemp := hlaid.2 temp (by simp)
      have htp0 : temp.addr ≠ 0 := by omega
      have hnt := hnode temp (by simp)
      have hacc_node : ∀ n ∈ acc, node.addr + 16 ≤ n.addr ∨ n.addr + 16 ≤ node.addr :=
        fun n hn => hnode n (List.mem_append_left _ hn)
      have hacc_temp : ∀ n ∈ acc, n.addr + 16 ≤ temp.addr := fun n hn =>
        (List.pairwise_append.1 hlaid.1).2.2 n hn temp (by simp)
      cases tl with
      | nil =>
          have hnx : load st.mem (temp.addr + 8) = 0 := h3
          rw [add_loop, if_neg htp0, if_pos hnx]
          by_cases hgt : node.addr > temp.addr
          · rw [if_pos hgt]
            refine ⟨_, rfl, ?_, rfl⟩
            simp only [Husky.add_loop, hgt, if_true, hfl]
            have hA : Seg (store (store st.mem (temp.addr + 8) node.addr) (node.addr + 8) 0)
                fl acc temp.addr := by
              apply seg_frame
              · apply seg_frame _ _ _ _ _ _ hacc
                intro n hn
                have := hacc_temp n hn
                omega
              · intro n hn
                have := hacc_node n hn
                omega
            have hB : load (store (store st.mem (temp.addr + 8) node.addr) (node.addr + 8) 0)
                temp.addr = temp.size := by
              rw [load_store_apart _ _ _ _ (by omega), load_store_apart _ _ _ _ (by omega), h2]
            have hC : load (store (store st.mem (temp.addr + 8) node.addr) (node.addr + 8) 0)
                (temp.addr + 8) = node.addr := by
              rw [load_store_apart _ _ _ _ (by omega), load_store_same, Nat.mod_eq_of_lt hlt]
            have hD : load (store (store st.mem (temp.addr + 8) node.addr) (node.addr + 8) 0)
                node.addr = node.size := by
              rw [load_store_apart _ _ _ _ (by omega), load_store_apart _ _ _ _ (by omega),
                hsize]
            have hE : load (store (store st.mem (temp.addr + 8) node.addr) (node.addr + 8) 0)
                (node.addr + 8) = 0 := by
              rw [load_store_same]; rfl
            rw [seg_append]
            exact ⟨temp.addr, hA, rfl, hB, hC, hD, hE⟩
          · rw [if_neg hgt]
            refine ⟨_, rfl, ?_, rfl⟩
            simp only [Husky.add_loop, hgt, if_false]
            have hB : load (store st.mem (node.addr + 8) temp.addr) node.addr = node.size := by
              rw [load_store_apart _ _ _ _ (by omega), hsize]
            have hC : load (store st.mem (node.addr + 8) temp.addr) (node.addr + 8)
                = temp.addr := by
              rw [load_store_same, Nat.mod_eq_of_lt (by omega)]
            have hD : load (store st.mem (node.addr + 8) temp.addr) temp.addr = temp.size := by
              rw [load_store_apart _ _ _ _ (by omega), h2]
            have hE : load (store st.mem (node.addr + 8) temp.addr) (temp.addr + 8) = 0 := by
              rw [load_store_apart _ _ _ _ (by omega), hnx]
            exact ⟨rfl, hB, hC, hD, hE⟩
      | cons nxt rest =>
          obtain ⟨k1, k2, k3⟩ := h3
          have hnxt := hlaid.2 nxt (by simp)
          have hnx : ¬ load st.mem (temp.addr + 8) = 0 := by rw [k1]; omega
          rw [add_loop, if_neg htp0, if_neg hnx]
          by_cases hc : sp < node.addr ∧ temp.addr > node.addr ∧ sp ≠ 0
          · rw [if_pos hc]
            rcases hlink with ⟨_, rfl, _⟩ | ⟨acc1, p, rfl, rfl, rfl⟩
            · exact absurd rfl hc.2.2
            · have hc2 : (match some p with | none => 0 | some s => s.addr) < node.addr
                  ∧ temp.addr > node.addr ∧ (some p).isSome = true :=
                ⟨hc.1, hc.2.1, rfl⟩
              obtain ⟨b, hs1, hs2, hs3, hs4⟩ := (seg_append _ _ _ _ _).1 hacc
              have hp_node := hnode p (by simp)
              have hp_temp := hacc_temp p (by simp)
              have hpp := hlaid.2 p (by simp)
              refine ⟨_, rfl, ?_, rfl⟩
              simp only [Husky.add_loop, hc2, and_self, if_true, hfl]
              have hA : Seg (store (store st.mem (p.addr + 8) node.addr) (node.addr + 8)
                  temp.addr) fl acc1 b := by
                apply seg_frame
                · apply seg_frame _ _ _ _ _ _ hs1
                  intro n hn
                  have := (List.pairwise_append.1
                    (List.pairwise_append.1 hlaid.1).1).2.2 n hn p (by simp)
                  omega
                · intro n hn
                  have := hacc_node n (List.mem_append_left _ hn)
                  omega
              have hB : load (store (store st.mem (p.addr + 8) node.addr) (node.addr + 8)
                  temp.addr) p.addr = p.size := by
                rw [load_store_apart _ _ _ _ (by omega), load_store_apart _ _ _ _ (by omega),
                  hs3]
              have hC : load (store (store st.mem (p.addr + 8) node.addr) (node.addr + 8)
                  temp.addr) (p.addr + 8) = node.addr := by
                rw [load_store_apart _ _ _ _ (by omega), load_store_same, Nat.mod_eq_of_lt hlt]
              have hD : load (store (store st.mem (p.addr + 8) node.addr) (node.addr + 8)
                  temp.addr) node.addr = node.size := by
                rw [load_store_apart _ _ _ _ (by omega), load_store_apart _ _ _ _ (by omega),
                  hsize]
              have hE : load (store (store st.mem (p.addr + 8) node.addr) (node.addr + 8)
                  temp.addr) (node.addr + 8) = temp.addr := by
                rw [load_store_same, Nat.mod_eq_of_lt (by omega)]
              have hF : Seg (store (store st.mem (p.addr + 8) node.addr) (node.addr + 8)
                  temp.addr) temp.addr (temp :: nxt :: rest) 0 := by
                apply seg_frame
                · apply seg_frame _ _ _ _ _ _
                    (show Seg st.mem temp.addr (temp :: nxt :: rest) 0 from ⟨rfl, h2, k1, k2, k3⟩)
                  intro n hn
                  have : p.addr + 16 ≤ n.addr :=
                    (List.pairwise_append.1 hlaid.1).2.2 p (by simp) n hn
                  omega
                · intro n hn
                  have := hnode n (List.mem_append_right _ hn)
                  omega
              rw [List.append_assoc, seg_append]
              refine ⟨b, hA, hs2, hB, hC, hD, ?_⟩
              rw [hE]
              exact hF
          · rw [if_neg hc]
            have hacc2 : Seg st.mem fl (acc ++ [temp]) (load st.mem (temp.addr + 8)) := by
              rw [seg_append]
              exact ⟨temp.addr, hacc, rfl, h2, rfl⟩
            obtain ⟨st1, g1, g2, g3⟩ :=
              ih (acc ++ [temp]) (some temp) st temp.addr (load st.mem (temp.addr + 8)) f hfl
                hacc2 ⟨k1, k2, k3⟩ (Or.inr ⟨acc, temp, rfl, rfl, rfl⟩)
                (by simpa using hlaid) (by simpa using hnode) hsize hpos hlt
                (by simp at hf ⊢; omega)
            refine ⟨st1, g1, ?_, g3⟩
            simp only [Husky.add_loop]
            rcases hlink with ⟨_, rfl, rfl⟩ | ⟨acc1, p, _, rfl, rfl⟩
            · rw [if_neg (by simp)]
              exact g2
            · have hpp : 0 < p.addr := by
                have := hlaid.2 p (by simp [*])
                exact this.1
              rw [if_neg (fun hh => hc ⟨hh.1, hh.2.1, by omega⟩)]
              exact g2


/-- The function `add` on a chain in memory does what `add` on the list of
nodes does. -/
theorem add_seg (node : Node) (l : List Node) (st : State) (fuel : Nat)
    (hch : Seg st.mem st.freelist l 0) (hlaid : Laid l)
    (hnode : ∀ n ∈ l, node.addr + 16 ≤ n.addr ∨ n.addr + 16 ≤ node.addr)
    (hsize : load st.mem node.addr = node.size) (hpos : 0 < node.addr)
    (hlt : node.addr < WORD) (hf : l.length + 1 ≤ fuel) :
    ∃ st1, add fuel st node.addr = some st1 ∧
      Seg st1.mem st1.freelist (Husky.add node l) 0 ∧ st1.stats = st.stats := by
  cases l with
  | nil =>
      have hfl : st.freelist = 0 := hch
      unfold add
      rw [if_pos hfl]
      refine ⟨_, rfl, ?_, rfl⟩
      have hB : load (store st.mem (node.addr + 8) 0) node.addr = node.size := by
        rw [load_store_apart _ _ _ _ (by omega), hsize]
      have hC : load (store st.mem (node.addr + 8) 0) (node.addr + 8) = 0 := by
        rw [load_store_same]; rfl
      exact ⟨rfl, hB, hC⟩
  | cons a tl =>
      have ha := hlaid.2 a (by simp)
      have hfl : st.freelist ≠ 0 := by
        have : st.freelist = a.addr := hch.1
        omega
      unfold add
      rw [if_neg hfl]
      obtain ⟨st1, g1, g2, g3⟩ :=
        add_loop_seg node st.freelist (a :: tl) [] none st 0 st.freelist fuel rfl rfl hch
          (Or.inl ⟨rfl, rfl, rfl⟩) (by simpa using hlaid) (by simpa using hnode) hsize hpos hlt hf
      exact ⟨st1, g1, g2, g3⟩

end Raw

/-- The loop of `add` returns cells of the chain and the new node only. -/
theorem add_loop_subset (node : Node) :
    ∀ (chain pre : List Node) (saved : Option Node) (x : Node),
      x ∈ add_loop node pre saved chain → x = node ∨ x ∈ pre ∨ x ∈ chain := by
  intro chain
  induction chain with
  | nil =>
      intro pre saved x hx
      simp only [add_loop] at hx
      exact Or.inr (Or.inl hx)
  | cons temp tl ih =>
      intro pre saved x hx
      cases tl with
      | nil =>
          simp only [add_loop] at hx
          split at hx
          · simp only [List.mem_append, List.mem_cons, List.mem_singleton] at hx
            rcases hx with h | h | h | h
            · exact Or.inr (Or.inl h)
            · exact Or.inr (Or.inr (by simp [h]))
            · exact Or.inl h
            · cases h
          · simp only [List.mem_cons, List.mem_singleton] at hx
            rcases hx with h | h | h
            · exact Or.inl h
            · exact Or.inr (Or.inr (by simp [h]))
            · cases h
      | cons nxt rest =>
          simp only [add_loop] at hx
          split at hx
          · simp only [List.mem_append, List.mem_cons] at hx
            rcases hx with h | h | h
            · exact Or.inr (Or.inl h)
            · exact Or.inl h
            · exact Or.inr (Or.inr (by simpa using h))
          · rcases ih (pre ++ [temp]) (some temp) x hx with h | h | h
            · exact Or.inl h
            · simp only [List.mem_append, List.mem_singleton] at h
              rcases h with h | h
              · exact Or.inr (Or.inl h)
              · exact Or.inr (Or.inr (by simp [h]))
            · exact Or.inr (Or.inr (List.mem_cons_of_mem _ h))

/-- The function `add` returns cells of the list and the new node only. -/
theorem add_subset (node : Node) (l : List Node) (x : Node) (hx : x ∈ add node l) :
    x = node ∨ x ∈ l := by
  cases l with
  | nil => left; simpa [add] using hx
  | cons a tl =>
      rcases add_loop_subset node (a :: tl) [] none x hx with h | h | h
      · exact Or.inl h
      · cases h
      · exact Or.inr h

namespace Raw

/-- Adding a node whose cell shares no byte with the cells of the list leaves
the cells in ascending order and apart. -/
theorem laid_add (node : Node) (l : List Node) (hlaid : Laid l)
    (hnode : ∀ n ∈ l, node.addr + 16 ≤ n.addr ∨ n.addr + 16 ≤ node.addr)
    (hpos : 0 < node.addr) (hlt : node.addr + node.size < WORD) :
    Laid (Husky.add node l) := by
  have hasc : Ascending l := hlaid.1.imp (fun h => by omega)
  have hne : ∀ x ∈ l, x.addr ≠ node.addr := fun x hx => by
    have := hnode x hx
    omega
  have hasc2 := add_ascending node l hasc hne
  refine ⟨?_, ?_⟩
  · refine List.Pairwise.imp_of_mem ?_ hasc2
    intro a b ha hb hab
    rcases add_subset node l a ha with ha | ha
    · rcases add_subset node l b hb with hb | hb
      · rw [ha, hb] at hab; omega
      · have := hnode b hb
        rw [ha] at hab ⊢
        omega
    · rcases add_subset node l b hb with hb | hb
      · have := hnode a ha
        rw [hb] at hab ⊢
        omega
      · rcases pairwise_mem_cases l hlaid.1 a ha b hb with h | h | h
        · rw [h] at hab; omega
        · exact h
        · omega
  · intro n hn
    rcases add_subset node l n hn with hn | hn
    · rw [hn]; exact ⟨hpos, hlt⟩
    · exact hlaid.2 n hn


/-- Part of a well laid list is well laid. -/
theorem laid_sublist (l₁ l₂ : List Node) (h : Laid l₂) (hs : l₁.Sublist l₂) : Laid l₁ :=
  ⟨h.1.sublist hs, fun n hn => h.2 n (hs.subset hn)⟩

/-- A node of a well laid list may change its size as long as it stays inside
the address space. -/
theorem laid_resize (l₁ l₂ : List Node) (a b : Node) (h : Laid (l₁ ++ a :: l₂))
    (hab : b.addr = a.addr) (hb : b.addr + b.size < WORD) : Laid (l₁ ++ b :: l₂) := by
  obtain ⟨h1, h2⟩ := h
  refine ⟨?_, ?_⟩
  · rw [List.pairwise_append, List.pairwise_cons] at h1 ⊢
    obtain ⟨p1, ⟨p2, p3⟩, p4⟩ := h1
    refine ⟨p1, ⟨fun y hy => by rw [hab]; exact p2 y hy, p3⟩, ?_⟩
    intro x hx y hy
    rcases List.mem_cons.1 hy with hy | hy
    · rw [hy, hab]; exact p4 x hx a (List.mem_cons_self _ _)
    · exact p4 x hx y (List.mem_cons_of_mem _ hy)
  · intro n hn
    rcases List.mem_append.1 hn with hn | hn
    · exact h2 n (List.mem_append_left _ hn)
    · rcases List.mem_cons.1 hn with hn | hn
      · rw [hn]
        have := h2 a (by simp)
        exact ⟨by omega, hb⟩
      · exact h2 n (List.mem_append_right _ (List.mem_cons_of_mem _ hn))

/-- The coalescing loop of `hfree` on a chain in memory, after its first
iteration, does what the loop on the list of nodes does.  When `linked` is
false the cell `saved` is no longer in the chain, yet the loop goes on reading
and writing it. -/
theorem coalesce_loop_seg (fl : Nat) :
    ∀ (rest out : List Node) (saved : Node) (linked : Bool) (st : State) (tp fuel : Nat),
      st.freelist = fl → Seg st.mem tp rest 0 →
      load st.mem saved.addr = saved.size → load st.mem (saved.addr + 8) = tp →
      (if linked then Seg st.mem fl out saved.addr else Seg st.mem fl out tp) →
      Laid (out ++ saved :: rest) → rest.length + 1 ≤ fuel →
      ∃ st1, coalesce_loop fuel st saved.addr tp = some st1 ∧
        Seg st1.mem st1.freelist (Husky.coalesce_loop out saved linked rest) 0 ∧
        st1.stats = st.stats := by
  intro rest
  induction rest with
  | nil =>
      intro out saved linked st tp fuel hfl hch hsz hnx hout hlaid hf
      obtain ⟨f, rfl⟩ : ∃ f, fuel = f + 1 := ⟨fuel - 1, by omega⟩
      have htp : tp = 0 := hch
      rw [coalesce_loop, if_pos htp]
      refine ⟨_, rfl, ?_, rfl⟩
      simp only [Husky.coalesce_loop, hfl]
      cases linked with
      | true =>
          simp only [if_true] at hout ⊢
          rw [seg_append]
          exact ⟨saved.addr, hout, rfl, hsz, by rw [hnx]; exact htp⟩
      | false =>
          simp only [Bool.false_eq_true, if_false] at hout ⊢
          rw [← htp]; exact hout
  | cons temp rest ih =>
      intro out saved linked st tp fuel hfl hch hsz hnx hout hlaid hf
      obtain ⟨f, rfl⟩ : ∃ f, fuel = f + 1 := ⟨fuel - 1, by omega⟩
      obtain ⟨h1, h2, h3⟩ := hch
      subst h1
      have hsaved := hlaid.2 saved (by simp)
      have htemp := hlaid.2 temp (by simp)
      have hst : saved.addr + 16 ≤ temp.addr := by
        have := (List.pairwise_cons.1 (List.pairwise_append.1 hlaid.1).2.1).1 temp (by simp)
        exact this
      have hs0 : saved.addr ≠ 0 := by omega
      have ht0 : temp.addr ≠ 0 := by omega
      have hout_saved : ∀ n ∈ out, n.addr + 16 ≤ saved.addr := fun n hn =>
        (List.pairwise_append.1 hlaid.1).2.2 n hn saved (by simp)
      have hrest_saved : ∀ n ∈ rest, saved.addr + 16 ≤ n.addr := fun n hn =>
        (List.pairwise_cons.1 (List.pairwise_append.1 hlaid.1).2.1).1 n (by simp [hn])
      have hmod : (saved.addr + load st.mem saved.addr) % WORD = saved.addr + saved.size := by
        rw [hsz]; exact Nat.mod_eq_of_lt hsaved.2
      rw [coalesce_loop, if_neg ht0]
      simp only [hs0, if_false, hmod]
      by_cases hadj : saved.addr + saved.size = temp.addr
      · -- the two cells touch: `saved` takes the bytes of `temp`
        have hsum : (load st.mem saved.addr + load st.mem temp.addr) % WORD
            = saved.size + temp.size := by
          rw [hsz, h2]; exact Nat.mod_eq_of_lt (by omega)
        have e1 : load (store st.mem saved.addr (saved.size + temp.size)) (temp.addr + 8)
            = load st.mem (temp.addr + 8) := load_store_apart _ _ _ _ (by omega)
        have hnxlt := load_lt st.mem (temp.addr + 8)
        simp only [hadj, if_true, hsum, e1]
        have m2size : load (store (store st.mem saved.addr (saved.size + temp.size))
            (saved.addr + 8) (load st.mem (temp.addr + 8))) saved.addr
            = saved.size + temp.size := by
          rw [load_store_apart _ _ _ _ (by omega), load_store_same,
            Nat.mod_eq_of_lt (by omega)]
        have m2next : load (store (store st.mem saved.addr (saved.size + temp.size))
            (saved.addr + 8) (load st.mem (temp.addr + 8))) (saved.addr + 8)
            = load st.mem (temp.addr + 8) := by
          rw [load_store_same, Nat.mod_eq_of_lt hnxlt]
        have m2tsize : load (store (store st.mem saved.addr (saved.size + temp.size))
            (saved.addr + 8) (load st.mem (temp.addr + 8))) temp.addr = temp.size := by
          rw [load_store_apart _ _ _ _ (by omega), load_store_apart _ _ _ _ (by omega), h2]
        have m2tnext : load (store (store st.mem saved.addr (saved.size + temp.size))
            (saved.addr + 8) (load st.mem (temp.addr + 8))) (temp.addr + 8)
            = load st.mem (temp.addr + 8) := by
          rw [load_store_apart _ _ _ _ (by omega), load_store_apart _ _ _ _ (by omega)]
        have m2rest : Seg (store (store st.mem saved.addr (saved.size + temp.size))
            (saved.addr + 8) (load st.mem (temp.addr + 8))) (load st.mem (temp.addr + 8)) rest 0 := by
          apply seg_frame
          · apply seg_frame _ _ _ _ _ _ h3
            intro n hn
            have := hrest_saved n hn
            omega
          · intro n hn
            have := hrest_saved n hn
            omega
        have m2out : ∀ b, Seg st.mem fl out b →
            Seg (store (store st.mem saved.addr (saved.size + temp.size))
              (saved.addr + 8) (load st.mem (temp.addr + 8))) fl out b := by
          intro b hb
          apply seg_frame
          · apply seg_frame _ _ _ _ _ _ hb
            intro n hn
            have := hout_saved n hn
            omega
          · intro n hn
            have := hout_saved n hn
            omega
        rw [m2tnext]
        cases linked with
        | true =>
            simp only [if_true] at hout
            have hl2 : Laid ((out ++ [{ saved with size := saved.size + temp.size }])
                ++ temp :: rest) := by
              rw [List.append_assoc]
              exact laid_resize out (temp :: rest) saved
                { saved with size := saved.size + temp.size } hlaid rfl
                (show saved.addr + (saved.size + temp.size) < WORD by omega)
            obtain ⟨st1, g1, g2, g3⟩ :=
              ih (out ++ [{ saved with size := saved.size + temp.size }]) temp false
                ⟨store (store st.mem saved.addr (saved.size + temp.size))
                    (saved.addr + 8) (load st.mem (temp.addr + 8)), st.freelist, st.stats⟩
                (load st.mem (temp.addr + 8)) f hfl m2rest m2tsize m2tnext
                (by
                  simp only [Bool.false_eq_true, if_false]
                  rw [seg_append]
                  exact ⟨saved.addr, m2out _ hout, rfl, m2size, m2next⟩)
                hl2 (by simp at hf ⊢; omega)
            refine ⟨st1, g1, ?_, g3⟩
            simp only [Husky.coalesce_loop, hadj, if_true]
            exact g2
        | false =>
            simp only [Bool.false_eq_true, if_false] at hout
            have hl2 : Laid (out ++ temp :: rest) :=
              laid_sublist _ _ hlaid
                ((List.Sublist.refl out).append (List.sublist_cons_self saved (temp :: rest)))
            obtain ⟨st1, g1, g2, g3⟩ :=
              ih out temp true
                ⟨store (store st.mem saved.addr (saved.size + temp.size))
                    (saved.addr + 8) (load st.mem (temp.addr + 8)), st.freelist, st.stats⟩
                (load st.mem (temp.addr + 8)) f hfl m2rest m2tsize m2tnext
                (by
                  simp only [if_true]
                  exact m2out _ hout)
                hl2 (by simp at hf ⊢; omega)
            refine ⟨st1, g1, ?_, g3⟩
            simp only [Husky.coalesce_loop, hadj, if_true, Bool.false_eq_true, if_false]
            exact g2
      · -- the two cells lie apart
        simp only [hadj, if_false]
        cases linked with
        | true =>
            simp only [if_true] at hout
            obtain ⟨st1, g1, g2, g3⟩ :=
              ih (out ++ [saved]) temp true st (load st.mem (temp.addr + 8)) f hfl h3 h2 rfl
                (by
                  simp only [if_true]
                  rw [seg_append]
                  exact ⟨saved.addr, hout, rfl, hsz, hnx⟩)
                (by simpa using hlaid) (by simp at hf ⊢; omega)
            refine ⟨st1, g1, ?_, g3⟩
            simp only [Husky.coalesce_loop, hadj, if_false, if_true]
            exact g2
        | false =>
            simp only [Bool.false_eq_true, if_false] at hout
            have hl2 : Laid (out ++ temp :: rest) :=
              laid_sublist _ _ hlaid
                ((List.Sublist.refl out).append (List.sublist_cons_self saved (temp :: rest)))
            obtain ⟨st1, g1, g2, g3⟩ :=
              ih out temp true st (load st.mem (temp.addr + 8)) f hfl h3 h2 rfl
                (by
                  simp only [if_true]
                  exact hout)
                hl2 (by simp at hf ⊢; omega)
            refine ⟨st1, g1, ?_, g3⟩
            simp only [Husky.coalesce_loop, hadj, if_false, Bool.false_eq_true]
            exact g2


/-- The coalescing pass of `hfree` on a chain in memory does what the pass on
the list of nodes does. -/
theorem coalesce_seg (l : List Node) (st : State) (fuel : Nat)
    (hch : Seg st.mem st.freelist l 0) (hlaid : Laid l) (hf : l.length + 1 ≤ fuel) :
    ∃ st1, coalesce_loop fuel st 0 st.freelist = some st1 ∧
      Seg st1.mem st1.freelist (Husky.coalesce l) 0 ∧ st1.stats = st.stats := by
  match l, hch, hlaid, hf with
  | [], hch, _, hf =>
      obtain ⟨f, rfl⟩ : ∃ f, fuel = f + 1 := ⟨fuel - 1, by omega⟩
      have h0 : st.freelist = 0 := hch
      rw [coalesce_loop, if_pos h0]
      exact ⟨_, rfl, by simpa [Husky.coalesce] using h0, rfl⟩
  | [temp], hch, hlaid, hf =>
      obtain ⟨f, rfl⟩ : ∃ f, fuel = f + 2 := ⟨fuel - 2, by simp at hf; omega⟩
      obtain ⟨h1, h2, h3⟩ := hch
      have h3 : load st.mem (temp.addr + 8) = 0 := h3
      have htemp := hlaid.2 temp (by simp)
      have ht0 : ¬ st.freelist = 0 := by omega
      have hne : ¬ (temp.addr + temp.size) % WORD = 0 := by
        rw [Nat.mod_eq_of_lt htemp.2]; omega
      rw [coalesce_loop, if_neg ht0]
      simp only [if_true, h1, h2, h3, hne, if_false, coalesce_loop]
      exact ⟨_, rfl, ⟨h1, h2, h3⟩, rfl⟩
  | temp :: nxt :: rest, hch, hlaid, hf =>
      obtain ⟨f, rfl⟩ : ∃ f, fuel = f + 1 := ⟨fuel - 1, by omega⟩
      obtain ⟨h1, h2, k1, k2, k3⟩ := hch
      have htemp := hlaid.2 temp (by simp)
      have hnxt := hlaid.2 nxt (by simp)
      have htn : temp.addr + 16 ≤ nxt.addr := (List.pairwise_cons.1 hlaid.1).1 nxt (by simp)
      have hrest : ∀ n ∈ rest, temp.addr + 16 ≤ n.addr := fun n hn =>
        (List.pairwise_cons.1 hlaid.1).1 n (by simp [hn])
      have ht0 : ¬ st.freelist = 0 := by omega
      have hmod : (temp.addr + temp.size) % WORD = temp.addr + temp.size :=
        Nat.mod_eq_of_lt htemp.2
      rw [coalesce_loop, if_neg ht0]
      simp only [if_true, h1, h2, k1, hmod]
      by_cases hadj : temp.addr + temp.size = nxt.addr
      · have hsum : (temp.size + load st.mem nxt.addr) % WORD = temp.size + nxt.size := by
          rw [k2]; exact Nat.mod_eq_of_lt (by omega)
        have hnxlt := load_lt st.mem (nxt.addr + 8)
        have e1 : load (store st.mem temp.addr (temp.size + nxt.size)) (temp.addr + 8)
            = nxt.addr := by
          rw [load_store_apart _ _ _ _ (by omega), k1]
        have e2 : load (store st.mem temp.addr (temp.size + nxt.size)) (nxt.addr + 8)
            = load st.mem (nxt.addr + 8) := load_store_apart _ _ _ _ (by omega)
        simp only [hadj, if_true, hsum, e1, e2]
        have m2size : load (store (store st.mem temp.addr (temp.size + nxt.size))
            (temp.addr + 8) (load st.mem (nxt.addr + 8))) temp.addr = temp.size + nxt.size := by
          rw [load_store_apart _ _ _ _ (by omega), load_store_same,
            Nat.mod_eq_of_lt (by omega)]
        have m2next : load (store (store st.mem temp.addr (temp.size + nxt.size))
            (temp.addr + 8) (load st.mem (nxt.addr + 8))) (temp.addr + 8)
            = load st.mem (nxt.addr + 8) := by
          rw [load_store_same, Nat.mod_eq_of_lt hnxlt]
        have m2rest : Seg (store (store st.mem temp.addr (temp.size + nxt.size))
            (temp.addr + 8) (load st.mem (nxt.addr + 8))) (load st.mem (nxt.addr + 8)) rest 0 := by
          apply seg_frame
          · apply seg_frame _ _ _ _ _ _ k3
            intro n hn
            have := hrest n hn
            omega
          · intro n hn
            have := hrest n hn
            omega
        have hl2 : Laid ([] ++ { temp with size := temp.size + nxt.size } :: rest) := by
          apply laid_resize [] rest temp { temp with size := temp.size + nxt.size }
          · exact laid_sublist _ _ hlaid
              ((List.sublist_cons_self nxt rest).cons₂ temp)
          · rfl
          · show temp.addr + (temp.size + nxt.size) < WORD
            omega
        rw [m2next]
        obtain ⟨st1, g1, g2, g3⟩ :=
          coalesce_loop_seg temp.addr rest [] { temp with size := temp.size + nxt.size } true
            ⟨store (store st.mem temp.addr (temp.size + nxt.size))
              (temp.addr + 8) (load st.mem (nxt.addr + 8)), temp.addr, st.stats⟩
            (load st.mem (nxt.addr + 8)) f rfl m2rest m2size m2next
            (by simp only [if_true]; exact (rfl : temp.addr = temp.addr)) hl2
            (by simp at hf ⊢; omega)
        refine ⟨st1, g1, ?_, g3⟩
        simp only [Husky.coalesce, hadj, if_true]
        exact g2
      · simp only [hadj, if_false]
        rw [k1]
        obtain ⟨st1, g1, g2, g3⟩ :=
          coalesce_loop_seg temp.addr (nxt :: rest) [] temp true st nxt.addr f h1
            (show Seg st.mem nxt.addr (nxt :: rest) 0 from ⟨rfl, k2, k3⟩) h2 k1
            (by simp only [if_true]; exact (rfl : temp.addr = temp.addr)) hlaid
            (by simp at hf ⊢; omega)
        refine ⟨st1, g1, ?_, g3⟩
        simp only [Husky.coalesce, hadj, if_false]
        exact g2


end Raw

/-- The loop of `add` lengthens the list by one node at most. -/
theorem add_loop_length (node : Node) :
    ∀ (chain pre : List Node) (saved : Option Node),
      (add_loop node pre saved chain).length ≤ pre.length + chain.length + 1 := by
  intro chain
  induction chain with
  | nil => intro pre saved; simp [add_loop]
  | cons temp tl ih =>
      intro pre saved
      cases tl with
      | nil =>
          simp only [add_loop]
          split <;> simp
      | cons nxt rest =>
          simp only [add_loop]
          split
          · simp
            omega
          · have := ih (pre ++ [temp]) (some temp)
            simp at this ⊢
            omega

/-- The function `add` lengthens the list by one node at most. -/
theorem add_length (node : Node) (l : List Node) : (add node l).length ≤ l.length + 1 := by
  cases l with
  | nil => simp [add]
  | cons a tl =>
      have := add_loop_length node (a :: tl) [] none
      simpa [add] using this

namespace Raw

/-- The small path of `hfree` on a chain in memory does what `hfree` on the
list of nodes does, when the 16 bytes at the base of the block share no byte
with the cells of the list. -/
theorem hfree_seg (l : List Node) (st : State) (b h fuel : Nat)
    (hch : Seg st.mem st.freelist l 0) (hlaid : Laid l)
    (hhead : load st.mem b = h) (hsmall : h < PAGE_SIZE)
    (hblock : ∀ n ∈ l, b + 16 ≤ n.addr ∨ n.addr + 16 ≤ b)
    (hb : 0 < b) (hw : b + h < WORD) (hf : l.length + 2 ≤ fuel) :
    ∃ st1, hfree fuel st (b + 8) = some st1 ∧
      Seg st1.mem st1.freelist (Husky.coalesce (Husky.add ⟨b, h⟩ l)) 0 ∧
      st1.stats.pages_mapped = st.stats.pages_mapped := by
  have hframe : Seg (store st.mem b h) st.freelist l 0 := by
    apply seg_frame _ _ _ _ _ _ hch
    intro n hn
    have := hblock n hn
    omega
  have hsz : load (store st.mem b h) b = h := by
    rw [load_store_same]; exact Nat.mod_eq_of_lt (by omega)
  obtain ⟨st1, g1, g2, g3⟩ :=
    add_seg ⟨b, h⟩ l ⟨store st.mem b h, st.freelist,
        { st.stats with chunks_freed := st.stats.chunks_freed + 1 }⟩ fuel hframe hlaid hblock hsz
      hb (show b < WORD by omega) (by omega)
  have hl2 := laid_add ⟨b, h⟩ l hlaid hblock hb hw
  have hlen := add_length ⟨b, h⟩ l
  obtain ⟨st2, k1, k2, k3⟩ := coalesce_seg _ st1 fuel g2 hl2 (by omega)
  refine ⟨st2, ?_, k2, by rw [k3, g3]⟩
  unfold hfree
  simp only [Nat.add_sub_cancel, hhead, hsmall, if_true]
  have g1' : add fuel ⟨store st.mem b h, st.freelist,
      { st.stats with chunks_freed := st.stats.chunks_freed + 1 }⟩ b = some st1 := g1
  rw [g1']
  exact k1


/-- The free-list hit of `hmalloc` on a chain in memory does what `hmalloc` on
the list of nodes does, when the block holds a list cell: the block is at the
first node that fits, the header holds the required size, and the 16 bytes at
the base of the block share no byte with the cells of the new list. -/
theorem hmalloc_seg (pre post : List Node) (t : Node) (st : State) (page size fuel : Nat)
    (hch : Seg st.mem st.freelist (pre ++ t :: post) 0) (hlaid : Laid (pre ++ t :: post))
    (hnov : ∀ n ∈ post, t.addr + t.size ≤ n.addr)
    (hs : size + 8 < PAGE_SIZE) (h16 : 16 ≤ size + 8)
    (hpre : ∀ x ∈ pre, x.size < size + 8) (hfit : size + 8 ≤ t.size)
    (hf : (pre ++ t :: post).length + 1 ≤ fuel) :
    ∃ st1, hmalloc fuel st page size = some (t.addr + 8, st1) ∧
      Seg st1.mem st1.freelist
        (if t.size - (size + 8) > 16 then
          Husky.add ⟨t.addr + (size + 8), t.size - (size + 8)⟩ (pre ++ post)
         else pre ++ post) 0 ∧
      Laid (if t.size - (size + 8) > 16 then
          Husky.add ⟨t.addr + (size + 8), t.size - (size + 8)⟩ (pre ++ post)
         else pre ++ post) ∧
      load st1.mem t.addr = size + 8 ∧
      (∀ n ∈ (if t.size - (size + 8) > 16 then
          Husky.add ⟨t.addr + (size + 8), t.size - (size + 8)⟩ (pre ++ post)
         else pre ++ post), t.addr + 16 ≤ n.addr ∨ n.addr + 16 ≤ t.addr) ∧
      st1.stats.pages_mapped = st.stats.pages_mapped := by
  have ht := hlaid.2 t (by simp)
  have ht0 : t.addr ≠ 0 := by omega
  have hmod : (size + 8) % WORD = size + 8 := by
    apply Nat.mod_eq_of_lt
    unfold PAGE_SIZE at hs; unfold WORD; omega
  have hpre_t : ∀ n ∈ pre, n.addr + 16 ≤ t.addr := fun n hn =>
    (List.pairwise_append.1 hlaid.1).2.2 n hn t (by simp)
  have hpost_t : ∀ n ∈ post, t.addr + 16 ≤ n.addr := fun n hn =>
    (List.pairwise_cons.1 (List.pairwise_append.1 hlaid.1).2.1).1 n hn
  have hlaid2 : Laid (pre ++ post) :=
    laid_sublist _ _ hlaid ((List.Sublist.refl pre).append (List.sublist_cons_self t post))
  have hblock0 : ∀ n ∈ pre ++ post, t.addr + 16 ≤ n.addr ∨ n.addr + 16 ≤ t.addr := by
    intro n hn
    rcases List.mem_append.1 hn with hn | hn
    · exact Or.inr (hpre_t n hn)
    · exact Or.inl (hpost_t n hn)
  -- the search
  have hpos : ∀ n ∈ pre ++ t :: post, 0 < n.addr := fun n hn => (hlaid.2 n hn).1
  have hfind := find_fit_seg st.mem (size + 8) (pre ++ t :: post) st.freelist fuel hch hpos hf
  rw [find_fit_at (size + 8) t post hfit pre hpre] at hfind
  -- the unlinking
  obtain ⟨st1, u1, u2, u3, u4⟩ :=
    unlink_loop_seg t post st.freelist pre []
      ⟨st.mem, st.freelist, { st.stats with chunks_allocated := st.stats.chunks_allocated + 1 }⟩
      0 st.freelist fuel rfl rfl hch (Or.inl ⟨rfl, rfl⟩) (by simpa using hlaid)
      (by simp at hf ⊢; omega)
  simp only [List.nil_append] at u2
  have hsub : (load st1.mem t.addr + WORD - (size + 8)) % WORD = t.size - (size + 8) := by
    rw [u4]
    have : t.size + WORD - (size + 8) = (t.size - (size + 8)) + WORD := by omega
    rw [this, Nat.add_mod_right]
    exact Nat.mod_eq_of_lt (by omega)
  unfold hmalloc
  simp only [hmod, hs, if_true, hfind, ne_eq, ht0, not_false_eq_true]
  have u1' : unlink_loop t.addr fuel
      ⟨st.mem, st.freelist, { st.stats with chunks_allocated := st.stats.chunks_allocated + 1 }⟩
      0 st.freelist = some st1 := u1
  rw [u1']
  simp only [hsub]
  by_cases hc : t.size - (size + 8) > 16
  · simp only [hc, if_true]
    have hnode : ∀ n ∈ pre ++ post,
        t.addr + (size + 8) + 16 ≤ n.addr ∨ n.addr + 16 ≤ t.addr + (size + 8) := by
      intro n hn
      rcases List.mem_append.1 hn with hn | hn
      · have := hpre_t n hn
        omega
      · have := hnov n hn
        omega
    have hframe : Seg (store st1.mem (t.addr + (size + 8)) (t.size - (size + 8)))
        st1.freelist (pre ++ post) 0 := by
      apply seg_frame _ _ _ _ _ _ u2
      intro n hn
      have := hnode n hn
      omega
    have hsz : load (store st1.mem (t.addr + (size + 8)) (t.size - (size + 8)))
        (t.addr + (size + 8)) = t.size - (size + 8) := by
      rw [load_store_same]; exact Nat.mod_eq_of_lt (by omega)
    obtain ⟨st2, a1, a2, a3⟩ :=
      add_seg ⟨t.addr + (size + 8), t.size - (size + 8)⟩ (pre ++ post)
        ⟨store st1.mem (t.addr + (size + 8)) (t.size - (size + 8)), st1.freelist, st1.stats⟩
        fuel hframe hlaid2 hnode hsz (by simp only; omega)
        (show t.addr + (size + 8) < WORD by omega) (by simp at hf ⊢; omega)
    have a1' : add fuel
        ⟨store st1.mem (t.addr + (size + 8)) (t.size - (size + 8)), st1.freelist, st1.stats⟩
        (t.addr + (size + 8)) = some st2 := a1
    rw [a1']
    have hblock : ∀ n ∈ Husky.add ⟨t.addr + (size + 8), t.size - (size + 8)⟩ (pre ++ post),
        t.addr + 16 ≤ n.addr ∨ n.addr + 16 ≤ t.addr := by
      intro n hn
      rcases add_subset _ _ n hn with hn | hn
      · rw [hn]; left; simp only; omega
      · exact hblock0 n hn
    refine ⟨_, rfl, ?_, ?_, ?_, hblock, ?_⟩
    · apply seg_frame _ _ _ _ _ _ a2
      intro n hn
      have := hblock n hn
      omega
    · exact laid_add _ _ hlaid2 hnode (by simp only; omega)
        (show t.addr + (size + 8) + (t.size - (size + 8)) < WORD by omega)
    · simp only
      rw [load_store_same, hmod]
    · simp only
      rw [a3, u3]
  · simp only [hc, if_false]
    refine ⟨_, rfl, ?_, hlaid2, ?_, hblock0, ?_⟩
    · apply seg_frame _ _ _ _ _ _ u2
      intro n hn
      have := hblock0 n hn
      omega
    · simp only
      rw [load_store_same, hmod]
    · simp only
      rw [u3]


end Raw

/-- C4: from the initial state, `N ≥ 1` rounds of `hfree(hmalloc(s))` with
`s + headerWidth < PAGE_SIZE` all return, and exactly one page has been mapped
after them, whatever `N`.  The statement is about the byte-level execution, so
it covers the requests below 8 bytes, whose blocks are shorter than a list
cell.  The page `mmap` returns is not null and lies inside the address
space. -/
theorem C4_no_leak_on_small_path (pages : Nat → Nat) (s N fuel : Nat)
    (hs : s + headerWidth < PAGE_SIZE) (hN : 1 ≤ N) (hfuel : 2 ≤ fuel)
    (hpage : 0 < pages 0 ∧ pages 0 + PAGE_SIZE ≤ WORD) :
    ∃ st, Raw.churn pages s fuel N = some st ∧ st.stats.pages_mapped = 1 := by
  obtain ⟨n, rfl⟩ : ∃ n, N = n + 1 := ⟨N - 1, by omega⟩
  obtain ⟨st, h1, _, _, _, _, _, h7⟩ :=
    Raw.churn_settled pages s fuel hfuel hs hpage.1 hpage.2 n
  exact ⟨st, h1, h7⟩

/-- C5: from the initial state, `p = hmalloc(s); hfree(p); q = hmalloc(t)` with
`t ≤ s` and `s + headerWidth < PAGE_SIZE` returns `q = p` and maps no second
page.  The statement is about the byte-level execution. -/
theorem C5_reuse_of_freed_block (fuel page1 page2 s t : Nat) (hts : t ≤ s)
    (hs : s + headerWidth < PAGE_SIZE) (hfuel : 2 ≤ fuel)
    (hpage : 0 < page1 ∧ page1 + PAGE_SIZE ≤ WORD) :
    ∃ p q st, Raw.reuse fuel page1 page2 s t = some (p, q, st) ∧ q = p ∧
      st.stats.pages_mapped = 1 := by
  have hs8 : s + 8 < PAGE_SIZE := hs
  obtain ⟨st0, h1, h2, h3, h4⟩ :=
    Raw.hmalloc_fresh fuel Raw.State.init page1 s (by omega) hs8 rfl
  obtain ⟨st1, g1, g2, g3, g4, _, _, g7⟩ :=
    Raw.hfree_round fuel st0 page1 (s + 8) (PAGE_SIZE - (s + 8)) hfuel hpage.1 hs8 (by omega)
      hpage.2 h2 h4 (fun _ => by unfold PAGE_SIZE WORD at *; omega)
      (fun h => Raw.short_block_bound _ _ _ (by omega) h (by omega) hpage.2)
  obtain ⟨st2, k1, _, k3, _⟩ :=
    Raw.hmalloc_head fuel st1 page2 page1 t (by omega) (by omega) hpage.1 g2 (by omega) g3
  refine ⟨page1 + 8, page1 + 8, st2, ?_, rfl, ?_⟩
  · unfold Raw.reuse
    rw [h1, Option.some_bind]
    simp only
    rw [g1, Option.some_bind, k1, Option.some_bind]
  · rw [k3, g7, h3]
    rfl

/-- C4 at `s = 100`, `N = 5` and at `s = 0`, `N = 3`. -/
theorem C4_no_leak_on_small_path_witness :
    (∃ st, Raw.churn (fun i => pageA + 4096 * i) 100 8 5 = some st ∧
      st.stats.pages_mapped = 1) ∧
    (∃ st, Raw.churn (fun i => pageA + 4096 * i) 0 8 3 = some st ∧
      st.stats.pages_mapped = 1) :=
  ⟨C4_no_leak_on_small_path (fun i => pageA + 4096 * i) 100 5 8 (by decide) (by decide)
      (by decide) (by decide),
   C4_no_leak_on_small_path (fun i => pageA + 4096 * i) 0 3 8 (by decide) (by decide)
      (by decide) (by decide)⟩

/-- C5 at the specification's instance `s = 100`, `t = 50`, and at `s = 3`,
`t = 0`. -/
theorem C5_reuse_of_freed_block_witness :
    (∃ p q st, Raw.reuse 8 pageA pageB 100 50 = some (p, q, st) ∧ q = p ∧
      st.stats.pages_mapped = 1) ∧
    (∃ p q st, Raw.reuse 8 pageA pageB 3 0 = some (p, q, st) ∧ q = p ∧
      st.stats.pages_mapped = 1) :=
  ⟨C5_reuse_of_freed_block 8 pageA pageB 100 50 (by decide) (by decide) (by decide)
      (by decide),
   C5_reuse_of_freed_block 8 pageA pageB 3 0 (by decide) (by decide) (by decide)
      (by decide)⟩

/-- The byte-level runs behind C4 and C5, evaluated: five rounds at 100 bytes
leave the page as one node of 4096 bytes; a round at 0 bytes leaves one node
whose size field holds 65552. -/
theorem churn_evaluated :
    (Raw.churn (fun i => pageA + 4096 * i) 100 8 5).map
        (fun st => (st.stats.pages_mapped, Raw.free_nodes st.mem 8 st.freelist))
      = some (1, [⟨pageA, 4096⟩]) ∧
    (Raw.churn (fun i => pageA + 4096 * i) 0 8 3).map
        (fun st => (st.stats.pages_mapped, Raw.free_nodes st.mem 8 st.freelist))
      = some (1, [⟨pageA, 65552⟩]) ∧
    (Raw.reuse 8 pageA pageB 3 0).map (fun r => (r.1, r.2.1, r.2.2.stats.pages_mapped))
      = some (65544, 65544, 1) := by
  decide

namespace Par

/-- The third call of `farCopy` has no result: compaction of the class of
1048576 bytes finds the tombstone of `a` followed by the live chunk `b` and
copies 1999992 bytes from the header of `b` on.  The pointers are
`a = 16777232` and `b = 17825816`; the last word of that copy is read at
19825792, and the mapping of the page ends at 18780160. -/
theorem compaction_reads_past_the_mapping :
    farCopy.isNone = true ∧
    ((xmalloc arenaPages 10 State.init 1000000).bind fun a =>
      (xmalloc arenaPages 10 a.2 1000000).map fun b =>
        (a.1, b.1, b.1 - 8 + (1999992 - 8), mapping_end (a.1 - 16)))
      = some (16777232, 17825816, 19825792, 18780160) := by
  decide

end Par

end Husky
